import Mathlib

/-! Agent-Cat-Agent: the generation-to-execution pipeline.

A shallow embedding of

* `internal/llm/openai.go`   : `ExtractCodeFilesFromLLMResponse`
* `internal/agent/generator.go` : `WriteFilesToDirAndCollectMain`, `relPath`, `relPaths`,
  `RunCodeInDocker`, `MainFileName`
* `internal/agent/state.go`, `queue.go`, `worker.go`, `work_agent.go`, `persist.go` : the task
  record, the task queue, the worker, the work agent and the durable store
* `internal/container/docker.go` : `RunContainer`, `RunContainerWithMount`

Go strings are modelled as lists of Unicode characters (`Str`), i.e. as the rune sequence of
valid UTF-8 text.  A Go `map[string]string` is modelled as an association list with pairwise
distinct keys; a `range` over a map receives the entries in an arbitrary order, so functions
that iterate a map take the entries as a list and properties are stated for every such list.
-/

namespace AgentCat

/-- A Go string, as its sequence of runes. -/
abbrev Str := List Char

/-! ## Characters and fixed strings -/

/-- The backtick character (U+0060). -/
def tick : Char := Char.ofNat 96

/-- The line feed character (U+000A). -/
def nl : Char := Char.ofNat 10

/-- The three backticks of a markdown fence. -/
def fenceMark : Str := [tick, tick, tick]

/-- The language tag go. -/
def tagGo : Str := ['g', 'o']

/-- The language tag python. -/
def tagPython : Str := ['p', 'y', 't', 'h', 'o', 'n']

/-! ## Go standard library: package strings -/

/-- Go `unicode.IsSpace`: the Latin-1 spaces and the characters with the Unicode
White_Space property. -/
def isSpace (c : Char) : Bool :=
  let n := c.toNat
  n == 9 || n == 10 || n == 11 || n == 12 || n == 13 || n == 32 || n == 0x85 || n == 0xA0 ||
  n == 0x1680 || (0x2000 ≤ n && n ≤ 0x200A) || n == 0x2028 || n == 0x2029 || n == 0x202F ||
  n == 0x205F || n == 0x3000

/-- Go `strings.TrimSpace`: remove all leading and trailing white space. -/
def TrimSpace (s : Str) : Str :=
  ((s.dropWhile isSpace).reverse.dropWhile isSpace).reverse

/-- Go `strings.CutPrefix`: the remainder of `s` after the prefix `p`, when `s` starts with
`p`.  `strings.HasPrefix` is `(stripPrefix p s).isSome` and `strings.TrimPrefix` is the
remainder (or `s` itself). -/
def stripPrefix : Str → Str → Option Str
  | [], s => some s
  | _ :: _, [] => none
  | a :: p, b :: s => if a = b then stripPrefix p s else none

/-- Go `strings.Cut`: split `s` around the first occurrence of `pat`. -/
def cutAt (pat : Str) : Str → Option (Str × Str)
  | [] => (stripPrefix pat []).map (fun r => ([], r))
  | c :: cs =>
    match stripPrefix pat (c :: cs) with
    | some r => some ([], r)
    | none => (cutAt pat cs).map (fun br => (c :: br.1, br.2))

/-- Go `strings.Contains`. -/
def Contains (s sub : Str) : Bool := (cutAt sub s).isSome

/-- Go `strings.Split(s, sep)` for a one character separator: the pieces between the
separators, one more than there are separators. -/
def splitOn (sep : Char) : Str → List Str
  | [] => [[]]
  | c :: cs =>
    if c = sep then [] :: splitOn sep cs
    else
      match splitOn sep cs with
      | [] => [[c]]
      | l :: ls => (c :: l) :: ls

/-- One decimal digit as a character. -/
def digitChar (n : Nat) : Char := Char.ofNat (48 + n % 10)

/-- Worker of `decimal`: prepend the digits of `n` to `acc`. -/
def decimalAux : Nat → Nat → Str → Str
  | 0, _, acc => acc
  | fuel + 1, n, acc =>
    if n / 10 = 0 then digitChar n :: acc
    else decimalAux fuel (n / 10) (digitChar n :: acc)

/-- Go `fmt.Sprintf("%d", n)` for a non-negative `n`. -/
def decimal (n : Nat) : Str := decimalAux (n + 1) n []

/-! ## Go maps -/

/-- A Go `map[string]string`, as an association list with distinct keys. -/
abbrev GoMap := List (Str × Str)

/-- The assignment `m[k] = v`. -/
def mapSet : GoMap → Str → Str → GoMap
  | [], k, v => [(k, v)]
  | (k', v') :: m, k, v => if k' = k then (k, v) :: m else (k', v') :: mapSet m k v

/-- The lookup `m[k]`. -/
def mapGet : GoMap → Str → Option Str
  | [], _ => none
  | (k', v') :: m, k => if k' = k then some v' else mapGet m k

/-! ## `internal/llm/openai.go`: the response extractor

Both regular expressions of `ExtractCodeFilesFromLLMResponse` have the shape
`(?s)H(.*?)F` where `F` is the fence and `H` is a literal opening (an alternation of
literals for the tagged one).  With Go's leftmost-first semantics a match at a position exists
iff an opening is a prefix there and a fence occurs after it; the lazy group then ends at the
first such fence.  `FindAllStringSubmatch` resumes the search right after each match. -/

/-- The openings of `reLang`, in the order of the alternation `(go|python)`. -/
def langOpenings : List Str := [fenceMark ++ tagGo ++ [nl], fenceMark ++ tagPython ++ [nl]]

/-- The opening of `reNoLang`. -/
def noLangOpenings : List Str := [fenceMark ++ [nl]]

/-- Match `(?s)(H1|H2|..)(.*?)F` anchored at the start of `s`: the text of the lazy group
and the text after the match. -/
def matchAt : List Str → Str → Option (Str × Str)
  | [], _ => none
  | h :: hs, s =>
    match stripPrefix h s with
    | some s3 =>
      match cutAt fenceMark s3 with
      | some m => some m
      | none => matchAt hs s
    | none => matchAt hs s

/-- The leftmost match of the regular expression in `s`. -/
def findBlock (hs : List Str) : Str → Option (Str × Str)
  | [] => matchAt hs []
  | c :: cs =>
    match matchAt hs (c :: cs) with
    | some m => some m
    | none => findBlock hs cs

/-- All successive non-overlapping matches; every match is non-empty, so `fuel` larger than
the length of `s` is never exhausted. -/
def findAllBlocksAux (hs : List Str) : Nat → Str → List Str
  | 0, _ => []
  | fuel + 1, s =>
    match findBlock hs s with
    | none => []
    | some (body, rest) => body :: findAllBlocksAux hs fuel rest

/-- Go `re.FindAllStringSubmatch(content, -1)`, keeping the lazy group of each match. -/
def findAllBlocks (hs : List Str) (s : Str) : List Str :=
  findAllBlocksAux hs (s.length + 1) s

/-- The filename of the `i`-th tagged block (lines 33-41 of openai.go); `dot` is
`strings.LastIndex(defaultFile, ".")`, `none` standing for -1. -/
def lastIndexDot (s : Str) : Option Nat :=
  match cutAt ['.'] s.reverse with
  | some (after, _) => some (s.length - 1 - after.length)
  | none => none

/-- The filename under which the `i`-th tagged block is stored. -/
def blockFileName (defaultFile : Str) (i : Nat) : Str :=
  if i > 0 then
    match lastIndexDot defaultFile with
    | some dot =>
      if dot > 0 then defaultFile.take dot ++ decimal (i + 1) ++ defaultFile.drop dot
      else defaultFile ++ decimal (i + 1)
    | none => defaultFile ++ decimal (i + 1)
  else defaultFile

/-- The loop `for i, m := range matches` of `ExtractCodeFilesFromLLMResponse`. -/
def storeBlocks (defaultFile : Str) : List Str → Nat → GoMap → GoMap
  | [], _, files => files
  | m :: ms, i, files =>
    storeBlocks defaultFile ms (i + 1) (mapSet files (blockFileName defaultFile i) (TrimSpace m))

/-- `ExtractCodeFilesFromLLMResponse(content, defaultFile)`. -/
def ExtractCodeFilesFromLLMResponse (content defaultFile : Str) : GoMap :=
  let ms := findAllBlocks langOpenings content
  if ms.length > 0 then storeBlocks defaultFile ms 0 []
  else
    match findAllBlocks noLangOpenings content with
    | m :: _ => mapSet [] defaultFile (TrimSpace m)
    | [] => mapSet [] defaultFile (TrimSpace content)

/-! ## Go standard library: package path/filepath (Unix) -/

/-- The path separator. -/
def sepChar : Char := '/'

/-- The element dot. -/
def dotElem : Str := ['.']

/-- The element dot-dot. -/
def dotDotElem : Str := ['.', '.']

/-- The element pass of `filepath.Clean`: `st` is the stack of kept elements (last kept
first).  Empty and dot elements are dropped; a dot-dot element removes the preceding kept
element when that is not itself dot-dot, is dropped at the root of a rooted path, and is kept
otherwise. -/
def cleanComps (rooted : Bool) : List Str → List Str → List Str
  | st, [] => st.reverse
  | st, c :: cs =>
    if c = [] ∨ c = dotElem then cleanComps rooted st cs
    else if c = dotDotElem then
      match st with
      | top :: st' =>
        if top = dotDotElem then cleanComps rooted (c :: st) cs else cleanComps rooted st' cs
      | [] => if rooted then cleanComps rooted [] cs else cleanComps rooted [c] cs
    else cleanComps rooted (c :: st) cs

/-- Join path elements with single separators. -/
def joinComps : List Str → Str
  | [] => []
  | [c] => c
  | c :: cs => c ++ sepChar :: joinComps cs

/-- Go `filepath.IsAbs`. -/
def IsAbs (p : Str) : Bool := p.head? == some sepChar

/-- Go `filepath.Clean`. -/
def Clean (p : Str) : Str :=
  if p = [] then dotElem
  else
    let comps := cleanComps (IsAbs p) [] (splitOn sepChar p)
    if IsAbs p then sepChar :: joinComps comps
    else if comps = [] then dotElem
    else joinComps comps

/-- Go `filepath.Join(a, b)`: the elements from the first non-empty one on are joined with
separators and cleaned; the result is empty when both are empty. -/
def Join (a b : Str) : Str :=
  if a ≠ [] then Clean (a ++ sepChar :: b)
  else if b ≠ [] then Clean b
  else []

/-- Go `filepath.Base`. -/
def Base (p : Str) : Str :=
  if p = [] then dotElem
  else
    let r := p.reverse.dropWhile (fun c => c == sepChar)
    if r = [] then [sepChar]
    else (r.takeWhile (fun c => c != sepChar)).reverse

/-- Go `filepath.Dir`. -/
def Dir (p : Str) : Str :=
  Clean (p.reverse.dropWhile (fun c => c != sepChar)).reverse

/-- Go `filepath.Abs`; `cwd` is the result of `os.Getwd`, `none` when that fails. -/
def Abs (cwd : Option Str) (p : Str) : Option Str :=
  if IsAbs p then some (Clean p)
  else
    match cwd with
    | some wd => some (Join wd p)
    | none => none

/-- The elements of a cleaned path, without the leading separator of a rooted one. -/
def pathElems (p : Str) : List Str :=
  if p = [] then []
  else if IsAbs p then (if p.tail = [] then [] else splitOn sepChar p.tail)
  else splitOn sepChar p

/-- The element-wise comparison loop of `filepath.Rel`: drop the common leading elements. -/
def dropCommon : List Str → List Str → List Str × List Str
  | b :: bs, t :: ts => if b = t then dropCommon bs ts else (b :: bs, t :: ts)
  | bs, ts => (bs, ts)

/-- Go `filepath.Rel(basepath, targpath)` on the elements of the two cleaned paths; `none`
is the error result (with which Go returns the empty string): a rooted and an unrooted path
have no relative path, nor has a target that leaves the base at a dot-dot element.  `relPath`
calls it with the absolute working directory as base. -/
def Rel (basepath targpath : Str) : Option Str :=
  let base := Clean basepath
  let targ := Clean targpath
  if targ = base then some dotElem
  else
    let base' := if base = dotElem then [] else base
    if IsAbs base' != IsAbs targ then none
    else
      match dropCommon (pathElems base') (pathElems targ) with
      | (b :: bs, t :: ts) =>
        if b = dotDotElem then none
        else some (joinComps ((b :: bs).map (fun _ => dotDotElem) ++ t :: ts))
      | (b :: bs, []) => some (joinComps ((b :: bs).map (fun _ => dotDotElem)))
      | ([], ts) => some (joinComps ts)

/-! ## `internal/agent/generator.go`: the workspace writer -/

/-- The file system: `files` is the log of successful writes, most recent first, in front of
the initial contents; `dirs` lists the known directories, those made by `os.MkdirAll` in
front. -/
structure FS where
  files : List (Str × Str)
  dirs : List Str
deriving DecidableEq

/-- Reading a path: the most recently written contents. -/
def FS.read (fs : FS) (path : Str) : Option Str := mapGet fs.files path

/-- Go `os.WriteFile(path, data, 0644)`; whether the write succeeds in the current state is
decided by the environment `wr`.  `none` is the error result. -/
def WriteFile (wr : FS → Str → Bool) (fs : FS) (path data : Str) : Option FS :=
  if wr fs path then some { fs with files := (path, data) :: fs.files } else none

/-- Go `os.MkdirAll(dir, 0755)`; its error is ignored by the caller. -/
def MkdirAll (fs : FS) (dir : Str) : FS := { fs with dirs := dir :: fs.dirs }

/-- An environment in which a write succeeds iff the parent directory of the path is known
and the path is not itself a directory. -/
def dirWritable (fs : FS) (path : Str) : Bool :=
  decide (Dir path ∈ fs.dirs) && !decide (path ∈ fs.dirs)

/-- The language tag `"go"`. -/
def langGo : Str := ['g', 'o']

/-- The language tag `"python"`. -/
def langPython : Str := ['p', 'y', 't', 'h', 'o', 'n']

/-- The keyword `"package "`. -/
def packageKw : Str := ['p', 'a', 'c', 'k', 'a', 'g', 'e', ' ']

/-- The package name `"main"`. -/
def mainPkg : Str := ['m', 'a', 'i', 'n']

/-- The loop over the lines of a file (lines 108-113 of generator.go): the trimmed remainder
of the first line that starts with the keyword, `"main"` when the loop runs out. -/
def scanPackage : List Str → Str
  | [] => mainPkg
  | line :: ls =>
    match stripPrefix packageKw line with
    | some rest => TrimSpace rest
    | none => scanPackage ls

/-- The package a Go file declares, as lines 107-113 of generator.go compute it. -/
def pkgOf (code : Str) : Str := scanPackage (splitOn nl code)

/-- The result of `WriteFilesToDirAndCollectMain`: the file system it leaves and, when no
write failed, the entry files and the dependency files. -/
abbrev WriteResult := FS × Option (List Str × List Str)

/-- The loop `for name, code := range files` of `WriteFilesToDirAndCollectMain`, over the
entries in iteration order. -/
def writeLoop (wr : FS → Str → Bool) (workDir language : Str) :
    List (Str × Str) → FS → List Str → List Str → WriteResult
  | [], fs, mainFiles, depFiles => (fs, some (mainFiles, depFiles))
  | (name, code) :: rest, fs, mainFiles, depFiles =>
    if language ≠ langGo then
      let path := Join workDir name
      match WriteFile wr fs path code with
      | none => (fs, none)
      | some fs' => writeLoop wr workDir language rest fs' (mainFiles ++ [path]) depFiles
    else
      let pkg := pkgOf code
      if pkg = mainPkg then
        let path := Join workDir name
        match WriteFile wr fs path code with
        | none => (fs, none)
        | some fs' => writeLoop wr workDir language rest fs' (mainFiles ++ [path]) depFiles
      else
        let dir := Join workDir pkg
        let fs1 := MkdirAll fs dir
        let path := Join dir name
        match WriteFile wr fs1 path code with
        | none => (fs1, none)
        | some fs' => writeLoop wr workDir language rest fs' mainFiles (depFiles ++ [path])

/-- `WriteFilesToDirAndCollectMain(files, workDir, language)` run in the file system `fs`
with the entries of `files` ranged over in the given order. -/
def WriteFilesToDirAndCollectMain (wr : FS → Str → Bool) (files : GoMap)
    (workDir language : Str) (fs : FS) : WriteResult :=
  writeLoop wr workDir language files fs [] []

/-- `MainFileName(language)`. -/
def MainFileName (language : Str) : Str :=
  if language = langPython then ['m', 'a', 'i', 'n', '.', 'p', 'y']
  else ['m', 'a', 'i', 'n', '.', 'g', 'o']

/-! ## `internal/agent/generator.go`: the execution orchestrator -/

/-- One call of `Docker.RunContainerWithMount(ctx, image, cmd, hostDir, targetDir)`. -/
structure Call where
  image : Str
  cmd : List Str
  hostDir : Str
  targetDir : Str
deriving DecidableEq

/-- The pair `(string, error)` a call returns; a nil error is `none`, any other error is
its `Error()` text. -/
structure CallResult where
  out : Str
  err : Option Str
deriving DecidableEq

/-- The Container Runner: an external service with its own state. -/
abbrev Runner (σ : Type) := σ → Call → CallResult × σ

/-- How a Go call ends: it returns its `(string, error)` pair, or it panics. -/
inductive Outcome where
  | ret (out : Str) (err : Option Str)
  | panicked
deriving DecidableEq

/-- `relPath(path, workDir)`; `cwd` is the process's current directory. -/
def relPath (cwd : Option Str) (path workDir : Str) : Str :=
  match Abs cwd workDir with
  | some abs =>
    match Rel abs path with
    | some r => r
    | none => []
  | none => path

/-- `relPaths(files, workDir)`. -/
def relPaths (cwd : Option Str) (files : List Str) (workDir : Str) : List Str :=
  files.map (fun f => relPath cwd f workDir)

/-- The image every run uses. -/
def goImage : Str := "golang:1.24.0".toList

/-- The marker of a duplicate entry point. -/
def mainRedeclared : Str := "main redeclared".toList

/-- The words `go` and `run` that start every Go command. -/
def goRun : List Str := [['g', 'o'], ['r', 'u', 'n']]

/-- The header line of a report section, without its newline. -/
def sectionHeader (mf : Str) : Str :=
  "==== Output for ".toList ++ Base mf ++ " ====".toList

/-- The text `"[ERROR] "`. -/
def errorTag : Str := "[ERROR] ".toList

/-- The loop `for _, mf := range mainFiles` (lines 61-70 of generator.go): `result` is the
contents of the string builder, `calls` the calls made so far. -/
def perEntryLoop {σ : Type} (run : Runner σ) (cwd : Option Str) (workDir targetDir : Str)
    (depFiles : List Str) : List Str → σ → Str → List Call → Str × List Call × σ
  | [], s, result, calls => (result, calls, s)
  | mf :: rest, s, result, calls =>
    let cmd := goRun ++ [relPath cwd mf workDir] ++ relPaths cwd depFiles workDir
    let call : Call := ⟨goImage, cmd, workDir, targetDir⟩
    let r := run s call
    let result1 := result ++ (sectionHeader mf ++ [nl])
    let result2 :=
      match r.1.err with
      | some e => result1 ++ (errorTag ++ e ++ [nl])
      | none => result1
    perEntryLoop run cwd workDir targetDir depFiles rest r.2 (result2 ++ (r.1.out ++ [nl]))
      (calls ++ [call])

/-- `Generator.RunCodeInDocker(ctx, language, workDir, mainFiles, depFiles, targetDir)`:
what it returns, the calls it makes to the Container Runner in order, and the state it
leaves the runner in. -/
def RunCodeInDocker {σ : Type} (run : Runner σ) (cwd : Option Str) (s : σ)
    (language workDir : Str) (mainFiles depFiles : List Str) (targetDir : Str) :
    Outcome × List Call × σ :=
  if language ≠ langGo then
    if language = langPython then
      match mainFiles with
      | [] => (Outcome.panicked, [], s)
      | mf :: _ =>
        let call : Call := ⟨goImage, [langPython, mf], workDir, targetDir⟩
        let r := run s call
        (Outcome.ret r.1.out r.1.err, [call], r.2)
    else (Outcome.ret [] (some ("unsupported language: ".toList ++ language)), [], s)
  else if mainFiles.length = 1 then
    let cmd := goRun ++ relPaths cwd mainFiles workDir ++ relPaths cwd depFiles workDir
    let call : Call := ⟨goImage, cmd, workDir, targetDir⟩
    let r := run s call
    (Outcome.ret r.1.out r.1.err, [call], r.2)
  else
    let cmdAll := goRun ++ relPaths cwd mainFiles workDir ++ relPaths cwd depFiles workDir
    let callAll : Call := ⟨goImage, cmdAll, workDir, targetDir⟩
    let r := run s callAll
    match r.1.err with
    | none => (Outcome.ret r.1.out none, [callAll], r.2)
    | some e =>
      if !Contains (r.1.out ++ e) mainRedeclared then (Outcome.ret r.1.out (some e), [callAll], r.2)
      else
        let res := perEntryLoop run cwd workDir targetDir depFiles mainFiles r.2 [] [callAll]
        (Outcome.ret res.1 none, res.2.1, res.2.2)

/-! ## Vocabulary of the properties -/

/-- One fenced block of a response tagged `tag`, with the text `before` that precedes it. -/
structure Block where
  before : Str
  tag : Str
  body : Str
deriving DecidableEq

/-- The text of a tagged fenced block: the opening fence directly followed by the tag and a
newline, the body, the closing fence. -/
def Block.text (b : Block) : Str := fenceMark ++ b.tag ++ [nl] ++ b.body ++ fenceMark

/-- A response made of the given blocks, each after its preceding text, and a final text. -/
def renderBlocks : List Block → Str → Str
  | [], post => post
  | b :: bs, post => b.before ++ b.text ++ renderBlocks bs post

/-- No opening fence tagged go or python occurs in `s`. -/
def NoTaggedOpening (s : Str) : Prop :=
  ¬ (fenceMark ++ tagGo ++ [nl]) <:+: s ∧ ¬ (fenceMark ++ tagPython ++ [nl]) <:+: s

/-- The fence that closes a block with body `body` is the first fence after the opening:
no fence starts inside the body. -/
def FenceFree (body : Str) : Prop := ¬ fenceMark <:+: body ++ [tick, tick]

/-- A block is tagged go or python, its body ends at the first fence, and the text in front
of it opens no tagged block. -/
def Block.WellFormed (b : Block) : Prop :=
  (b.tag = tagGo ∨ b.tag = tagPython) ∧ NoTaggedOpening b.before ∧ FenceFree b.body

/-- Somewhere in `s` there is a fenced block tagged go or python. -/
def HasTaggedBlock (s : Str) : Prop :=
  ∃ a tag b c, (tag = tagGo ∨ tag = tagPython) ∧
    s = a ++ (fenceMark ++ tag ++ [nl]) ++ b ++ fenceMark ++ c

/-- The filename the specification gives the `i`-th block (counted from 0) for the default
filename `stem ++ "." ++ ext`. -/
def specFileName (stem ext : Str) (i : Nat) : Str :=
  if i = 0 then stem ++ '.' :: ext else stem ++ decimal (i + 1) ++ '.' :: ext

/-- The number a string of decimal digits denotes. -/
def digitsValue (s : Str) : Nat := s.foldl (fun v c => 10 * v + (c.toNat - 48)) 0

/-- An opening of either regular expression: a fence followed by at least one character, none
of them a backtick. -/
def IsOpening (h : Str) : Prop := ∃ tail, h = fenceMark ++ tail ∧ tail ≠ [] ∧ tick ∉ tail

/-- A response of two tagged blocks, used to exercise the numbering of the filenames. -/
def twoBlocks : List Block :=
  [⟨"first:\n".toList, tagGo, "package main\n".toList⟩,
   ⟨"\nsecond:\n".toList, tagPython, "print(1)\n".toList⟩]

/-- The namespace of a Go file in the words of the specification: the white-space-trimmed
text that follows the keyword on the first line beginning with the keyword, and `main` when no
line begins with it. -/
def declaredNamespace (code : Str) : Str :=
  match (splitOn nl code).find? (fun l => packageKw.isPrefixOf l) with
  | some l => TrimSpace (l.drop packageKw.length)
  | none => mainPkg

/-- A file is an entry file when the language has no namespaces or the file declares the
entry namespace. -/
def isEntryFile (language code : Str) : Bool :=
  decide (language ≠ langGo) || decide (declaredNamespace code = mainPkg)

/-- The workspace layout: entry files directly under the working directory, dependency
files under the sub-directory named after their namespace. -/
def writePath (workDir language name code : Str) : Str :=
  if isEntryFile language code then Join workDir name
  else Join (Join workDir (declaredNamespace code)) name

/-- A plain file name: not empty, without a path separator, and neither dot nor dot-dot. -/
def PlainName (n : Str) : Prop := n ≠ [] ∧ sepChar ∉ n ∧ n ≠ dotElem ∧ n ≠ dotDotElem

/-- The three files of the test of the workspace writer, in one iteration order. -/
def testFiles : GoMap :=
  [("main.go".toList, "package main\nfunc main(){}".toList),
   ("util.go".toList, "package util\nfunc Foo(){}".toList),
   ("helper.go".toList, "package helper\nfunc Bar(){}".toList)]

/-- Two Go files whose paths collide: a file of package util and an entry file whose name
leads into the directory util. -/
def collidingGoFiles : GoMap :=
  [("a.go".toList, "package util\nfunc Foo(){}".toList),
   ("util/a.go".toList, "package main\nfunc main(){}".toList)]

/-- Two Python files whose names denote the same path. -/
def collidingPyFiles : GoMap :=
  [("a.py".toList, "print(1)".toList), ("./a.py".toList, "print(2)".toList)]

/-- A file system in which only the directory `dir` exists. -/
def emptyDir (dir : Str) : FS := ⟨[], [dir]⟩

/-- The call of the combined run as `RunCodeInDocker` builds it (lines 52-55 of
generator.go): the image, the command `cmdAll`, in which every file went through the code's
`relPath`, the working directory and the target directory. -/
def callAll (cwd : Option Str) (workDir targetDir : Str) (mainFiles depFiles : List Str) :
    Call :=
  ⟨goImage, goRun ++ relPaths cwd mainFiles workDir ++ relPaths cwd depFiles workDir,
   workDir, targetDir⟩

/-- The call of the loop body for the entry file `mf` as `RunCodeInDocker` builds it (lines
62-64 of generator.go): the image, the command `cmd`, in which every file went through the
code's `relPath`, the working directory and the target directory. -/
def callEntry (cwd : Option Str) (workDir targetDir : Str) (depFiles : List Str) (mf : Str) :
    Call :=
  ⟨goImage, goRun ++ [relPath cwd mf workDir] ++ relPaths cwd depFiles workDir,
   workDir, targetDir⟩

/-- The results of making the given calls one after the other, from the state `s`. -/
def runSeq {σ : Type} (run : Runner σ) : σ → List Call → List CallResult
  | _, [] => []
  | s, c :: cs => (run s c).1 :: runSeq run (run s c).2 cs

/-- The state of the runner after the given calls. -/
def runFinal {σ : Type} (run : Runner σ) : σ → List Call → σ
  | s, [] => s
  | s, c :: cs => runFinal run (run s c).2 cs

/-- One section of the report: the header with the base name of the entry file and a
newline, the error line when the run failed, the output of the run and a newline. -/
def reportSection (mf : Str) (r : CallResult) : Str :=
  "==== Output for ".toList ++ Base mf ++ " ====".toList ++ [nl]
    ++ (match r.err with
        | some e => "[ERROR] ".toList ++ e ++ [nl]
        | none => [])
    ++ r.out ++ [nl]

/-- A runner for the scenarios: its state counts the calls made so far; the first call
fails with a duplicate entry point, the second fails to build and every later one prints a
greeting. -/
def demoRunner : Runner Nat := fun s _ =>
  if s = 0 then (⟨[], some "./b.go:3:6: main redeclared in this block".toList⟩, s + 1)
  else if s = 1 then
    (⟨"# command-line-arguments".toList, some "exit status 1".toList⟩, s + 1)
  else (⟨"hello".toList, none⟩, s + 1)

/-- Two entry files of the scenarios. -/
def demoMains : List Str := ["/w/a.go".toList, "/w/b.go".toList]

/-- The dependency file of the scenarios. -/
def demoDeps : List Str := ["/w/util/u.go".toList]

/-- A runner whose combined run fails for another reason than a duplicate entry point. -/
def failingRunner : Runner Nat := fun s _ =>
  (⟨"./a.go:4:2: undefined: x".toList, some "exit status 1".toList⟩, s + 1)

/-! ## `internal/agent/types.go`, `state.go`: the task record -/

/-- A `Task`; `Kind` is its field `Type`, and the fields `Result` and `CreatedAt` are left
out, no modelled function reads or writes them. -/
structure Task where
  ID : Str
  Kind : Str
  Status : Str
  Input : Str
  Language : Str
deriving DecidableEq

/-- `StatusPending`. -/
def StatusPending : Str := "pending".toList

/-- `StatusRunning`. -/
def StatusRunning : Str := "running".toList

/-- `StatusCompleted`. -/
def StatusCompleted : Str := "completed".toList

/-- `StatusFailed`. -/
def StatusFailed : Str := "failed".toList

/-- `(*Task).SetStatus(status)`; a `TaskStatus` is a string. -/
def Task.SetStatus (t : Task) (status : Str) : Task := { t with Status := status }

/-- `(*Task).IsTerminal()`. -/
def Task.IsTerminal (t : Task) : Bool :=
  t.Status == StatusCompleted || t.Status == StatusFailed

/-- The task after a sequence of `SetStatus` calls. -/
def setStatuses (t : Task) (calls : List Str) : Task := calls.foldl Task.SetStatus t

/-- The position of a status in the order pending, running, terminal of the specification;
any other string counts as pending. -/
def statusRank (s : Str) : Nat :=
  if s = StatusCompleted ∨ s = StatusFailed then 2
  else if s = StatusRunning then 1
  else 0

/-! ## `internal/agent/queue.go`: the task queue

Tasks are handled through pointers: the heap maps an address to the task stored there and a
queue holds addresses.  A `TaskQueue` is a buffered channel of capacity `size`; a send on a
full channel and a receive on an empty one block, which is the result `none`. -/

/-- The heap of tasks. -/
abbrev Heap := Nat → Task

/-- Store a task at an address. -/
def Heap.set (h : Heap) (p : Nat) (t : Task) : Heap := fun q => if q = p then t else h q

/-- A `TaskQueue`: the buffer of its channel, oldest first, and the capacity. -/
structure TaskQueue where
  buf : List Nat
  size : Nat
deriving DecidableEq

/-- `NewTaskQueue(size)`. -/
def NewTaskQueue (size : Nat) : TaskQueue := ⟨[], size⟩

/-- `(*TaskQueue).Enqueue(task)`. -/
def TaskQueue.Enqueue (q : TaskQueue) (task : Nat) : Option TaskQueue :=
  if q.buf.length < q.size then some { q with buf := q.buf ++ [task] } else none

/-- `(*TaskQueue).Dequeue()`, also the receive from `Chan()`. -/
def TaskQueue.Dequeue (q : TaskQueue) : Option (Nat × TaskQueue) :=
  match q.buf with
  | [] => none
  | p :: rest => some (p, { q with buf := rest })

/-- Enqueue the given tasks one after the other. -/
def enqueueAll : TaskQueue → List Nat → Option TaskQueue
  | q, [] => some q
  | q, p :: ps =>
    match q.Enqueue p with
    | some q' => enqueueAll q' ps
    | none => none

/-- Call `Dequeue` `n` times: the tasks returned, in order, and the queue left. -/
def dequeueN : TaskQueue → Nat → Option (List Nat × TaskQueue)
  | q, 0 => some ([], q)
  | q, n + 1 =>
    match q.Dequeue with
    | some (p, q') =>
      match dequeueN q' n with
      | some (ps, q'') => some (p :: ps, q'')
      | none => none
    | none => none

/-! ## `internal/agent/persist.go`: the durable store

The bucket `tasks` of the bbolt database is a map from key to value.  `Bucket.Put` rejects
an empty key, a key longer than `MaxKeySize` bytes and a value longer than `MaxValueSize`
bytes; `Bucket.Get` returns nil for a key that is not in the bucket. -/

/-- The number of bytes of `[]byte(s)`. -/
def byteLen (s : Str) : Nat := (s.map Char.utf8Size).sum

/-- The constant `MaxKeySize` of bbolt. -/
def MaxKeySize : Nat := 32768

/-- The constant `MaxValueSize` of bbolt. -/
def MaxValueSize : Nat := 2 ^ 31 - 2

/-- The `Put` of a bbolt bucket: the error, or the bucket with the key set. -/
def bucketPut (b : GoMap) (key value : Str) : Except Str GoMap :=
  if key = [] then Except.error "key required".toList
  else if byteLen key > MaxKeySize then Except.error "key too large".toList
  else if byteLen value > MaxValueSize then Except.error "value too large".toList
  else Except.ok (mapSet b key value)

/-- `SaveTask(task)` on the initialised store `db`: the error returned and the store
afterwards.  `commit` tells whether the transaction of `db.Update` can be committed; a
transaction that fails is rolled back. -/
def SaveTask (commit : Bool) (db : GoMap) (task : Task) : Option Str × GoMap :=
  match bucketPut db task.ID task.Status with
  | Except.error e => (some e, db)
  | Except.ok db' => if commit then (none, db') else (some "commit failed".toList, db)

/-- `GetTaskStatus(id)` on the initialised store `db`: the status and the error. -/
def GetTaskStatus (db : GoMap) (id : Str) : Str × Option Str :=
  match mapGet db id with
  | some v => (v, none)
  | none => ([], none)

/-! ## `internal/agent/work_agent.go`, `worker.go`: the agent and the worker -/

/-- A `DefaultWorkAgent`. -/
structure DefaultWorkAgent where
  queue : TaskQueue
deriving DecidableEq

/-- `NewWorkAgent(queueSize)`. -/
def NewWorkAgent (queueSize : Nat) : DefaultWorkAgent := ⟨NewTaskQueue queueSize⟩

/-- `(*DefaultWorkAgent).ProcessTask(input)`: the new task is allocated at the address
`fresh`; the result is the heap, the agent and the output text of the `TaskResult` (the error
is always nil), and `none` when `Enqueue` blocks. -/
def ProcessTask (heap : Heap) (fresh : Nat) (w : DefaultWorkAgent) (input : Str) :
    Option (Heap × DefaultWorkAgent × Str) :=
  match w.queue.Enqueue fresh with
  | some q =>
    some (heap.set fresh ⟨input, [], StatusPending, [], []⟩, ⟨q⟩,
      "Task ".toList ++ input ++ " enqueued".toList)
  | none => none

/-- Where the goroutine of `Worker.Start` is: at the `select`, between the two `SetStatus`
calls for the task at an address, or returned. -/
inductive Phase where
  | selecting
  | processing (p : Nat)
  | returned
deriving DecidableEq

/-- The worker with its surroundings: the heap, the queue it drains, its goroutine, whether
`quit` has been closed and whether the context has been cancelled, the durable store, and
the status transitions made so far. -/
structure World where
  heap : Heap
  queue : TaskQueue
  phase : Phase
  quitClosed : Bool
  ctxDone : Bool
  store : GoMap
  log : List (Nat × Str)

/-- What can happen next.  The first four are the steps of the worker: the `select` takes a
ready case (the task case, the quit case or the cancellation case), or the processing of the
received task ends.  The others are steps of the surroundings: a task is enqueued, `Stop` is
called, the context is cancelled. -/
inductive Event where
  | recv
  | finish
  | quit
  | done
  | enqueue (p : Nat)
  | stop
  | cancel
deriving DecidableEq

/-- One step; `none` when the event cannot happen in the state.  Among the ready cases of
the `select` any one may be taken.  `Stop` closes `quit` and can be called once; closing the
queue is not an event. -/
def step (w : World) : Event → Option World
  | Event.recv =>
    match w.phase, w.queue.Dequeue with
    | Phase.selecting, some (p, q) =>
      some { w with
        heap := w.heap.set p ((w.heap p).SetStatus StatusRunning)
        queue := q
        phase := Phase.processing p
        log := w.log ++ [(p, StatusRunning)] }
    | _, _ => none
  | Event.finish =>
    match w.phase with
    | Phase.processing p =>
      some { w with
        heap := w.heap.set p ((w.heap p).SetStatus StatusCompleted)
        phase := Phase.selecting
        log := w.log ++ [(p, StatusCompleted)] }
    | _ => none
  | Event.quit =>
    match w.phase, w.quitClosed with
    | Phase.selecting, true => some { w with phase := Phase.returned }
    | _, _ => none
  | Event.done =>
    match w.phase, w.ctxDone with
    | Phase.selecting, true => some { w with phase := Phase.returned }
    | _, _ => none
  | Event.enqueue p =>
    match w.queue.Enqueue p with
    | some q => some { w with queue := q }
    | none => none
  | Event.stop => if w.quitClosed then none else some { w with quitClosed := true }
  | Event.cancel => some { w with ctxDone := true }

/-- A run: the events happen one after the other. -/
def run : World → List Event → Option World
  | w, [] => some w
  | w, e :: es =>
    match step w e with
    | some w' => run w' es
    | none => none

/-- A fresh world: worker started on an empty queue of the given capacity. -/
def startWorld (heap : Heap) (size : Nat) (store : GoMap) : World :=
  ⟨heap, NewTaskQueue size, Phase.selecting, false, false, store, []⟩

/-- The tasks a run enqueues, in order. -/
def enqueued : List Event → List Nat
  | [] => []
  | Event.enqueue p :: es => p :: enqueued es
  | _ :: es => enqueued es

/-- No signal is delivered and no exit case is taken. -/
def noSignal (es : List Event) : Prop :=
  Event.quit ∉ es ∧ Event.done ∉ es ∧ Event.stop ∉ es ∧ Event.cancel ∉ es

/-- The worker is at the `select` with nothing to receive. -/
def World.quiescent (w : World) : Prop := w.phase = Phase.selecting ∧ w.queue.buf = []

/-- The two transitions of one processed task. -/
def bothTransitions (p : Nat) : List (Nat × Str) := [(p, StatusRunning), (p, StatusCompleted)]

/-- The schedule that enqueues every task and then lets the worker process them. -/
def drainSchedule (ps : List Nat) : List Event :=
  ps.map Event.enqueue ++ (ps.map (fun _ => [Event.recv, Event.finish])).flatten

/-- A heap in which every task is pending and has its address as ID. -/
def pendingHeap : Heap := fun p => ⟨decimal p, [], StatusPending, [], []⟩

/-- The arguments of a sequence of `SetStatus` calls follow the order pending, running,
terminal, starting from the status `s`. -/
def callsOrdered : Str → List Str → Bool
  | _, [] => true
  | s, c :: cs => decide (statusRank s ≤ statusRank c) && callsOrdered c cs

/-- The invariant of a worker that receives no signal, for the tasks `E` enqueued so far: the
tasks received are a prefix of `E` and the rest of `E` is in the queue; every task received
earlier has made its two transitions and is completed, the one being processed has made
the first and is running. -/
def WorkerInv (w : World) (E : List Nat) : Prop :=
  (w.phase = Phase.selecting ∧ ∃ finished, finished ++ w.queue.buf = E ∧
    w.log = (finished.map bothTransitions).flatten ∧
    ∀ p ∈ finished, (w.heap p).Status = StatusCompleted) ∨
  (∃ p finished, w.phase = Phase.processing p ∧ finished ++ p :: w.queue.buf = E ∧
    w.log = (finished.map bothTransitions).flatten ++ [(p, StatusRunning)] ∧
    (w.heap p).Status = StatusRunning ∧
    ∀ q ∈ finished, q ≠ p → (w.heap q).Status = StatusCompleted)

/-- The world of the worker test after the task at address 7 has been submitted through
`ProcessTask` to an agent whose queue the worker drains. -/
def submittedWorld : Option World :=
  (ProcessTask pendingHeap 7 (NewWorkAgent 10) "task-001".toList).map
    (fun r => ⟨r.1, r.2.1.queue, Phase.selecting, false, false, [], []⟩)

/-- A world in which the context has been cancelled while the task at address 0 is still in
the queue. -/
def cancelledWorld : World :=
  ⟨pendingHeap, ⟨[0], 10⟩, Phase.selecting, false, true, [], []⟩

/-- A world in which the context has been cancelled while the worker awaits the empty
queue. -/
def idleCancelledWorld : World :=
  ⟨pendingHeap, ⟨[], 10⟩, Phase.selecting, false, true, [], []⟩

/-! ## `internal/container/docker.go`: the container runner

The container runtime is an external service with the operations create, start, wait, logs
and remove; each takes the state of the runtime to a result and a new state. -/

/-- The request of `ContainerCreate`: image, command, working directory and bind mounts
(source and target). -/
structure CreateRequest where
  image : Str
  cmd : List Str
  workingDir : Str
  mounts : List (Str × Str)
deriving DecidableEq

/-- The container runtime.  `create` returns the ID of the new container; `wait` returns the
error delivered on the error channel, `none` when the container stopped; `logs` returns the
combined standard output and standard error of the container. -/
structure Runtime (ρ : Type) where
  create : ρ → CreateRequest → Except Str Str × ρ
  start : ρ → Str → Option Str × ρ
  wait : ρ → Str → Option Str × ρ
  logs : ρ → Str → Except Str Str × ρ
  remove : ρ → Str → Option Str × ρ

/-- What a run leaves: the returned pair, the text `stdcopy.StdCopy` copied to the standard
output and standard error of the process, and the state of the runtime. -/
structure RunOutcome (ρ : Type) where
  result : CallResult
  printed : Str
  state : ρ

/-- The statements both run functions share after a successful create (lines 46-62 and
88-104 of docker.go): start, wait, logs, copy of the logs, return of the container ID. -/
def startWaitLogs {ρ : Type} (rt : Runtime ρ) (s1 : ρ) (id : Str) : RunOutcome ρ :=
  match rt.start s1 id with
  | (some e, s2) => ⟨⟨[], some e⟩, [], s2⟩
  | (none, s2) =>
    match rt.wait s2 id with
    | (some e, s3) => ⟨⟨[], some e⟩, [], s3⟩
    | (none, s3) =>
      match rt.logs s3 id with
      | (Except.error e, s4) => ⟨⟨[], some e⟩, [], s4⟩
      | (Except.ok out, s4) => ⟨⟨id, none⟩, out, s4⟩

/-- `(*DockerClient).RunContainer(ctx, imageName, cmd)`. -/
def RunContainer {ρ : Type} (rt : Runtime ρ) (s : ρ) (imageName : Str) (cmd : List Str) :
    RunOutcome ρ :=
  match rt.create s ⟨imageName, cmd, [], []⟩ with
  | (Except.error e, s1) => ⟨⟨[], some e⟩, [], s1⟩
  | (Except.ok id, s1) => startWaitLogs rt s1 id

/-- `(*DockerClient).RunContainerWithMount(ctx, imageName, cmd, hostDir, targetDir)`; the
deferred `RemoveContainer` runs when the function returns and its error is dropped. -/
def RunContainerWithMount {ρ : Type} (rt : Runtime ρ) (s : ρ) (imageName : Str)
    (cmd : List Str) (hostDir targetDir : Str) : RunOutcome ρ :=
  match rt.create s ⟨imageName, cmd, targetDir, [(hostDir, targetDir)]⟩ with
  | (Except.error e, s1) => ⟨⟨[], some e⟩, [], s1⟩
  | (Except.ok id, s1) =>
    let o := startWaitLogs rt s1 id
    ⟨o.result, o.printed, (rt.remove o.state id).2⟩

/-- The Container Runner of the orchestrator: `g.Docker.RunContainerWithMount`. -/
def dockerRunner {ρ : Type} (rt : Runtime ρ) : Runner ρ := fun s call =>
  let o := RunContainerWithMount rt s call.image call.cmd call.hostDir call.targetDir
  (o.result, o.state)

/-- The state of a runtime as the set of existing containers, with the number of containers
created so far. -/
structure Containers where
  existing : List Str
  created : Nat
deriving DecidableEq

/-- A runtime in which every operation succeeds: a new container gets the ID c0, c1, ...,
every container prints a greeting, and remove deletes the container. -/
def okRuntime : Runtime Containers where
  create := fun s _ =>
    (Except.ok ('c' :: decimal s.created), ⟨('c' :: decimal s.created) :: s.existing, s.created + 1⟩)
  start := fun s _ => (none, s)
  wait := fun s _ => (none, s)
  logs := fun s _ => (Except.ok "hello\n".toList, s)
  remove := fun s id => (none, ⟨s.existing.filter (fun c => c != id), s.created⟩)

/-! ## Vocabulary of the properties, continued -/

/-- The elements of a path after cleaning. -/
def pathComps (p : Str) : List Str := cleanComps (IsAbs p) [] (splitOn sepChar p)

/-- The path `p` lies inside the directory `w`: both are rooted or both are not, and the
elements of `p` are those of `w` followed by at least one element, none of them dot-dot. -/
def Within (w p : Str) : Prop :=
  IsAbs p = IsAbs w ∧
    ∃ rest, rest ≠ [] ∧ dotDotElem ∉ rest ∧ pathComps p = pathComps w ++ rest

/-- A namespace that cannot lead out of the directory it is joined to: a relative path
without a dot-dot element. -/
def SafeNamespace (ns : Str) : Prop := IsAbs ns = false ∧ dotDotElem ∉ splitOn sepChar ns

/-- The stack of kept elements is what cleaning its own elements gives, and so is every
stack it was built on. -/
def StackOK (rooted : Bool) (st : List Str) : Prop :=
  ∀ a b, st = a ++ b → ∀ ys, cleanComps rooted [] (b.reverse ++ ys) = cleanComps rooted b ys

/-- A response with a block tagged rust, a sentence, and an untagged block. -/
def rustResponse : Str :=
  "```rust\nfn main() {}\n```\nRun it with cargo.\n```\nx := 1\n```".toList

/-- A response whose Go file declares the parent directory as its package. -/
def dotDotResponse : Str := "```go\npackage ..\nfunc Helper() {}\n```".toList

/-- The elements of a namespace that cleaning keeps: the non-empty ones other than dot. -/
def keptElems (cs : List Str) : List Str :=
  cs.filter (fun c => decide (c ≠ []) && decide (c ≠ dotElem))

/-- Every element of the stack is non-empty and free of separators. -/
def StackGood (st : List Str) : Prop := ∀ c ∈ st, c ≠ [] ∧ sepChar ∉ c

/-- A decimal digit. -/
def IsDigit (c : Char) : Prop := ∃ k, c = digitChar k

/-- A response with an entry file and a file of package util. -/
def utilResponse : Str :=
  "```go\npackage main\nfunc main(){}\n```\n```go\npackage util\nfunc Foo(){}\n```".toList

/-! ## `internal/agent/generator.go`: generation and writing -/

/-- How `GenerateCodeAndWriteFiles` ends: it returns the response, the first entry file and
the error, or it panics. -/
inductive GenOutcome where
  | ret (content mainFile : Str) (err : Option Str)
  | panicked
deriving DecidableEq

/-- The text standing for the error of a failed `os.WriteFile`. -/
def writeFailed : Str := "write failed".toList

/-- `Generator.GenerateCodeAndWriteFiles(ctx, prompt, language, model, workDir,
extractFiles)`: `completion` is the result of `RawChatCompletion`, `goimports` is the
command run by `PostProcessGoFiles` (its error and the file system it leaves), and the files
are ranged over in the order in which `extractFiles` lists them.  The access `mainFiles[0]`
panics on an empty list. -/
def GenerateCodeAndWriteFiles (completion : Except Str Str) (wr : FS → Str → Bool)
    (goimports : FS → Str → Option Str × FS) (extractFiles : Str → Str → GoMap)
    (language workDir : Str) (fs : FS) : GenOutcome × FS :=
  match completion with
  | Except.error e => (GenOutcome.ret [] [] (some e), fs)
  | Except.ok content =>
    match WriteFilesToDirAndCollectMain wr (extractFiles content (MainFileName language))
        workDir language fs with
    | (fs1, none) => (GenOutcome.ret [] [] (some writeFailed), fs1)
    | (fs1, some (mainFiles, _)) =>
      match (if language = langGo then goimports fs1 workDir else (none, fs1)) with
      | (some e, fs2) => (GenOutcome.ret [] [] (some e), fs2)
      | (none, fs2) =>
        match mainFiles with
        | [] => (GenOutcome.panicked, fs2)
        | mf :: _ => (GenOutcome.ret content mf none, fs2)

/-- A `goimports` that succeeds and leaves the files as they are. -/
def goimportsOk : FS → Str → Option Str × FS := fun fs _ => (none, fs)

/-- A response whose only Go file belongs to the package util. -/
def utilOnlyResponse : Str := "```go\npackage util\nfunc Foo(){}\n```".toList


/-! ## Vocabulary of the execution properties: the path relative to the working directory -/

/-- What is left of the elements `l` after the leading elements `pre`, when `l` starts with
them. -/
def dropPrefix : List Str → List Str → Option (List Str)
  | [], l => some l
  | _ :: _, [] => none
  | a :: pre, b :: l => if a = b then dropPrefix pre l else none

/-- The path of the file `p` relative to the directory `dir` in the words of the
specification, stated on the elements of the two paths and without `relPath`, `filepath.Rel`
or `filepath.Abs`: when `p` lies inside `dir` (both are rooted or both are not, and the
elements of `p` are those of `dir` followed by at least one more) it is the elements that
follow those of `dir`, joined by the separator; otherwise there is none. -/
def specRel (dir p : Str) : Option Str :=
  if IsAbs p = IsAbs dir then
    match dropPrefix (pathComps dir) (pathComps p) with
    | some (c :: rest) => some (joinComps (c :: rest))
    | _ => none
  else none

/-- The paths of the files relative to the directory `dir`, in order; none when one of the
files has no relative path. -/
def specRels (dir : Str) : List Str → Option (List Str)
  | [] => some []
  | f :: fs =>
    match specRel dir f, specRels dir fs with
    | some r, some rs => some (r :: rs)
    | _, _ => none

/-- The call the specification describes for a run: the run command go, run followed by the
given relative paths, with the working directory mounted at the target directory. -/
def specCall (workDir targetDir : Str) (rels : List Str) : Call :=
  ⟨goImage, "go".toList :: "run".toList :: rels, workDir, targetDir⟩

theorem stripPrefix_eq_some {p s r : Str} : stripPrefix p s = some r ↔ s = p ++ r := by
  induction p generalizing s with
  | nil => simp [stripPrefix, eq_comm]
  | cons a p ih =>
    cases s with
    | nil => simp [stripPrefix]
    | cons b s =>
      by_cases hab : a = b
      · subst hab; simp [stripPrefix, ih]
      · simp [stripPrefix, hab]; intro h; exact absurd h.symm hab

theorem stripPrefix_append (p r : Str) : stripPrefix p (p ++ r) = some r :=
  stripPrefix_eq_some.mpr rfl

theorem stripPrefix_eq_none {p s : Str} : stripPrefix p s = none ↔ ¬ p <+: s := by
  constructor
  · rintro h ⟨r, rfl⟩
    rw [stripPrefix_append] at h
    cases h
  · intro h
    cases hs : stripPrefix p s with
    | none => rfl
    | some r => exact absurd ⟨r, (stripPrefix_eq_some.mp hs).symm⟩ h

theorem cutAt_cons (pat : Str) (c : Char) (cs : Str) :
    cutAt pat (c :: cs) =
      match stripPrefix pat (c :: cs) with
      | some r => some ([], r)
      | none => (cutAt pat cs).map (fun br => (c :: br.1, br.2)) := rfl

theorem cutAt_some_decomp {pat s b r : Str} (h : cutAt pat s = some (b, r)) :
    s = b ++ pat ++ r := by
  induction s generalizing b with
  | nil =>
    simp only [cutAt, Option.map_eq_some'] at h
    obtain ⟨r', hr', heq⟩ := h
    cases heq
    have := stripPrefix_eq_some.mp hr'
    simpa using this
  | cons c cs ih =>
    simp only [cutAt] at h
    cases hs : stripPrefix pat (c :: cs) with
    | some r' =>
      rw [hs] at h
      cases h
      simpa using stripPrefix_eq_some.mp hs
    | none =>
      rw [hs] at h
      simp only [Option.map_eq_some'] at h
      obtain ⟨⟨b', r'⟩, hbr, heq⟩ := h
      cases heq
      have := ih hbr
      simp [this]

theorem cutAt_eq_none {pat s : Str} (h : ¬ pat <:+: s) : cutAt pat s = none := by
  induction s with
  | nil =>
    have : stripPrefix pat [] = none :=
      stripPrefix_eq_none.mpr (fun hp => h hp.isInfix)
    simp [cutAt, this]
  | cons c cs ih =>
    have h1 : stripPrefix pat (c :: cs) = none :=
      stripPrefix_eq_none.mpr (fun hp => h hp.isInfix)
    have h2 : cutAt pat cs = none :=
      ih (fun hp => h (hp.trans (List.suffix_cons c cs).isInfix))
    simp [cutAt, h1, h2]

theorem cutAt_first {pat : Str} (hpat : pat ≠ []) (b r : Str)
    (h : ¬ pat <:+: b ++ pat.dropLast) : cutAt pat (b ++ pat ++ r) = some (b, r) := by
  induction b with
  | nil =>
    cases pat with
    | nil => exact absurd rfl hpat
    | cons a p =>
      have := stripPrefix_append (a :: p) r
      simp only [List.nil_append, List.cons_append] at this ⊢
      simp [cutAt, this]
  | cons c b ih =>
    have hlen : pat.length ≤ (c :: b ++ pat.dropLast).length := by
      have : 0 < pat.length := List.length_pos.mpr hpat
      simp [List.length_dropLast]; omega
    have h1 : stripPrefix pat (c :: (b ++ pat ++ r)) = none := by
      apply stripPrefix_eq_none.mpr
      intro hp
      apply h
      have hq : (c :: b ++ pat.dropLast) <+: c :: (b ++ pat ++ r) := by
        refine ⟨pat.getLast hpat :: r, ?_⟩
        have := List.dropLast_append_getLast hpat
        conv_rhs => rw [← this]
        simp
      exact (List.prefix_of_prefix_length_le hp hq hlen).isInfix
    have h2 : cutAt pat (b ++ pat ++ r) = some (b, r) :=
      ih (fun hp => h (hp.trans (List.suffix_cons c _).isInfix))
    show cutAt pat (c :: (b ++ pat ++ r)) = some (c :: b, r)
    rw [cutAt_cons, h1, h2]
    rfl

theorem Contains_iff {s sub : Str} : Contains s sub = true ↔ sub <:+: s := by
  constructor
  · intro h
    unfold Contains at h
    cases hc : cutAt sub s with
    | none => rw [hc] at h; cases h
    | some br =>
      obtain ⟨b, r⟩ := br
      exact ⟨b, r, (cutAt_some_decomp hc).symm⟩
  · intro h
    by_contra hn
    unfold Contains at hn
    cases hc : cutAt sub s with
    | none =>
      clear hn
      induction s with
      | nil =>
        simp only [cutAt, Option.map_eq_none'] at hc
        exact stripPrefix_eq_none.mp hc (List.infix_nil.mp h ▸ List.prefix_refl _)
      | cons c cs ih =>
        simp only [cutAt] at hc
        cases hs : stripPrefix sub (c :: cs) with
        | some r => rw [hs] at hc; cases hc
        | none =>
          rw [hs] at hc
          simp only [Option.map_eq_none'] at hc
          rcases List.infix_cons_iff.mp h with hp | hi
          · exact stripPrefix_eq_none.mp hs hp
          · exact ih hi hc
    | some br => rw [hc] at hn; simp at hn

theorem splitOn_cons (sep c : Char) (cs : Str) :
    splitOn sep (c :: cs) =
      if c = sep then [] :: splitOn sep cs
      else
        match splitOn sep cs with
        | [] => [[c]]
        | l :: ls => (c :: l) :: ls := rfl

theorem splitOn_ne_nil (sep : Char) (s : Str) : splitOn sep s ≠ [] := by
  induction s with
  | nil => simp [splitOn]
  | cons c cs ih =>
    simp only [splitOn]
    split
    · simp
    · split <;> simp

theorem splitOn_of_not_mem {sep : Char} {s : Str} (h : sep ∉ s) : splitOn sep s = [s] := by
  induction s with
  | nil => rfl
  | cons c cs ih =>
    simp only [List.mem_cons, not_or] at h
    simp [splitOn, Ne.symm h.1, ih h.2]

theorem splitOn_append_sep (sep : Char) (a b : Str) :
    splitOn sep (a ++ sep :: b) = splitOn sep a ++ splitOn sep b := by
  induction a with
  | nil => simp [splitOn]
  | cons c cs ih =>
    by_cases hc : c = sep
    · simp [splitOn, hc, ← ih]
    · cases hs : splitOn sep cs with
      | nil => exact absurd hs (splitOn_ne_nil sep cs)
      | cons l ls =>
        rw [List.cons_append, splitOn_cons, splitOn_cons, if_neg hc, if_neg hc, ih, hs]
        rfl
/-! ## Lemmas on the regular expression matcher -/

theorem langOpenings_isOpening : ∀ h ∈ langOpenings, IsOpening h := by
  intro h hh
  simp only [langOpenings, List.mem_cons, List.mem_singleton, List.not_mem_nil, or_false] at hh
  rcases hh with rfl | rfl
  · exact ⟨tagGo ++ [nl], by simp, by simp [tagGo], by decide⟩
  · exact ⟨tagPython ++ [nl], by simp, by simp [tagPython], by decide⟩

theorem noLangOpenings_isOpening : ∀ h ∈ noLangOpenings, IsOpening h := by
  intro h hh
  simp only [noLangOpenings, List.mem_singleton] at hh
  subst hh
  exact ⟨[nl], rfl, by simp, by decide⟩

/-- An opening that starts in a non-empty text followed by a fence lies inside that text. -/
theorem opening_prefix_of_straddle {h pre y : Str} (hop : IsOpening h) (hpre : pre ≠ [])
    (hp : h <+: pre ++ fenceMark ++ y) : h <+: pre := by
  obtain ⟨tail, rfl, htail, hnt⟩ := hop
  obtain ⟨x, hx⟩ := hp
  rw [List.append_assoc pre] at hx
  rcases List.append_eq_append_iff.mp hx with ⟨a', ha', hb'⟩ | ⟨c', hc', _⟩
  · -- pre = (fence ++ tail) ++ a'
    exact ⟨a', ha'.symm⟩
  · -- fence ++ tail = pre ++ c'
    cases c' with
    | nil => simp at hc'; exact ⟨[], by simp [hc']⟩
    | cons t c'' =>
      exfalso
      rename_i hfy
      have ht : t = tick := by
        simp [fenceMark] at hfy
        exact hfy.1.symm
      subst ht
      rcases pre with _ | ⟨p1, _ | ⟨p2, _ | ⟨p3, pre'⟩⟩⟩
      · exact hpre rfl
      · simp [fenceMark] at hc' hfy
        obtain ⟨-, rfl⟩ := hc'
        simp at hfy
        cases tail with
        | nil => exact htail rfl
        | cons u tail' =>
          simp at hfy
          exact hnt (by simp [← hfy.1])
      · simp [fenceMark] at hc' hfy
        obtain ⟨-, -, rfl⟩ := hc'
        cases tail with
        | nil => exact htail rfl
        | cons u tail' =>
          simp at hfy
          exact hnt (by simp [← hfy.1])
      · simp [fenceMark] at hc'
        obtain ⟨-, -, -, rfl⟩ := hc'
        exact hnt (by simp)

theorem matchAt_decomp {hs : List Str} {s b r : Str} (h : matchAt hs s = some (b, r)) :
    ∃ o ∈ hs, s = o ++ b ++ fenceMark ++ r := by
  induction hs with
  | nil => simp [matchAt] at h
  | cons o os ih =>
    simp only [matchAt] at h
    cases hs3 : stripPrefix o s with
    | none =>
      rw [hs3] at h
      obtain ⟨o', ho', heq⟩ := ih h
      exact ⟨o', List.mem_cons_of_mem _ ho', heq⟩
    | some s3 =>
      rw [hs3] at h
      simp only at h
      cases hc : cutAt fenceMark s3 with
      | none =>
        rw [hc] at h
        obtain ⟨o', ho', heq⟩ := ih h
        exact ⟨o', List.mem_cons_of_mem _ ho', heq⟩
      | some m =>
        rw [hc] at h
        cases h
        refine ⟨o, List.mem_cons_self _ _, ?_⟩
        rw [stripPrefix_eq_some.mp hs3, cutAt_some_decomp hc]
        simp

theorem findBlock_of_matchAt {hs : List Str} {s : Str} {m : Str × Str}
    (h : matchAt hs s = some m) : findBlock hs s = some m := by
  cases s with
  | nil => simpa [findBlock] using h
  | cons c cs => simp [findBlock, h]

theorem findBlock_decomp {hs : List Str} {s b r : Str} (h : findBlock hs s = some (b, r)) :
    ∃ a, ∃ o ∈ hs, s = a ++ o ++ b ++ fenceMark ++ r := by
  induction s with
  | nil =>
    obtain ⟨o, ho, heq⟩ := matchAt_decomp (show matchAt hs [] = some (b, r) from h)
    exact ⟨[], o, ho, by simpa using heq⟩
  | cons c cs ih =>
    simp only [findBlock] at h
    cases hm : matchAt hs (c :: cs) with
    | some m =>
      rw [hm] at h
      cases h
      obtain ⟨o, ho, heq⟩ := matchAt_decomp hm
      exact ⟨[], o, ho, by simpa using heq⟩
    | none =>
      rw [hm] at h
      obtain ⟨a, o, ho, heq⟩ := ih h
      exact ⟨c :: a, o, ho, by simp [heq]⟩

theorem findBlock_eq_none {hs : List Str} {s : Str}
    (h : ∀ a o b c, o ∈ hs → s ≠ a ++ o ++ b ++ fenceMark ++ c) : findBlock hs s = none := by
  cases hf : findBlock hs s with
  | none => rfl
  | some m =>
    obtain ⟨b, r⟩ := m
    obtain ⟨a, o, ho, heq⟩ := findBlock_decomp hf
    exact absurd heq (h a o b r ho)

theorem findBlock_skip {hs : List Str} (pre X : Str)
    (h : ∀ u v, pre = u ++ v → v ≠ [] → matchAt hs (v ++ X) = none) :
    findBlock hs (pre ++ X) = findBlock hs X := by
  induction pre with
  | nil => rfl
  | cons c cs ih =>
    have h0 := h [] (c :: cs) rfl (by simp)
    simp only [List.cons_append] at h0 ⊢
    simp only [findBlock, h0]
    exact ih (fun u v huv hv => h (c :: u) v (by simp [huv]) hv)

theorem matchAt_eq_none {hs : List Str} {s : Str} (h : ∀ o ∈ hs, ¬ o <+: s) :
    matchAt hs s = none := by
  induction hs with
  | nil => rfl
  | cons o os ih =>
    have h1 : stripPrefix o s = none := stripPrefix_eq_none.mpr (h o (List.mem_cons_self _ _))
    simp only [matchAt, h1]
    exact ih (fun o' ho' => h o' (List.mem_cons_of_mem _ ho'))

/-- Text in which no opening occurs is skipped up to the next fence. -/
theorem findBlock_prose {hs : List Str} (hop : ∀ o ∈ hs, IsOpening o) (pre Y : Str)
    (hpre : ∀ o ∈ hs, ¬ o <:+: pre) :
    findBlock hs (pre ++ (fenceMark ++ Y)) = findBlock hs (fenceMark ++ Y) := by
  apply findBlock_skip
  intro u v huv hv
  apply matchAt_eq_none
  intro o ho hp
  rw [← List.append_assoc] at hp
  have := opening_prefix_of_straddle (hop o ho) hv hp
  exact hpre o ho (huv ▸ (this.isInfix.trans (List.suffix_append u v).isInfix))

theorem findBlock_rest_length {hs : List Str} {s b r : Str}
    (h : findBlock hs s = some (b, r)) : r.length < s.length := by
  obtain ⟨a, o, _, heq⟩ := findBlock_decomp h
  subst heq
  simp [fenceMark]
  omega

theorem findAllBlocksAux_succ (hs : List Str) (fuel : Nat) (s : Str) :
    findAllBlocksAux hs (fuel + 1) s =
      match findBlock hs s with
      | none => []
      | some (body, rest) => body :: findAllBlocksAux hs fuel rest := rfl

theorem findAllBlocksAux_fuel (hs : List Str) :
    ∀ (f1 f2 : Nat) (s : Str), s.length < f1 → s.length < f2 →
      findAllBlocksAux hs f1 s = findAllBlocksAux hs f2 s := by
  intro f1
  induction f1 with
  | zero => intro f2 s h1; omega
  | succ f1 ih =>
    intro f2 s h1 h2
    cases f2 with
    | zero => omega
    | succ f2 =>
      simp only [findAllBlocksAux]
      cases hf : findBlock hs s with
      | none => rfl
      | some m =>
        obtain ⟨b, r⟩ := m
        have := findBlock_rest_length hf
        simp only
        rw [ih f2 r (by omega) (by omega)]

theorem findAllBlocks_step {hs : List Str} {s b r : Str} (h : findBlock hs s = some (b, r)) :
    findAllBlocks hs s = b :: findAllBlocks hs r := by
  have hl := findBlock_rest_length h
  unfold findAllBlocks
  rw [findAllBlocksAux_succ, h]
  simp only
  rw [findAllBlocksAux_fuel hs s.length (r.length + 1) r hl (by omega)]

theorem findAllBlocks_none {hs : List Str} {s : Str} (h : findBlock hs s = none) :
    findAllBlocks hs s = [] := by
  simp [findAllBlocks, findAllBlocksAux, h]

/-- The tagged expression matches a tagged block at its opening fence. -/
theorem matchAt_lang_block {tag body rest : Str} (htag : tag = tagGo ∨ tag = tagPython)
    (hbody : FenceFree body) :
    matchAt langOpenings (fenceMark ++ tag ++ [nl] ++ body ++ fenceMark ++ rest)
      = some (body, rest) := by
  have hcut : cutAt fenceMark (body ++ fenceMark ++ rest) = some (body, rest) :=
    cutAt_first (by simp [fenceMark]) body rest hbody
  rcases htag with rfl | rfl
  · have h1 : stripPrefix (fenceMark ++ tagGo ++ [nl])
        (fenceMark ++ tagGo ++ [nl] ++ body ++ fenceMark ++ rest)
        = some (body ++ fenceMark ++ rest) :=
      stripPrefix_eq_some.mpr (by simp)
    simp only [langOpenings, matchAt, h1, hcut]
  · have h0 : stripPrefix (fenceMark ++ tagGo ++ [nl])
        (fenceMark ++ tagPython ++ [nl] ++ body ++ fenceMark ++ rest) = none := by
      simp [fenceMark, tagGo, tagPython, stripPrefix]
    have h1 : stripPrefix (fenceMark ++ tagPython ++ [nl])
        (fenceMark ++ tagPython ++ [nl] ++ body ++ fenceMark ++ rest)
        = some (body ++ fenceMark ++ rest) :=
      stripPrefix_eq_some.mpr (by simp)
    simp only [langOpenings, matchAt, h0, h1, hcut]

theorem findBlock_lang_block {pre tag body rest : Str} (hpre : NoTaggedOpening pre)
    (htag : tag = tagGo ∨ tag = tagPython) (hbody : FenceFree body) :
    findBlock langOpenings (pre ++ (fenceMark ++ tag ++ [nl] ++ body ++ fenceMark) ++ rest)
      = some (body, rest) := by
  have h := findBlock_prose langOpenings_isOpening pre (tag ++ [nl] ++ body ++ fenceMark ++ rest)
    (by
      intro o ho
      simp only [langOpenings, List.mem_cons, List.mem_singleton, List.not_mem_nil,
        or_false] at ho
      rcases ho with rfl | rfl
      · exact hpre.1
      · exact hpre.2)
  have e : pre ++ (fenceMark ++ tag ++ [nl] ++ body ++ fenceMark) ++ rest
      = pre ++ (fenceMark ++ (tag ++ [nl] ++ body ++ fenceMark ++ rest)) := by simp
  rw [e, h]
  apply findBlock_of_matchAt
  have := @matchAt_lang_block tag body rest htag hbody
  simpa using this

theorem findBlock_lang_none {post : Str} (h : ¬ HasTaggedBlock post) :
    findBlock langOpenings post = none := by
  apply findBlock_eq_none
  intro a o b c ho heq
  apply h
  simp only [langOpenings, List.mem_cons, List.mem_singleton, List.not_mem_nil, or_false] at ho
  rcases ho with rfl | rfl
  · exact ⟨a, tagGo, b, c, Or.inl rfl, heq⟩
  · exact ⟨a, tagPython, b, c, Or.inr rfl, heq⟩

theorem findAllBlocks_render (bs : List Block) (post : Str)
    (hwf : ∀ b ∈ bs, b.WellFormed) (hpost : ¬ HasTaggedBlock post) :
    findAllBlocks langOpenings (renderBlocks bs post) = bs.map (fun b => b.body) := by
  induction bs with
  | nil => exact findAllBlocks_none (findBlock_lang_none hpost)
  | cons b bs ih =>
    obtain ⟨htag, hpre, hbody⟩ := hwf b (List.mem_cons_self _ _)
    have hf : findBlock langOpenings (renderBlocks (b :: bs) post)
        = some (b.body, renderBlocks bs post) := by
      have := @findBlock_lang_block b.before b.tag b.body (renderBlocks bs post) hpre htag hbody
      simpa [renderBlocks, Block.text] using this
    rw [findAllBlocks_step hf, ih (fun b' hb' => hwf b' (List.mem_cons_of_mem _ hb'))]
    rfl
/-! ## Lemmas on filenames and on the map -/

theorem digitChar_value (n : Nat) : (digitChar n).toNat - 48 = n % 10 := by
  unfold digitChar
  have h : n % 10 < 10 := Nat.mod_lt _ (by decide)
  generalize n % 10 = k at h
  interval_cases k <;> rfl

theorem foldl_digits (v : Nat) (s : Str) :
    s.foldl (fun v c => 10 * v + (c.toNat - 48)) v = v * 10 ^ s.length + digitsValue s := by
  unfold digitsValue
  induction s generalizing v with
  | nil => simp
  | cons c cs ih =>
    simp only [List.foldl_cons, List.length_cons]
    rw [ih (10 * v + (c.toNat - 48)), ih (10 * 0 + (c.toNat - 48))]
    ring

theorem digitsValue_cons (c : Char) (s : Str) :
    digitsValue (c :: s) = (c.toNat - 48) * 10 ^ s.length + digitsValue s := by
  have := foldl_digits (10 * 0 + (c.toNat - 48)) s
  simpa [digitsValue] using this

theorem digitsValue_decimalAux (fuel n : Nat) (acc : Str) (h : n < fuel) :
    digitsValue (decimalAux fuel n acc) = n * 10 ^ acc.length + digitsValue acc := by
  induction fuel generalizing n acc with
  | zero => omega
  | succ fuel ih =>
    simp only [decimalAux]
    split
    · rename_i h0
      rw [digitsValue_cons, digitChar_value]
      have : n % 10 = n := by omega
      rw [this]
    · rename_i h0
      rw [ih (n / 10) (digitChar n :: acc) (by omega), digitsValue_cons, digitChar_value]
      simp only [List.length_cons, pow_succ]
      have := Nat.div_add_mod n 10
      calc n / 10 * (10 ^ acc.length * 10) + (n % 10 * 10 ^ acc.length + digitsValue acc)
          = (10 * (n / 10) + n % 10) * 10 ^ acc.length + digitsValue acc := by ring
        _ = n * 10 ^ acc.length + digitsValue acc := by rw [this]

theorem digitsValue_decimal (n : Nat) : digitsValue (decimal n) = n := by
  have := digitsValue_decimalAux (n + 1) n [] (by omega)
  simpa [decimal, digitsValue] using this

theorem decimal_injective {n m : Nat} (h : decimal n = decimal m) : n = m := by
  have := congrArg digitsValue h
  simpa [digitsValue_decimal] using this

theorem decimal_succ_ne_nil (n : Nat) : decimal (n + 1) ≠ [] := by
  intro h
  have := congrArg digitsValue h
  rw [digitsValue_decimal] at this
  simp [digitsValue] at this

theorem blockFileName_zero (d : Str) : blockFileName d 0 = d := by
  simp [blockFileName]

theorem blockFileName_injective (d : Str) {i j : Nat}
    (h : blockFileName d i = blockFileName d j) : i = j := by
  have key : ∀ k : Nat, 0 < k → (blockFileName d k).length = d.length + (decimal (k + 1)).length
      ∧ ∃ a b, ∀ k' : Nat, 0 < k' → blockFileName d k' = a ++ decimal (k' + 1) ++ b := by
    intro k hk
    unfold blockFileName
    cases hd : lastIndexDot d with
    | none =>
      refine ⟨by simp [hk], d, [], ?_⟩
      intro k' hk'
      simp [hk']
    | some dot =>
      by_cases hdot : dot > 0
      · refine ⟨?_, d.take dot, d.drop dot, ?_⟩
        · simp only [hk, hdot, if_true, List.length_append, List.length_take, List.length_drop]
          omega
        · intro k' hk'
          simp [hk', hdot]
      · refine ⟨by simp [hk, hdot], d, [], ?_⟩
        intro k' hk'
        simp [hk', hdot]
  rcases Nat.eq_zero_or_pos i with hi | hi <;> rcases Nat.eq_zero_or_pos j with hj | hj
  · omega
  · exfalso
    subst hi
    rw [blockFileName_zero] at h
    have h1 := (key j hj).1
    have h2 := List.length_pos.mpr (decimal_succ_ne_nil j)
    rw [← h] at h1
    omega
  · exfalso
    subst hj
    rw [blockFileName_zero] at h
    have h1 := (key i hi).1
    have h2 := List.length_pos.mpr (decimal_succ_ne_nil i)
    rw [h] at h1
    omega
  · obtain ⟨-, a, b, hab⟩ := key i hi
    rw [hab i hi, hab j hj] at h
    have := decimal_injective (List.append_cancel_left (List.append_cancel_right h))
    omega

theorem mapSet_of_not_mem {m : GoMap} {k v : Str} (h : k ∉ m.map Prod.fst) :
    mapSet m k v = m ++ [(k, v)] := by
  induction m with
  | nil => rfl
  | cons kv m ih =>
    obtain ⟨k', v'⟩ := kv
    simp only [List.map_cons, List.mem_cons, not_or] at h
    simp [mapSet, Ne.symm h.1, ih h.2]

theorem mapGet_of_mem {m : GoMap} {k v : Str} (hnd : (m.map Prod.fst).Nodup)
    (h : (k, v) ∈ m) : mapGet m k = some v := by
  induction m with
  | nil => cases h
  | cons kv m ih =>
    obtain ⟨k', v'⟩ := kv
    simp only [List.map_cons, List.nodup_cons] at hnd
    rcases List.mem_cons.mp h with heq | hm
    · cases heq
      simp [mapGet]
    · have hne : k' ≠ k := by
        rintro rfl
        exact hnd.1 (List.mem_map.mpr ⟨(k', v), hm, rfl⟩)
      simp [mapGet, hne, ih hnd.2 hm]

/-- The pairs the loop over the matches stores, in order. -/
theorem storeBlocks_eq (d : Str) (ms : List Str) (i : Nat) (files : GoMap)
    (hf : ∀ k ∈ files.map Prod.fst, ∃ j, j < i ∧ k = blockFileName d j) :
    storeBlocks d ms i files =
      files ++ List.zipWith (fun j m => (blockFileName d j, TrimSpace m))
        (List.range' i ms.length) ms := by
  induction ms generalizing i files with
  | nil => simp [storeBlocks]
  | cons m ms ih =>
    have hnot : blockFileName d i ∉ files.map Prod.fst := by
      intro hmem
      obtain ⟨j, hj, heq⟩ := hf _ hmem
      have := blockFileName_injective d heq
      omega
    simp only [storeBlocks, mapSet_of_not_mem hnot]
    rw [ih (i + 1)]
    · simp [List.range'_succ]
    · intro k hk
      simp only [List.map_append, List.map_cons, List.map_nil, List.mem_append,
        List.mem_singleton] at hk
      rcases hk with hk | rfl
      · obtain ⟨j, hj, heq⟩ := hf k hk
        exact ⟨j, by omega, heq⟩
      · exact ⟨i, by omega, rfl⟩

theorem lastIndexDot_of_ext (stem ext : Str) (h : '.' ∉ ext) :
    lastIndexDot (stem ++ '.' :: ext) = some stem.length := by
  have hc : cutAt ['.'] (ext.reverse ++ ['.'] ++ stem.reverse)
      = some (ext.reverse, stem.reverse) := by
    apply cutAt_first (by simp)
    simp only [List.dropLast_single, List.append_nil]
    intro hin
    have : '.' ∈ ext.reverse := hin.subset (by simp)
    exact h (List.mem_reverse.mp this)
  have hr : (stem ++ '.' :: ext).reverse = ext.reverse ++ ['.'] ++ stem.reverse := by simp
  simp only [lastIndexDot, hr, hc]
  simp

theorem blockFileName_spec (stem ext : Str) (hstem : stem ≠ []) (hext : '.' ∉ ext) (i : Nat) :
    blockFileName (stem ++ '.' :: ext) i = specFileName stem ext i := by
  unfold blockFileName specFileName
  rw [lastIndexDot_of_ext stem ext hext]
  have hl : 0 < stem.length := List.length_pos.mpr hstem
  by_cases hi : i = 0
  · simp [hi]
  · have : i > 0 := Nat.pos_of_ne_zero hi
    simp [hi, this, hl]

/-- The extraction of a response made of at least one well-formed tagged block. -/
theorem extract_render (bs : List Block) (post d : Str) (hne : bs ≠ [])
    (hwf : ∀ b ∈ bs, b.WellFormed) (hpost : ¬ HasTaggedBlock post) :
    ExtractCodeFilesFromLLMResponse (renderBlocks bs post) d =
      List.zipWith (fun j b => (blockFileName d j, TrimSpace b.body))
        (List.range' 0 bs.length) bs := by
  unfold ExtractCodeFilesFromLLMResponse
  rw [findAllBlocks_render bs post hwf hpost]
  have hl : (bs.map (fun b => b.body)).length > 0 := by
    simpa using List.length_pos.mpr hne
  simp only [hl, if_true]
  rw [storeBlocks_eq d _ 0 [] (by simp)]
  simp [List.zipWith_map_right]
/-! ## The response extractor: the claims -/

theorem fence_infix_of_opening {o s : Str} (ho : IsOpening o) (h : o <:+: s) :
    fenceMark <:+: s := by
  obtain ⟨tail, rfl, -, -⟩ := ho
  exact (List.prefix_append fenceMark tail).isInfix.trans h

theorem findBlock_none_of_no_fence {hs : List Str} (hop : ∀ o ∈ hs, IsOpening o) {s : Str}
    (h : ¬ fenceMark <:+: s) : findBlock hs s = none := by
  apply findBlock_eq_none
  intro a o b c ho heq
  apply h
  apply fence_infix_of_opening (hop o ho)
  exact ⟨a, b ++ fenceMark ++ c, by simp [heq]⟩

/-- After a closing fence that is followed by fence-free text nothing matches any more. -/
theorem findBlock_none_after_fence {hs : List Str} (hop : ∀ o ∈ hs, IsOpening o) {post : Str}
    (h : ¬ fenceMark <:+: post) : findBlock hs (fenceMark ++ post) = none := by
  apply findBlock_eq_none
  intro a o b c ho heq
  apply h
  obtain ⟨tail, rfl, htail, -⟩ := hop o ho
  have hd := congrArg (List.drop 3) heq
  have e1 : List.drop 3 (fenceMark ++ post) = post := by simp [fenceMark]
  have hlen : 3 ≤ (a ++ (fenceMark ++ tail) ++ b).length := by simp [fenceMark]; omega
  rw [e1, List.append_assoc _ fenceMark c, List.drop_append_of_le_length hlen] at hd
  exact ⟨List.drop 3 (a ++ (fenceMark ++ tail) ++ b), c, by simp [hd]⟩

theorem findBlock_lang_untagged {pre body post : Str} (hpre : ¬ fenceMark <:+: pre)
    (hbody : FenceFree body) (hpost : ¬ fenceMark <:+: post) :
    findBlock langOpenings (pre ++ (fenceMark ++ [nl] ++ body ++ fenceMark) ++ post) = none := by
  have e : pre ++ (fenceMark ++ [nl] ++ body ++ fenceMark) ++ post
      = pre ++ (fenceMark ++ ([nl] ++ body ++ fenceMark ++ post)) := by simp
  rw [e, findBlock_prose langOpenings_isOpening pre _
    (fun o ho hin => hpre (fence_infix_of_opening (langOpenings_isOpening o ho) hin))]
  have hb : findBlock langOpenings (body ++ (fenceMark ++ post)) = none := by
    rw [findBlock_prose langOpenings_isOpening body post
      (fun o ho hin => hbody ((fence_infix_of_opening (langOpenings_isOpening o ho) hin).trans
        (List.prefix_append body _).isInfix))]
    exact findBlock_none_after_fence langOpenings_isOpening hpost
  have e2 : fenceMark ++ ([nl] ++ body ++ fenceMark ++ post)
      = tick :: tick :: tick :: nl :: (body ++ (fenceMark ++ post)) := by simp [fenceMark]
  rw [e2]
  have m0 : ∀ z : Str, matchAt langOpenings (tick :: tick :: tick :: nl :: z) = none := by
    intro z; apply matchAt_eq_none; intro o ho
    simp only [langOpenings, List.mem_cons, List.mem_singleton, List.not_mem_nil,
      or_false] at ho
    rcases ho with rfl | rfl <;> simp [fenceMark, tagGo, tagPython, tick, nl]
  have m1 : ∀ z : Str, matchAt langOpenings (tick :: tick :: nl :: z) = none := by
    intro z; apply matchAt_eq_none; intro o ho
    simp only [langOpenings, List.mem_cons, List.mem_singleton, List.not_mem_nil,
      or_false] at ho
    rcases ho with rfl | rfl <;> simp [fenceMark, tagGo, tagPython, tick, nl]
  have m2 : ∀ z : Str, matchAt langOpenings (tick :: nl :: z) = none := by
    intro z; apply matchAt_eq_none; intro o ho
    simp only [langOpenings, List.mem_cons, List.mem_singleton, List.not_mem_nil,
      or_false] at ho
    rcases ho with rfl | rfl <;> simp [fenceMark, tagGo, tagPython, tick, nl]
  have m3 : ∀ z : Str, matchAt langOpenings (nl :: z) = none := by
    intro z; apply matchAt_eq_none; intro o ho
    simp only [langOpenings, List.mem_cons, List.mem_singleton, List.not_mem_nil,
      or_false] at ho
    rcases ho with rfl | rfl <;> simp [fenceMark, tagGo, tagPython, tick, nl]
  simp only [findBlock, m0, m1, m2, m3]
  exact hb

theorem findBlock_noLang_untagged {pre body post : Str} (hpre : ¬ fenceMark <:+: pre)
    (hbody : FenceFree body) :
    findBlock noLangOpenings (pre ++ (fenceMark ++ [nl] ++ body ++ fenceMark) ++ post)
      = some (body, post) := by
  have e : pre ++ (fenceMark ++ [nl] ++ body ++ fenceMark) ++ post
      = pre ++ (fenceMark ++ ([nl] ++ body ++ fenceMark ++ post)) := by simp
  rw [e, findBlock_prose noLangOpenings_isOpening pre _
    (fun o ho hin => hpre (fence_infix_of_opening (noLangOpenings_isOpening o ho) hin))]
  apply findBlock_of_matchAt
  have hcut : cutAt fenceMark (body ++ fenceMark ++ post) = some (body, post) :=
    cutAt_first (by simp [fenceMark]) body post hbody
  have h1 : stripPrefix (fenceMark ++ [nl]) (fenceMark ++ ([nl] ++ body ++ fenceMark ++ post))
      = some (body ++ fenceMark ++ post) :=
    stripPrefix_eq_some.mpr (by simp)
  simp only [noLangOpenings, matchAt, h1, hcut]

/-- C1: a response with exactly one fenced block tagged go or python (text without a tagged
opening fence, then the opening fence with the tag and a newline, the body up to the first
closing fence, then text with no further tagged block) is extracted, for every default
filename `d`, to the map with the single entry `d ↦ body trimmed of white space`. -/
theorem C1_single_tagged_block (pre tag body post d : Str)
    (htag : tag = tagGo ∨ tag = tagPython) (hpre : NoTaggedOpening pre)
    (hbody : FenceFree body) (hpost : ¬ HasTaggedBlock post) :
    ExtractCodeFilesFromLLMResponse
      (pre ++ (fenceMark ++ tag ++ [nl] ++ body ++ fenceMark) ++ post) d
      = [(d, TrimSpace body)] := by
  have h := extract_render [⟨pre, tag, body⟩] post d (by simp)
    (by
      intro b hb
      rw [List.mem_singleton] at hb
      subst hb
      exact ⟨htag, hpre, hbody⟩) hpost
  simpa [renderBlocks, Block.text, blockFileName_zero] using h

theorem not_hasTaggedBlock_nil : ¬ HasTaggedBlock [] := by
  rintro ⟨a, tag, b, c, -, h⟩
  have := congrArg List.length h
  simp [fenceMark] at this
  omega

/-- The scenario of the test suite: the response with one go block and the default
filename main.go give the single file main.go. -/
theorem C1_single_tagged_block_witness :
    (NoTaggedOpening [] ∧ FenceFree "package main\nfunc main(){}\n".toList) ∧
    ExtractCodeFilesFromLLMResponse "```go\npackage main\nfunc main(){}\n```".toList
      "main.go".toList = [("main.go".toList, "package main\nfunc main(){}".toList)] :=
  ⟨⟨by unfold NoTaggedOpening; decide, by unfold FenceFree; decide⟩,
   C1_single_tagged_block [] tagGo "package main\nfunc main(){}\n".toList [] "main.go".toList
    (Or.inl rfl) (by unfold NoTaggedOpening; decide) (by unfold FenceFree; decide)
    not_hasTaggedBlock_nil⟩

/-- C2: a response made of n > 1 fenced blocks tagged go or python is extracted, for the
default filename `stem ++ "." ++ ext` (`stem` non-empty, no dot in `ext`), to a map of exactly
n entries with pairwise distinct filenames: block 0 under the default filename and block
i ≥ 1 under `stem ++ decimal (i+1) ++ "." ++ ext`, each with its trimmed body. -/
theorem C2_tagged_blocks_numbered (bs : List Block) (post stem ext : Str)
    (hn : 1 < bs.length) (hwf : ∀ b ∈ bs, b.WellFormed) (hpost : ¬ HasTaggedBlock post)
    (hstem : stem ≠ []) (hext : '.' ∉ ext) :
    (ExtractCodeFilesFromLLMResponse (renderBlocks bs post) (stem ++ '.' :: ext)).length
      = bs.length ∧
    ((ExtractCodeFilesFromLLMResponse (renderBlocks bs post) (stem ++ '.' :: ext)).map
      Prod.fst).Nodup ∧
    (ExtractCodeFilesFromLLMResponse (renderBlocks bs post) (stem ++ '.' :: ext)).map Prod.fst
      = (List.range bs.length).map (specFileName stem ext) ∧
    ∀ i b, bs[i]? = some b →
      mapGet (ExtractCodeFilesFromLLMResponse (renderBlocks bs post) (stem ++ '.' :: ext))
        (specFileName stem ext i) = some (TrimSpace b.body) := by
  have hne : bs ≠ [] := by
    intro h0; rw [h0] at hn; simp at hn
  have h := extract_render bs post (stem ++ '.' :: ext) hne hwf hpost
  have hname : ∀ i, blockFileName (stem ++ '.' :: ext) i = specFileName stem ext i :=
    blockFileName_spec stem ext hstem hext
  simp only [hname] at h
  have hkeys : (ExtractCodeFilesFromLLMResponse (renderBlocks bs post)
      (stem ++ '.' :: ext)).map Prod.fst = (List.range bs.length).map (specFileName stem ext) := by
    rw [h, List.range_eq_range']
    apply List.ext_getElem
    · simp
    · intro i h1 h2
      simp
  have hnd : ((ExtractCodeFilesFromLLMResponse (renderBlocks bs post)
      (stem ++ '.' :: ext)).map Prod.fst).Nodup := by
    rw [hkeys]
    apply List.Nodup.map _ (List.nodup_range _)
    intro i j hij
    rw [← hname, ← hname] at hij
    exact blockFileName_injective _ hij
  refine ⟨?_, hnd, hkeys, ?_⟩
  · rw [h]; simp
  · intro i b hib
    apply mapGet_of_mem hnd
    rw [h]
    have hi : i < bs.length := by
      rcases List.getElem?_eq_some_iff.mp hib with ⟨hi, -⟩
      exact hi
    have hb : bs[i] = b := by
      rcases List.getElem?_eq_some_iff.mp hib with ⟨_, hb⟩
      exact hb
    rw [List.mem_iff_getElem]
    refine ⟨i, by simpa using hi, ?_⟩
    simp [hb]

/-- Two tagged blocks with the default filename main.go give the files main.go and
main2.go. -/
theorem C2_tagged_blocks_numbered_witness :
    (1 < twoBlocks.length ∧ (∀ b ∈ twoBlocks, b.WellFormed) ∧ "main".toList ≠ [] ∧
      '.' ∉ "go".toList) ∧
    ExtractCodeFilesFromLLMResponse (renderBlocks twoBlocks []) "main.go".toList
      = [("main.go".toList, "package main".toList), ("main2.go".toList, "print(1)".toList)] ∧
    ((ExtractCodeFilesFromLLMResponse (renderBlocks twoBlocks [])
        ("main".toList ++ '.' :: "go".toList)).length = twoBlocks.length ∧
      ((ExtractCodeFilesFromLLMResponse (renderBlocks twoBlocks [])
        ("main".toList ++ '.' :: "go".toList)).map Prod.fst).Nodup ∧
      (ExtractCodeFilesFromLLMResponse (renderBlocks twoBlocks [])
        ("main".toList ++ '.' :: "go".toList)).map Prod.fst
        = (List.range twoBlocks.length).map (specFileName "main".toList "go".toList) ∧
      ∀ i b, twoBlocks[i]? = some b →
        mapGet (ExtractCodeFilesFromLLMResponse (renderBlocks twoBlocks [])
          ("main".toList ++ '.' :: "go".toList))
          (specFileName "main".toList "go".toList i) = some (TrimSpace b.body)) :=
  have hwf : ∀ b ∈ twoBlocks, b.WellFormed := by
    intro b hb
    simp only [twoBlocks, List.mem_cons, List.mem_singleton, List.not_mem_nil, or_false] at hb
    rcases hb with rfl | rfl
    · exact ⟨Or.inl rfl, by unfold NoTaggedOpening; decide, by unfold FenceFree; decide⟩
    · exact ⟨Or.inr rfl, by unfold NoTaggedOpening; decide, by unfold FenceFree; decide⟩
  ⟨⟨by decide, hwf, by decide, by decide⟩, by decide,
   C2_tagged_blocks_numbered twoBlocks [] "main".toList "go".toList (by decide) hwf
    not_hasTaggedBlock_nil (by decide) (by decide)⟩

/-- C3: a response whose only fences are those of one untagged block (fence-free text, the
opening fence directly followed by a newline, the body up to the first closing fence,
fence-free text) is extracted, for every default filename `d`, to the map with the single
entry `d ↦ body trimmed of white space`. -/
theorem C3_single_untagged_block (pre body post d : Str)
    (hpre : ¬ fenceMark <:+: pre) (hbody : FenceFree body) (hpost : ¬ fenceMark <:+: post) :
    ExtractCodeFilesFromLLMResponse
      (pre ++ (fenceMark ++ [nl] ++ body ++ fenceMark) ++ post) d
      = [(d, TrimSpace body)] := by
  unfold ExtractCodeFilesFromLLMResponse
  rw [findAllBlocks_none (findBlock_lang_untagged hpre hbody hpost),
    findAllBlocks_step (findBlock_noLang_untagged hpre hbody)]
  simp [mapSet]

/-- The scenario of the test suite for an untagged block, and one with prose around it. -/
theorem C3_single_untagged_block_witness :
    (¬ fenceMark <:+: "see: ".toList ∧ FenceFree "foo\nbar\n".toList ∧
      ¬ fenceMark <:+: " done".toList) ∧
    ExtractCodeFilesFromLLMResponse "```\nfoo\nbar\n```".toList "main.go".toList
      = [("main.go".toList, "foo\nbar".toList)] ∧
    ExtractCodeFilesFromLLMResponse "see: ```\nfoo\nbar\n``` done".toList "main.go".toList
      = [("main.go".toList, "foo\nbar".toList)] :=
  ⟨⟨by decide, by unfold FenceFree; decide, by decide⟩, by decide,
   C3_single_untagged_block "see: ".toList "foo\nbar\n".toList " done".toList "main.go".toList
    (by decide) (by unfold FenceFree; decide) (by decide)⟩

/-- C4: a response without any fence is extracted, for every default filename `d`, to the
map with the single entry `d ↦ the whole response trimmed of white space`. -/
theorem C4_no_fence_whole_response (content d : Str) (h : ¬ fenceMark <:+: content) :
    ExtractCodeFilesFromLLMResponse content d = [(d, TrimSpace content)] := by
  unfold ExtractCodeFilesFromLLMResponse
  rw [findAllBlocks_none (findBlock_none_of_no_fence langOpenings_isOpening h),
    findAllBlocks_none (findBlock_none_of_no_fence noLangOpenings_isOpening h)]
  simp [mapSet]

/-- The scenario of the test suite for a response without a code block. -/
theorem C4_no_fence_whole_response_witness :
    ¬ fenceMark <:+: "hello world".toList ∧
    ExtractCodeFilesFromLLMResponse "hello world".toList "main.go".toList
      = [("main.go".toList, "hello world".toList)] :=
  ⟨by decide, C4_no_fence_whole_response "hello world".toList "main.go".toList (by decide)⟩
/-! ## Lemmas on paths -/

theorem cleanComps_append_plain {n : Str} (hn : PlainName n) (rooted : Bool)
    (cs st : List Str) :
    cleanComps rooted st (cs ++ [n]) = cleanComps rooted st cs ++ [n] := by
  obtain ⟨h1, -, h3, h4⟩ := hn
  induction cs generalizing st with
  | nil => simp [cleanComps, h1, h3, h4]
  | cons c cs ih =>
    simp only [List.cons_append, cleanComps]
    split
    · exact ih st
    · split
      · cases st with
        | nil =>
          cases rooted
          · simpa using ih [c]
          · simpa using ih []
        | cons top st' =>
          simp only
          split
          · exact ih _
          · exact ih _
      · exact ih _

theorem joinComps_cons_cons (c d : Str) (cs : List Str) :
    joinComps (c :: d :: cs) = c ++ sepChar :: joinComps (d :: cs) := rfl

theorem joinComps_append_single (cs : List Str) (n : Str) :
    joinComps (cs ++ [n]) = if cs = [] then n else joinComps cs ++ sepChar :: n := by
  induction cs with
  | nil => rfl
  | cons c cs ih =>
    cases cs with
    | nil => simp [joinComps]
    | cons d ds =>
      simp only [List.cons_append, joinComps_cons_cons] at ih ⊢
      rw [ih]
      simp

theorem Base_append_plain {n : Str} (hn : PlainName n) (X : Str)
    (hX : X = [] ∨ ∃ X', X = X' ++ [sepChar]) : Base (X ++ n) = n := by
  obtain ⟨h1, h2, -, -⟩ := hn
  have hne : X ++ n ≠ [] := by simp [h1]
  have hall : ∀ a ∈ n.reverse, (a != sepChar) = true := by
    intro a ha
    have : a ∈ n := List.mem_reverse.mp ha
    simp only [bne_iff_ne, ne_eq]
    rintro rfl
    exact h2 this
  have hrev : (X ++ n).reverse = n.reverse ++ X.reverse := by simp
  have hdrop : (n.reverse ++ X.reverse).dropWhile (fun c => c == sepChar)
      = n.reverse ++ X.reverse := by
    cases hnr : n.reverse with
    | nil => simp at hnr; exact absurd hnr h1
    | cons a as =>
      have : ¬ (a == sepChar) = true := by
        have := hall a (by simp [hnr])
        simpa using this
      simp only [beq_iff_eq] at this
      simp [this]
  have htake : (n.reverse ++ X.reverse).takeWhile (fun c => c != sepChar) = n.reverse := by
    rw [List.takeWhile_append_of_pos hall]
    rcases hX with rfl | ⟨X', rfl⟩
    · simp
    · simp
  have hne2 : n.reverse ++ X.reverse ≠ [] := by simp [h1]
  unfold Base
  simp only [hne, if_false, hrev, hdrop, hne2, htake, List.reverse_reverse]

theorem Clean_append_plain {n : Str} (hn : PlainName n) (X : Str)
    (hX : X = [] ∨ ∃ X', X = X' ++ [sepChar]) :
    ∃ Y, Clean (X ++ n) = Y ++ n ∧ (Y = [] ∨ ∃ Y', Y = Y' ++ [sepChar]) := by
  have h1 := hn.1
  have h2 := hn.2.1
  have hne : X ++ n ≠ [] := by simp [h1]
  have hsplit : ∃ cs, splitOn sepChar (X ++ n) = cs ++ [n] := by
    rcases hX with rfl | ⟨X', rfl⟩
    · exact ⟨[], by simpa using splitOn_of_not_mem h2⟩
    · refine ⟨splitOn sepChar X', ?_⟩
      have := splitOn_append_sep sepChar X' n
      rw [splitOn_of_not_mem h2] at this
      simpa using this
  obtain ⟨cs, hcs⟩ := hsplit
  unfold Clean
  simp only [hne, if_false, hcs, cleanComps_append_plain hn, joinComps_append_single]
  have hcne : ∀ C : List Str, C ++ [n] ≠ [] := by intro C; simp
  by_cases hab : IsAbs (X ++ n) = true
  · simp only [hab, if_true]
    by_cases hC : cleanComps true [] cs = []
    · exact ⟨[sepChar], by simp [hC], Or.inr ⟨[], rfl⟩⟩
    · exact ⟨sepChar :: joinComps (cleanComps true [] cs) ++ [sepChar], by simp [hC],
        Or.inr ⟨_, rfl⟩⟩
  · have hab' : IsAbs (X ++ n) = false := by simpa using hab
    simp only [hab', hcne, if_false, Bool.false_eq_true]
    by_cases hC : cleanComps false [] cs = []
    · exact ⟨[], by simp [hC], Or.inl rfl⟩
    · exact ⟨joinComps (cleanComps false [] cs) ++ [sepChar], by simp [hC], Or.inr ⟨_, rfl⟩⟩

/-- The last element of a path joined from a directory and a plain file name is that
name. -/
theorem Base_Join_plain {n : Str} (hn : PlainName n) (dir : Str) : Base (Join dir n) = n := by
  unfold Join
  by_cases hd : dir = []
  · simp only [hd, ne_eq, not_true_eq_false, if_false, hn.1, not_false_eq_true, if_true]
    obtain ⟨Y, hY, hY'⟩ := Clean_append_plain hn [] (Or.inl rfl)
    simp only [List.nil_append] at hY
    rw [hY]
    exact Base_append_plain hn Y hY'
  · simp only [ne_eq, hd, not_false_eq_true, if_true]
    obtain ⟨Y, hY, hY'⟩ := Clean_append_plain hn (dir ++ [sepChar]) (Or.inr ⟨dir, rfl⟩)
    have e : dir ++ [sepChar] ++ n = dir ++ sepChar :: n := by simp
    rw [e] at hY
    rw [hY]
    exact Base_append_plain hn Y hY'

theorem Base_writePath {n : Str} (hn : PlainName n) (workDir language code : Str) :
    Base (writePath workDir language n code) = n := by
  unfold writePath
  split <;> exact Base_Join_plain hn _
/-! ## The workspace writer -/

theorem scanPackage_eq (ls : List Str) :
    scanPackage ls =
      match ls.find? (fun l => packageKw.isPrefixOf l) with
      | some l => TrimSpace (l.drop packageKw.length)
      | none => mainPkg := by
  induction ls with
  | nil => rfl
  | cons line ls ih =>
    simp only [scanPackage, List.find?_cons]
    cases hs : stripPrefix packageKw line with
    | none =>
      have : packageKw.isPrefixOf line = false := by
        cases hb : packageKw.isPrefixOf line with
        | false => rfl
        | true => exact absurd (List.isPrefixOf_iff_prefix.mp hb) (stripPrefix_eq_none.mp hs)
      simp only [this]
      exact ih
    | some rest =>
      have heq := stripPrefix_eq_some.mp hs
      have : packageKw.isPrefixOf line = true := by
        rw [List.isPrefixOf_iff_prefix]
        exact ⟨rest, heq.symm⟩
      simp only [this]
      rw [heq]
      simp

/-- The namespace the code computes is the namespace of the specification. -/
theorem pkgOf_eq_declaredNamespace (code : Str) : pkgOf code = declaredNamespace code :=
  scanPackage_eq _

theorem WriteFile_eq_some {wr : FS → Str → Bool} {fs fs' : FS} {path data : Str}
    (h : WriteFile wr fs path data = some fs') :
    fs' = { fs with files := (path, data) :: fs.files } := by
  unfold WriteFile at h
  split at h
  · cases h; rfl
  · cases h

theorem writeLoop_cons (wr : FS → Str → Bool) (workDir language name code : Str)
    (rest : GoMap) (fs : FS) (mainFiles depFiles : List Str) :
    writeLoop wr workDir language ((name, code) :: rest) fs mainFiles depFiles =
      if language ≠ langGo then
        match WriteFile wr fs (Join workDir name) code with
        | none => (fs, none)
        | some fs' =>
          writeLoop wr workDir language rest fs' (mainFiles ++ [Join workDir name]) depFiles
      else
        if pkgOf code = mainPkg then
          match WriteFile wr fs (Join workDir name) code with
          | none => (fs, none)
          | some fs' =>
            writeLoop wr workDir language rest fs' (mainFiles ++ [Join workDir name]) depFiles
        else
          match WriteFile wr (MkdirAll fs (Join workDir (pkgOf code)))
              (Join (Join workDir (pkgOf code)) name) code with
          | none => (MkdirAll fs (Join workDir (pkgOf code)), none)
          | some fs' =>
            writeLoop wr workDir language rest fs' mainFiles
              (depFiles ++ [Join (Join workDir (pkgOf code)) name]) := rfl

/-- What a successful run of the loop has written and returned. -/
theorem writeLoop_ok (wr : FS → Str → Bool) (workDir language : Str) :
    ∀ (files : GoMap) (fs : FS) (M D : List Str) (fs' : FS) (M' D' : List Str),
      writeLoop wr workDir language files fs M D = (fs', some (M', D')) →
      fs'.files = (files.map (fun f => (writePath workDir language f.1 f.2, f.2))).reverse
          ++ fs.files ∧
      M' = M ++ (files.filter (fun f => isEntryFile language f.2)).map
          (fun f => writePath workDir language f.1 f.2) ∧
      D' = D ++ (files.filter (fun f => !isEntryFile language f.2)).map
          (fun f => writePath workDir language f.1 f.2) := by
  intro files
  induction files with
  | nil =>
    intro fs M D fs' M' D' h
    simp only [writeLoop, Prod.mk.injEq, Option.some.injEq] at h
    obtain ⟨rfl, rfl, rfl⟩ := h
    simp
  | cons f files ih =>
    obtain ⟨name, code⟩ := f
    intro fs M D fs' M' D' h
    rw [writeLoop_cons] at h
    by_cases hl : language ≠ langGo
    · have he : isEntryFile language code = true := by simp [isEntryFile, hl]
      have hp : writePath workDir language name code = Join workDir name := by
        simp [writePath, he]
      rw [if_pos hl] at h
      cases hw : WriteFile wr fs (Join workDir name) code with
      | none => rw [hw] at h; simp at h
      | some fs1 =>
        rw [hw] at h
        obtain ⟨h1, h2, h3⟩ := ih fs1 (M ++ [Join workDir name]) D fs' M' D' h
        rw [WriteFile_eq_some hw] at h1
        refine ⟨?_, ?_, ?_⟩
        · simp [h1, hp]
        · simp [h2, he, hp]
        · simp [h3, he]
    · have hl' : language = langGo := by simpa using hl
      rw [if_neg hl] at h
      by_cases hpkg : pkgOf code = mainPkg
      · have he : isEntryFile language code = true := by
          simp [isEntryFile, ← pkgOf_eq_declaredNamespace, hpkg]
        have hp : writePath workDir language name code = Join workDir name := by
          simp [writePath, he]
        rw [if_pos hpkg] at h
        cases hw : WriteFile wr fs (Join workDir name) code with
        | none => rw [hw] at h; simp at h
        | some fs1 =>
          rw [hw] at h
          obtain ⟨h1, h2, h3⟩ := ih fs1 (M ++ [Join workDir name]) D fs' M' D' h
          rw [WriteFile_eq_some hw] at h1
          refine ⟨?_, ?_, ?_⟩
          · simp [h1, hp]
          · simp [h2, he, hp]
          · simp [h3, he]
      · have he : isEntryFile language code = false := by
          simp [isEntryFile, ← pkgOf_eq_declaredNamespace, hpkg, hl']
        have hp : writePath workDir language name code
            = Join (Join workDir (pkgOf code)) name := by
          simp [writePath, he, pkgOf_eq_declaredNamespace]
        rw [if_neg hpkg] at h
        cases hw : WriteFile wr (MkdirAll fs (Join workDir (pkgOf code)))
            (Join (Join workDir (pkgOf code)) name) code with
        | none => rw [hw] at h; simp at h
        | some fs1 =>
          rw [hw] at h
          obtain ⟨h1, h2, h3⟩ := ih fs1 M (D ++ [Join (Join workDir (pkgOf code)) name])
            fs' M' D' h
          rw [WriteFile_eq_some hw] at h1
          refine ⟨?_, ?_, ?_⟩
          · simp [h1, hp, MkdirAll]
          · simp [h2, he]
          · simp [h3, he, hp]

theorem mapGet_append_of_mem {l1 l2 : GoMap} {k v : Str} (hnd : (l1.map Prod.fst).Nodup)
    (h : (k, v) ∈ l1) : mapGet (l1 ++ l2) k = some v := by
  induction l1 with
  | nil => cases h
  | cons kv m ih =>
    obtain ⟨k', v'⟩ := kv
    simp only [List.map_cons, List.nodup_cons] at hnd
    rcases List.mem_cons.mp h with heq | hm
    · cases heq
      simp [mapGet]
    · have hne : k' ≠ k := by
        rintro rfl
        exact hnd.1 (List.mem_map.mpr ⟨(k', v), hm, rfl⟩)
      simp [mapGet, hne, ih hnd.2 hm]

/-- Distinct plain names are written at distinct paths. -/
theorem writePaths_nodup (workDir language : Str) (files : GoMap)
    (hnd : (files.map Prod.fst).Nodup) (hplain : ∀ f ∈ files, PlainName f.1) :
    (files.map (fun f => writePath workDir language f.1 f.2)).Nodup := by
  have hb : (files.map (fun f => writePath workDir language f.1 f.2)).map Base
      = files.map Prod.fst := by
    rw [List.map_map]
    apply List.map_congr_left
    intro f hf
    exact Base_writePath (hplain f hf) workDir language f.2
  exact List.Nodup.of_map Base (hb ▸ hnd)

/-- C5: for language go and every file (name, code) of a run of
`WriteFilesToDirAndCollectMain` whose writes all succeed, with ns the declared namespace of
code: if ns is main the file is written at workDir/name and that path is among the entry
files, otherwise it is written at workDir/ns/name and that path is among the dependency
files. -/
theorem C5_go_files_placed_by_namespace (wr : FS → Str → Bool) (files : GoMap)
    (workDir : Str) (fs fs' : FS) (mainFiles depFiles : List Str)
    (h : WriteFilesToDirAndCollectMain wr files workDir langGo fs
      = (fs', some (mainFiles, depFiles))) :
    ∃ log, fs'.files = log ++ fs.files ∧
      ∀ name code, (name, code) ∈ files →
        (declaredNamespace code = mainPkg →
          (Join workDir name, code) ∈ log ∧ Join workDir name ∈ mainFiles) ∧
        (declaredNamespace code ≠ mainPkg →
          (Join (Join workDir (declaredNamespace code)) name, code) ∈ log ∧
          Join (Join workDir (declaredNamespace code)) name ∈ depFiles) := by
  obtain ⟨h1, h2, h3⟩ := writeLoop_ok wr workDir langGo files fs [] [] fs' mainFiles depFiles h
  refine ⟨_, h1, ?_⟩
  intro name code hmem
  constructor
  · intro hns
    have he : isEntryFile langGo code = true := by simp [isEntryFile, hns]
    have hp : writePath workDir langGo name code = Join workDir name := by
      simp [writePath, he]
    constructor
    · rw [List.mem_reverse, List.mem_map]
      exact ⟨(name, code), hmem, by simp [hp]⟩
    · rw [h2, List.nil_append, List.mem_map]
      exact ⟨(name, code), List.mem_filter.mpr ⟨hmem, he⟩, hp⟩
  · intro hns
    have he : isEntryFile langGo code = false := by simp [isEntryFile, hns]
    have hp : writePath workDir langGo name code
        = Join (Join workDir (declaredNamespace code)) name := by
      simp [writePath, he]
    constructor
    · rw [List.mem_reverse, List.mem_map]
      exact ⟨(name, code), hmem, by simp [hp]⟩
    · rw [h3, List.nil_append, List.mem_map]
      exact ⟨(name, code), List.mem_filter.mpr ⟨hmem, by simp [he]⟩, hp⟩

/-- The test of the workspace writer: main.go, util.go and helper.go give one entry file
and two dependency files under the directories util and helper. -/
theorem C5_go_files_placed_by_namespace_witness :
    (WriteFilesToDirAndCollectMain dirWritable testFiles "/w".toList langGo
        (emptyDir "/w".toList)).2
      = some (["/w/main.go".toList], ["/w/util/util.go".toList, "/w/helper/helper.go".toList]) ∧
    ∃ log, (WriteFilesToDirAndCollectMain dirWritable testFiles "/w".toList langGo
        (emptyDir "/w".toList)).1.files = log ++ (emptyDir "/w".toList).files ∧
      ∀ name code, (name, code) ∈ testFiles →
        (declaredNamespace code = mainPkg →
          (Join "/w".toList name, code) ∈ log ∧
          Join "/w".toList name ∈ ["/w/main.go".toList]) ∧
        (declaredNamespace code ≠ mainPkg →
          (Join (Join "/w".toList (declaredNamespace code)) name, code) ∈ log ∧
          Join (Join "/w".toList (declaredNamespace code)) name
            ∈ ["/w/util/util.go".toList, "/w/helper/helper.go".toList]) :=
  ⟨by decide,
   C5_go_files_placed_by_namespace dirWritable testFiles "/w".toList (emptyDir "/w".toList)
    (WriteFilesToDirAndCollectMain dirWritable testFiles "/w".toList langGo
      (emptyDir "/w".toList)).1
    ["/w/main.go".toList] ["/w/util/util.go".toList, "/w/helper/helper.go".toList]
    (Prod.ext rfl (by decide))⟩

/-- C6, as stated, fails: the files a.go of package util and util/a.go of package main are
both written at /w/util/a.go, and that path is returned in the entry list and in the
dependency list. -/
theorem C6_counterexample_shared_path :
    (collidingGoFiles.map Prod.fst).Nodup ∧
    (WriteFilesToDirAndCollectMain dirWritable collidingGoFiles "/w".toList langGo
        (emptyDir "/w".toList)).2
      = some (["/w/util/a.go".toList], ["/w/util/a.go".toList]) ∧
    ¬ List.Disjoint ["/w/util/a.go".toList] ["/w/util/a.go".toList] :=
  ⟨by decide, by decide, by simp [List.Disjoint]⟩

/-- C6, amended: for every set of files with plain names (non-empty, no path separator,
not dot or dot-dot), every working directory and language, when
`WriteFilesToDirAndCollectMain` succeeds the entry list and the dependency list are
disjoint, neither has a duplicate, their lengths sum to the number of files, and the base
names of the returned paths are exactly the file names; for a language other than go the
dependency list is empty and the entry list holds workDir/name for every file. -/
theorem C6_files_partitioned_plain_names (wr : FS → Str → Bool) (files : GoMap)
    (workDir language : Str) (fs fs' : FS) (mainFiles depFiles : List Str)
    (hnd : (files.map Prod.fst).Nodup) (hplain : ∀ f ∈ files, PlainName f.1)
    (h : WriteFilesToDirAndCollectMain wr files workDir language fs
      = (fs', some (mainFiles, depFiles))) :
    List.Disjoint mainFiles depFiles ∧ mainFiles.Nodup ∧ depFiles.Nodup ∧
    mainFiles.length + depFiles.length = files.length ∧
    List.Perm ((mainFiles ++ depFiles).map Base) (files.map Prod.fst) ∧
    (language ≠ langGo →
      depFiles = [] ∧ mainFiles = files.map (fun f => Join workDir f.1)) := by
  obtain ⟨-, h2, h3⟩ := writeLoop_ok wr workDir language files fs [] [] fs' mainFiles depFiles h
  rw [List.nil_append] at h2 h3
  have hperm : List.Perm (mainFiles ++ depFiles)
      (files.map (fun f => writePath workDir language f.1 f.2)) := by
    rw [h2, h3, ← List.map_append]
    exact (List.filter_append_perm _ files).map _
  have hpaths := writePaths_nodup workDir language files hnd hplain
  have hall : (mainFiles ++ depFiles).Nodup := hperm.nodup_iff.mpr hpaths
  have hbase : (files.map (fun f => writePath workDir language f.1 f.2)).map Base
      = files.map Prod.fst := by
    rw [List.map_map]
    apply List.map_congr_left
    intro f hf
    exact Base_writePath (hplain f hf) workDir language f.2
  refine ⟨(List.nodup_append.mp hall).2.2, (List.nodup_append.mp hall).1,
    (List.nodup_append.mp hall).2.1, ?_, ?_, ?_⟩
  · have := hperm.length_eq
    simpa using this
  · exact hbase ▸ hperm.map Base
  · intro hl
    have he : ∀ f : Str × Str, isEntryFile language f.2 = true := by
      intro f; simp [isEntryFile, hl]
    constructor
    · rw [h3]; simp [he]
    · rw [h2]
      simp [he, writePath]

/-- Three plain names of the test: the lists are disjoint and hold three paths. -/
theorem C6_files_partitioned_plain_names_witness :
    ((testFiles.map Prod.fst).Nodup ∧ ∀ f ∈ testFiles, PlainName f.1) ∧
    (List.Disjoint ["/w/main.go".toList] ["/w/util/util.go".toList, "/w/helper/helper.go".toList] ∧
    ["/w/main.go".toList].Nodup ∧
    ["/w/util/util.go".toList, "/w/helper/helper.go".toList].Nodup ∧
    ["/w/main.go".toList].length
      + ["/w/util/util.go".toList, "/w/helper/helper.go".toList].length = testFiles.length ∧
    List.Perm ((["/w/main.go".toList]
      ++ ["/w/util/util.go".toList, "/w/helper/helper.go".toList]).map Base)
      (testFiles.map Prod.fst) ∧
    (langGo ≠ langGo →
      ["/w/util/util.go".toList, "/w/helper/helper.go".toList] = [] ∧
      ["/w/main.go".toList] = testFiles.map (fun f => Join "/w".toList f.1))) :=
  have hplain : ∀ f ∈ testFiles, PlainName f.1 := by
    intro f hf
    simp only [testFiles, List.mem_cons, List.mem_singleton, List.not_mem_nil, or_false] at hf
    rcases hf with rfl | rfl | rfl <;> (unfold PlainName; decide)
  ⟨⟨by decide, hplain⟩,
   C6_files_partitioned_plain_names dirWritable testFiles "/w".toList langGo
    (emptyDir "/w".toList)
    (WriteFilesToDirAndCollectMain dirWritable testFiles "/w".toList langGo
      (emptyDir "/w".toList)).1
    ["/w/main.go".toList] ["/w/util/util.go".toList, "/w/helper/helper.go".toList]
    (by decide) hplain (Prod.ext rfl (by decide))⟩

/-- C7, as stated, fails: the Python files a.py and ./a.py are both written at /w/a.py;
the run succeeds and returns that path for both, and reading it yields the text of ./a.py,
so the text of a.py is lost. -/
theorem C7_counterexample_overwritten :
    (collidingPyFiles.map Prod.fst).Nodup ∧
    (WriteFilesToDirAndCollectMain dirWritable collidingPyFiles "/w".toList langPython
        (emptyDir "/w".toList)).2
      = some (["/w/a.py".toList, "/w/a.py".toList], []) ∧
    (WriteFilesToDirAndCollectMain dirWritable collidingPyFiles "/w".toList langPython
        (emptyDir "/w".toList)).1.read "/w/a.py".toList = some "print(2)".toList ∧
    ("a.py".toList, "print(1)".toList) ∈ collidingPyFiles :=
  ⟨by decide, by decide, by decide, by decide⟩

/-- C7, amended: for every set of files with plain names, every working directory and
language, if `WriteFilesToDirAndCollectMain` succeeds then for every input file the path
returned for it (workDir/name for an entry file, workDir/ns/name for a dependency file; its
base name is the file name) is among the returned paths and reading it yields exactly that
file's source text. -/
theorem C7_round_trip_plain_names (wr : FS → Str → Bool) (files : GoMap)
    (workDir language : Str) (fs fs' : FS) (mainFiles depFiles : List Str)
    (hnd : (files.map Prod.fst).Nodup) (hplain : ∀ f ∈ files, PlainName f.1)
    (h : WriteFilesToDirAndCollectMain wr files workDir language fs
      = (fs', some (mainFiles, depFiles))) :
    ∀ name code, (name, code) ∈ files →
      writePath workDir language name code ∈ mainFiles ++ depFiles ∧
      Base (writePath workDir language name code) = name ∧
      fs'.read (writePath workDir language name code) = some code := by
  obtain ⟨h1, h2, h3⟩ := writeLoop_ok wr workDir language files fs [] [] fs' mainFiles depFiles h
  rw [List.nil_append] at h2 h3
  intro name code hmem
  have hpaths := writePaths_nodup workDir language files hnd hplain
  refine ⟨?_, Base_writePath (hplain _ hmem) workDir language code, ?_⟩
  · have hperm : List.Perm (mainFiles ++ depFiles)
        (files.map (fun f => writePath workDir language f.1 f.2)) := by
      rw [h2, h3, ← List.map_append]
      exact (List.filter_append_perm _ files).map _
    rw [hperm.mem_iff, List.mem_map]
    exact ⟨(name, code), hmem, rfl⟩
  · unfold FS.read
    rw [h1]
    apply mapGet_append_of_mem
    · rw [List.map_reverse, List.nodup_reverse, List.map_map]
      exact hpaths
    · rw [List.mem_reverse, List.mem_map]
      exact ⟨(name, code), hmem, rfl⟩

/-- The three files of the test are read back unchanged. -/
theorem C7_round_trip_plain_names_witness :
    ((testFiles.map Prod.fst).Nodup ∧ ∀ f ∈ testFiles, PlainName f.1) ∧
    (WriteFilesToDirAndCollectMain dirWritable testFiles "/w".toList langGo
        (emptyDir "/w".toList)).1.read "/w/util/util.go".toList
      = some "package util\nfunc Foo(){}".toList ∧
    ∀ name code, (name, code) ∈ testFiles →
      writePath "/w".toList langGo name code
        ∈ ["/w/main.go".toList] ++ ["/w/util/util.go".toList, "/w/helper/helper.go".toList] ∧
      Base (writePath "/w".toList langGo name code) = name ∧
      (WriteFilesToDirAndCollectMain dirWritable testFiles "/w".toList langGo
        (emptyDir "/w".toList)).1.read (writePath "/w".toList langGo name code) = some code :=
  have hplain : ∀ f ∈ testFiles, PlainName f.1 := by
    intro f hf
    simp only [testFiles, List.mem_cons, List.mem_singleton, List.not_mem_nil, or_false] at hf
    rcases hf with rfl | rfl | rfl <;> (unfold PlainName; decide)
  ⟨⟨by decide, hplain⟩, by decide,
   C7_round_trip_plain_names dirWritable testFiles "/w".toList langGo
    (emptyDir "/w".toList)
    (WriteFilesToDirAndCollectMain dirWritable testFiles "/w".toList langGo
      (emptyDir "/w".toList)).1
    ["/w/main.go".toList] ["/w/util/util.go".toList, "/w/helper/helper.go".toList]
    (by decide) hplain (Prod.ext rfl (by decide))⟩
/-! ## The execution orchestrator -/

theorem relPaths_eq_map (cwd : Option Str) (files : List Str) (workDir : Str) :
    relPaths cwd files workDir = files.map (fun f => relPath cwd f workDir) := rfl

theorem perEntryLoop_cons {σ : Type} (run : Runner σ) (cwd : Option Str)
    (workDir targetDir : Str) (depFiles : List Str) (mf : Str) (rest : List Str) (s : σ)
    (result : Str) (calls : List Call) :
    perEntryLoop run cwd workDir targetDir depFiles (mf :: rest) s result calls =
      perEntryLoop run cwd workDir targetDir depFiles rest
        (run s (callEntry cwd workDir targetDir depFiles mf)).2
        (result ++ reportSection mf (run s (callEntry cwd workDir targetDir depFiles mf)).1)
        (calls ++ [callEntry cwd workDir targetDir depFiles mf]) := by
  have hc : (⟨goImage, goRun ++ [relPath cwd mf workDir] ++ relPaths cwd depFiles workDir,
      workDir, targetDir⟩ : Call) = callEntry cwd workDir targetDir depFiles mf := rfl
  simp only [perEntryLoop, hc]
  congr 1
  unfold reportSection sectionHeader errorTag
  cases (run s (callEntry cwd workDir targetDir depFiles mf)).1.err <;> simp

/-- The loop over the entry files makes one call per entry file, in order, and appends one
section per entry file to the report. -/
theorem perEntryLoop_eq {σ : Type} (run : Runner σ) (cwd : Option Str)
    (workDir targetDir : Str) (depFiles : List Str) :
    ∀ (mainFiles : List Str) (s : σ) (result : Str) (calls : List Call),
      perEntryLoop run cwd workDir targetDir depFiles mainFiles s result calls =
        (result ++ (List.zipWith reportSection mainFiles
            (runSeq run s (mainFiles.map (callEntry cwd workDir targetDir depFiles)))).flatten,
         calls ++ mainFiles.map (callEntry cwd workDir targetDir depFiles),
         runFinal run s (mainFiles.map (callEntry cwd workDir targetDir depFiles))) := by
  intro mainFiles
  induction mainFiles with
  | nil => intro s result calls; simp [perEntryLoop, runSeq, runFinal]
  | cons mf rest ih =>
    intro s result calls
    rw [perEntryLoop_cons, ih]
    simp [runSeq, runFinal]

theorem runSeq_length {σ : Type} (run : Runner σ) (s : σ) (calls : List Call) :
    (runSeq run s calls).length = calls.length := by
  induction calls generalizing s with
  | nil => rfl
  | cons c cs ih => simp [runSeq, ih]

theorem RunCodeInDocker_go_many {σ : Type} (run : Runner σ) (cwd : Option Str) (s : σ)
    (workDir : Str) (mainFiles depFiles : List Str) (targetDir : Str)
    (hn : mainFiles.length ≠ 1) :
    RunCodeInDocker run cwd s langGo workDir mainFiles depFiles targetDir =
      match (run s (callAll cwd workDir targetDir mainFiles depFiles)).1.err with
      | none =>
        (Outcome.ret (run s (callAll cwd workDir targetDir mainFiles depFiles)).1.out none,
          [callAll cwd workDir targetDir mainFiles depFiles],
          (run s (callAll cwd workDir targetDir mainFiles depFiles)).2)
      | some e =>
        if !Contains ((run s (callAll cwd workDir targetDir mainFiles depFiles)).1.out ++ e)
            mainRedeclared then
          (Outcome.ret (run s (callAll cwd workDir targetDir mainFiles depFiles)).1.out
            (some e), [callAll cwd workDir targetDir mainFiles depFiles],
            (run s (callAll cwd workDir targetDir mainFiles depFiles)).2)
        else
          (Outcome.ret (List.zipWith reportSection mainFiles
              (runSeq run (run s (callAll cwd workDir targetDir mainFiles depFiles)).2
                (mainFiles.map (callEntry cwd workDir targetDir depFiles)))).flatten none,
            callAll cwd workDir targetDir mainFiles depFiles ::
              mainFiles.map (callEntry cwd workDir targetDir depFiles),
            runFinal run (run s (callAll cwd workDir targetDir mainFiles depFiles)).2
              (mainFiles.map (callEntry cwd workDir targetDir depFiles))) := by
  have hc : (⟨goImage, goRun ++ relPaths cwd mainFiles workDir ++ relPaths cwd depFiles workDir,
      workDir, targetDir⟩ : Call) = callAll cwd workDir targetDir mainFiles depFiles := rfl
  unfold RunCodeInDocker
  simp only [ne_eq, not_true_eq_false, if_false, hn, hc, perEntryLoop_eq]
  cases (run s (callAll cwd workDir targetDir mainFiles depFiles)).1.err with
  | none => rfl
  | some e => simp

/-- For language go and one entry file `e`, `RunCodeInDocker` makes one call of the Container
Runner, with the command go, run, `relPath` of `e` and then `relPath` of each dependency
file in order, and returns the output and the error of that call unchanged.  The arguments
are those the code's `relPath` computes; `relPath_eq_specRel` tells when they are the paths
relative to the working directory. -/
theorem RunCodeInDocker_single_entry {σ : Type} (run : Runner σ) (cwd : Option Str) (s : σ)
    (workDir e : Str) (depFiles : List Str) (targetDir : Str) :
    RunCodeInDocker run cwd s langGo workDir [e] depFiles targetDir =
      (Outcome.ret
        (run s ⟨goImage, "go".toList :: "run".toList :: relPath cwd e workDir ::
          depFiles.map (fun d => relPath cwd d workDir), workDir, targetDir⟩).1.out
        (run s ⟨goImage, "go".toList :: "run".toList :: relPath cwd e workDir ::
          depFiles.map (fun d => relPath cwd d workDir), workDir, targetDir⟩).1.err,
       [⟨goImage, "go".toList :: "run".toList :: relPath cwd e workDir ::
          depFiles.map (fun d => relPath cwd d workDir), workDir, targetDir⟩],
       (run s ⟨goImage, "go".toList :: "run".toList :: relPath cwd e workDir ::
          depFiles.map (fun d => relPath cwd d workDir), workDir, targetDir⟩).2) := by
  have hc : (⟨goImage, goRun ++ relPaths cwd [e] workDir ++ relPaths cwd depFiles workDir,
      workDir, targetDir⟩ : Call) = ⟨goImage, "go".toList :: "run".toList ::
        relPath cwd e workDir :: depFiles.map (fun d => relPath cwd d workDir),
        workDir, targetDir⟩ := by
    simp [goRun, relPaths_eq_map]
  unfold RunCodeInDocker
  simp only [ne_eq, not_true_eq_false, if_false, List.length_singleton, if_true, hc]

/-- For language go and more than one entry file, the first call of `RunCodeInDocker` is
the combined one, `callAll`; it goes on to the per-entry runs iff that call returns an error
and the marker "main redeclared" occurs in the output followed by the error text; otherwise
it returns the output and the error of the combined call unchanged and makes no further
call.  The arguments of the commands are those the code's `relPath` computes. -/
theorem RunCodeInDocker_combined_first {σ : Type} (run : Runner σ) (cwd : Option Str) (s : σ)
    (workDir : Str) (mainFiles depFiles : List Str) (targetDir : Str)
    (hn : 1 < mainFiles.length) :
    (RunCodeInDocker run cwd s langGo workDir mainFiles depFiles targetDir).2.1.head?
      = some (callAll cwd workDir targetDir mainFiles depFiles) ∧
    ((RunCodeInDocker run cwd s langGo workDir mainFiles depFiles targetDir).2.1
        ≠ [callAll cwd workDir targetDir mainFiles depFiles] ↔
      ∃ e, (run s (callAll cwd workDir targetDir mainFiles depFiles)).1.err = some e ∧
        mainRedeclared <:+:
          (run s (callAll cwd workDir targetDir mainFiles depFiles)).1.out ++ e) ∧
    ((∃ e, (run s (callAll cwd workDir targetDir mainFiles depFiles)).1.err = some e ∧
        mainRedeclared <:+:
          (run s (callAll cwd workDir targetDir mainFiles depFiles)).1.out ++ e) →
      (RunCodeInDocker run cwd s langGo workDir mainFiles depFiles targetDir).2.1
        = callAll cwd workDir targetDir mainFiles depFiles ::
            mainFiles.map (callEntry cwd workDir targetDir depFiles)) ∧
    ((¬ ∃ e, (run s (callAll cwd workDir targetDir mainFiles depFiles)).1.err = some e ∧
        mainRedeclared <:+:
          (run s (callAll cwd workDir targetDir mainFiles depFiles)).1.out ++ e) →
      RunCodeInDocker run cwd s langGo workDir mainFiles depFiles targetDir =
        (Outcome.ret (run s (callAll cwd workDir targetDir mainFiles depFiles)).1.out
          (run s (callAll cwd workDir targetDir mainFiles depFiles)).1.err,
         [callAll cwd workDir targetDir mainFiles depFiles],
         (run s (callAll cwd workDir targetDir mainFiles depFiles)).2)) := by
  rw [RunCodeInDocker_go_many run cwd s workDir mainFiles depFiles targetDir (by omega)]
  have hne : mainFiles.map (callEntry cwd workDir targetDir depFiles) ≠ [] := by
    intro h0
    have := congrArg List.length h0
    rw [List.length_map, List.length_nil] at this
    omega
  cases herr : (run s (callAll cwd workDir targetDir mainFiles depFiles)).1.err with
  | none => simp
  | some e =>
    by_cases hc : Contains
        ((run s (callAll cwd workDir targetDir mainFiles depFiles)).1.out ++ e)
        mainRedeclared = true
    · have hin := Contains_iff.mp hc
      simp [hc, hin, hne]
    · have hin : ¬ mainRedeclared <:+:
          (run s (callAll cwd workDir targetDir mainFiles depFiles)).1.out ++ e :=
        fun h => hc (Contains_iff.mpr h)
      simp [hc, hin]

/-- Two entry files: when the combined run reports a duplicate entry point the per-entry
runs follow, and when it fails for another reason its result is returned as it is. -/
theorem RunCodeInDocker_combined_first_scenario :
    1 < demoMains.length ∧
    (RunCodeInDocker demoRunner (some "/home/u".toList) 0 langGo "/w".toList demoMains
        demoDeps "/app".toList).2.1.map (fun c => c.cmd)
      = [["go".toList, "run".toList, "a.go".toList, "b.go".toList, "util/u.go".toList],
         ["go".toList, "run".toList, "a.go".toList, "util/u.go".toList],
         ["go".toList, "run".toList, "b.go".toList, "util/u.go".toList]] ∧
    RunCodeInDocker failingRunner (some "/home/u".toList) 0 langGo "/w".toList demoMains
        demoDeps "/app".toList
      = (Outcome.ret "./a.go:4:2: undefined: x".toList (some "exit status 1".toList),
         [callAll (some "/home/u".toList) "/w".toList "/app".toList demoMains demoDeps],
         1) ∧
    (RunCodeInDocker demoRunner (some "/home/u".toList) 0 langGo "/w".toList demoMains
        demoDeps "/app".toList).2.1.head?
      = some (callAll (some "/home/u".toList) "/w".toList "/app".toList demoMains
          demoDeps) :=
  ⟨by decide, by decide, by decide,
   (RunCodeInDocker_combined_first demoRunner (some "/home/u".toList) 0 "/w".toList demoMains demoDeps
      "/app".toList (by decide)).1⟩

/-- For language go and n > 1 entry files whose combined run fails with the marker of a
duplicate entry point, `RunCodeInDocker` makes n further calls, the i-th being `callEntry`
of the i-th entry file, and returns a nil error with the report that concatenates, in
entry-file order, the n sections of these runs (header with the base name of the entry file,
the error line iff the run failed, the output).  The arguments of the commands are those the
code's `relPath` computes. -/
theorem RunCodeInDocker_per_entry_report {σ : Type} (run : Runner σ) (cwd : Option Str) (s : σ)
    (workDir : Str) (mainFiles depFiles : List Str) (targetDir : Str) (e : Str)
    (hn : 1 < mainFiles.length)
    (herr : (run s (callAll cwd workDir targetDir mainFiles depFiles)).1.err = some e)
    (hmark : mainRedeclared <:+:
      (run s (callAll cwd workDir targetDir mainFiles depFiles)).1.out ++ e) :
    RunCodeInDocker run cwd s langGo workDir mainFiles depFiles targetDir =
      (Outcome.ret (List.zipWith reportSection mainFiles
          (runSeq run (run s (callAll cwd workDir targetDir mainFiles depFiles)).2
            (mainFiles.map (callEntry cwd workDir targetDir depFiles)))).flatten none,
        callAll cwd workDir targetDir mainFiles depFiles ::
          mainFiles.map (callEntry cwd workDir targetDir depFiles),
        runFinal run (run s (callAll cwd workDir targetDir mainFiles depFiles)).2
          (mainFiles.map (callEntry cwd workDir targetDir depFiles))) ∧
    (mainFiles.map (callEntry cwd workDir targetDir depFiles)).length = mainFiles.length ∧
    (List.zipWith reportSection mainFiles
      (runSeq run (run s (callAll cwd workDir targetDir mainFiles depFiles)).2
        (mainFiles.map (callEntry cwd workDir targetDir depFiles)))).length
      = mainFiles.length := by
  rw [RunCodeInDocker_go_many run cwd s workDir mainFiles depFiles targetDir (by omega)]
  have hc := Contains_iff.mpr hmark
  refine ⟨?_, by simp, by simp [runSeq_length]⟩
  rw [herr]
  simp [hc]

/-- Two colliding entry files give a report of exactly two sections; the failure of the
first run does not suppress the section of the second. -/
theorem RunCodeInDocker_per_entry_scenario :
    (1 < demoMains.length ∧
      (demoRunner 0 (callAll (some "/home/u".toList) "/w".toList "/app".toList demoMains
        demoDeps)).1.err = some "./b.go:3:6: main redeclared in this block".toList ∧
      mainRedeclared <:+:
        (demoRunner 0 (callAll (some "/home/u".toList) "/w".toList "/app".toList
          demoMains demoDeps)).1.out ++ "./b.go:3:6: main redeclared in this block".toList) ∧
    (RunCodeInDocker demoRunner (some "/home/u".toList) 0 langGo "/w".toList demoMains
        demoDeps "/app".toList).1
      = Outcome.ret ("==== Output for a.go ====\n[ERROR] exit status 1\n" ++
          "# command-line-arguments\n==== Output for b.go ====\nhello\n").toList none ∧
    (List.zipWith reportSection demoMains
      (runSeq demoRunner
        (demoRunner 0 (callAll (some "/home/u".toList) "/w".toList "/app".toList
          demoMains demoDeps)).2
        (demoMains.map (callEntry (some "/home/u".toList) "/w".toList "/app".toList
          demoDeps)))).length = demoMains.length :=
  ⟨⟨by decide, by decide, by decide⟩, by decide,
   (RunCodeInDocker_per_entry_report demoRunner (some "/home/u".toList) 0 "/w".toList demoMains demoDeps
      "/app".toList "./b.go:3:6: main redeclared in this block".toList (by decide)
      (by decide) (by decide)).2.2⟩
/-! ## The task record and the durable store -/

theorem setStatuses_cons (t : Task) (c : Str) (cs : List Str) :
    setStatuses t (c :: cs) = setStatuses (t.SetStatus c) cs := rfl

theorem setStatuses_status (t : Task) (calls : List Str) :
    (setStatuses t calls).Status = calls.getLast?.getD t.Status := by
  induction calls generalizing t with
  | nil => rfl
  | cons c cs ih =>
    rw [setStatuses_cons, ih]
    cases cs with
    | nil => rfl
    | cons d ds =>
      have hne : (d :: ds) ≠ [] := by simp
      rw [List.getLast?_cons_cons, List.getLast?_eq_getLast _ hne]
      rfl

theorem isTerminal_iff_rank (t : Task) : t.IsTerminal = true ↔ statusRank t.Status = 2 := by
  have hr1 : StatusRunning ≠ StatusCompleted := by decide
  have hr2 : StatusRunning ≠ StatusFailed := by decide
  unfold Task.IsTerminal statusRank
  by_cases h1 : t.Status = StatusCompleted
  · simp [h1]
  · by_cases h2 : t.Status = StatusFailed
    · simp [h2]
    · by_cases h3 : t.Status = StatusRunning
      · simp [h3, hr1, hr2]
      · simp [h1, h2, h3]

theorem statusRank_le_two (s : Str) : statusRank s ≤ 2 := by
  unfold statusRank
  split
  · omega
  · split <;> omega

theorem setStatuses_rank_mono (t : Task) (calls : List Str)
    (h : callsOrdered t.Status calls = true) :
    ∀ pre post, calls = pre ++ post →
      statusRank (setStatuses t pre).Status ≤ statusRank (setStatuses t calls).Status := by
  induction calls generalizing t with
  | nil =>
    intro pre post hp
    have : pre = [] := by
      cases pre with
      | nil => rfl
      | cons a as => simp at hp
    subst this
    exact Nat.le_refl _
  | cons c cs ih =>
    intro pre post hp
    simp only [callsOrdered, Bool.and_eq_true, decide_eq_true_eq] at h
    have ih' := ih (t.SetStatus c) h.2
    cases pre with
    | nil =>
      have h0 := ih' [] cs rfl
      rw [setStatuses_cons]
      exact Nat.le_trans h.1 h0
    | cons a as =>
      simp only [List.cons_append, List.cons.injEq] at hp
      obtain ⟨rfl, hp2⟩ := hp
      rw [setStatuses_cons, setStatuses_cons]
      exact ih' as post hp2

/-- C12, as stated, fails: `SetStatus` has no guard, so a completed task (for which
`IsTerminal` is true) is set back to pending, and a running task is set back to pending. -/
theorem C12_counterexample_leaves_terminal :
    Task.IsTerminal ⟨"1".toList, [], StatusCompleted, [], []⟩ = true ∧
    (Task.SetStatus ⟨"1".toList, [], StatusCompleted, [], []⟩ StatusPending).Status
      = StatusPending ∧
    (Task.SetStatus ⟨"1".toList, [], StatusRunning, [], []⟩ StatusPending).Status
      = StatusPending :=
  ⟨by decide, by decide, by decide⟩

/-- C12, amended: `SetStatus` stores the status it is given without a check, so after every
sequence of calls the status is the argument of the last call.  Along a sequence of calls
whose arguments follow the order pending, running, terminal the status never moves back and,
once it is completed or failed (`IsTerminal` is true), it stays terminal. -/
theorem C12_status_follows_calls (t : Task) (calls : List Str)
    (h : callsOrdered t.Status calls = true) :
    (setStatuses t calls).Status = calls.getLast?.getD t.Status ∧
    (∀ pre post, calls = pre ++ post →
      statusRank (setStatuses t pre).Status ≤ statusRank (setStatuses t calls).Status) ∧
    (∀ pre post, calls = pre ++ post → (setStatuses t pre).IsTerminal = true →
      (setStatuses t calls).IsTerminal = true) := by
  refine ⟨setStatuses_status t calls, setStatuses_rank_mono t calls h, ?_⟩
  intro pre post hp hterm
  have h1 := setStatuses_rank_mono t calls h pre post hp
  rw [isTerminal_iff_rank] at hterm ⊢
  have h2 := statusRank_le_two (setStatuses t calls).Status
  omega

/-- The calls of the test of the task record: pending, running, completed. -/
theorem C12_status_follows_calls_witness :
    callsOrdered [] [StatusPending, StatusRunning, StatusCompleted] = true ∧
    (setStatuses ⟨"1".toList, [], [], [], []⟩
      [StatusPending, StatusRunning, StatusCompleted]).IsTerminal = true ∧
    (setStatuses ⟨"1".toList, [], [], [], []⟩
      [StatusPending, StatusRunning, StatusCompleted]).Status
      = [StatusPending, StatusRunning, StatusCompleted].getLast?.getD [] :=
  ⟨by decide, by decide,
   (C12_status_follows_calls ⟨"1".toList, [], [], [], []⟩
      [StatusPending, StatusRunning, StatusCompleted] (by decide)).1⟩

theorem mapGet_mapSet_self (m : GoMap) (k v : Str) : mapGet (mapSet m k v) k = some v := by
  induction m with
  | nil => simp [mapSet, mapGet]
  | cons kv m ih =>
    obtain ⟨k', v'⟩ := kv
    by_cases hk : k' = k
    · simp [mapSet, mapGet, hk]
    · simp [mapSet, mapGet, hk, ih]

theorem mapGet_mapSet_other (m : GoMap) (k v k2 : Str) (h : k2 ≠ k) :
    mapGet (mapSet m k v) k2 = mapGet m k2 := by
  induction m with
  | nil => simp [mapSet, mapGet, Ne.symm h]
  | cons kv m ih =>
    obtain ⟨k', v'⟩ := kv
    by_cases hk : k' = k
    · subst hk
      simp [mapSet, mapGet, Ne.symm h]
    · by_cases hk2 : k' = k2
      · subst hk2
        simp [mapSet, mapGet, hk]
      · simp [mapSet, mapGet, hk, hk2, ih]

theorem mapGet_of_not_mem (m : GoMap) (k : Str) (h : k ∉ m.map Prod.fst) :
    mapGet m k = none := by
  induction m with
  | nil => rfl
  | cons kv m ih =>
    obtain ⟨k', v'⟩ := kv
    simp only [List.map_cons, List.mem_cons, not_or] at h
    simp [mapGet, Ne.symm h.1, ih h.2]

theorem bucketPut_ok {b b' : GoMap} {key value : Str}
    (h : bucketPut b key value = Except.ok b') : b' = mapSet b key value := by
  unfold bucketPut at h
  split_ifs at h
  cases h
  rfl

theorem SaveTask_ok {commit : Bool} {db db' : GoMap} {task : Task}
    (h : SaveTask commit db task = (none, db')) : db' = mapSet db task.ID task.Status := by
  unfold SaveTask at h
  cases hput : bucketPut db task.ID task.Status with
  | error e => rw [hput] at h; simp at h
  | ok db1 =>
    rw [hput] at h
    have := bucketPut_ok hput
    subst this
    cases commit
    · simp at h
    · simp at h
      exact h.symm

/-- C14: on an initialised store, after `SaveTask(t)` succeeds for a task with a non-empty
ID, `GetTaskStatus(t.ID)` returns the status of `t` and no error, and the result for every
other ID is unchanged; a later successful save under the same ID replaces the value; and
`GetTaskStatus` of an ID that is not in the store returns the empty string and no error. -/
theorem C14_save_then_get (commit : Bool) (db db' : GoMap) (t : Task) (_hid : t.ID ≠ [])
    (h : SaveTask commit db t = (none, db')) :
    GetTaskStatus db' t.ID = (t.Status, none) ∧
    (∀ id, id ≠ t.ID → GetTaskStatus db' id = GetTaskStatus db id) ∧
    (∀ commit2 t2 db2, t2.ID = t.ID → SaveTask commit2 db' t2 = (none, db2) →
      GetTaskStatus db2 t.ID = (t2.Status, none)) ∧
    (∀ id, id ∉ db.map Prod.fst → GetTaskStatus db id = ([], none)) := by
  have hdb := SaveTask_ok h
  subst hdb
  refine ⟨?_, ?_, ?_, ?_⟩
  · simp [GetTaskStatus, mapGet_mapSet_self]
  · intro id hne
    simp [GetTaskStatus, mapGet_mapSet_other _ _ _ _ hne]
  · intro commit2 t2 db2 hid2 h2
    have hdb2 := SaveTask_ok h2
    subst hdb2
    rw [hid2]
    simp [GetTaskStatus, mapGet_mapSet_self]
  · intro id hnot
    simp [GetTaskStatus, mapGet_of_not_mem db id hnot]

/-- The test of the store: saving the task t1 with status pending and reading t1 gives
pending. -/
theorem C14_save_then_get_witness :
    ("t1".toList ≠ [] ∧
      SaveTask true [] ⟨"t1".toList, [], StatusPending, [], []⟩
        = (none, [("t1".toList, StatusPending)])) ∧
    GetTaskStatus [("t1".toList, StatusPending)] "t1".toList = ("pending".toList, none) ∧
    GetTaskStatus [("t1".toList, StatusPending)] "t2".toList = ([], none) :=
  ⟨⟨by decide, by decide⟩,
   (C14_save_then_get true [] [("t1".toList, StatusPending)]
      ⟨"t1".toList, [], StatusPending, [], []⟩ (by decide) (by decide)).1,
   by decide⟩
/-! ## The queue and the worker -/

theorem enqueueAll_ok (ps : List Nat) :
    ∀ q : TaskQueue, q.buf.length + ps.length ≤ q.size →
      enqueueAll q ps = some ⟨q.buf ++ ps, q.size⟩ := by
  induction ps with
  | nil => intro q _; simp [enqueueAll]
  | cons p ps ih =>
    intro q h
    simp only [List.length_cons] at h
    have hlt : q.buf.length < q.size := by omega
    simp only [enqueueAll, TaskQueue.Enqueue, hlt, if_true]
    rw [ih]
    · simp
    · simp; omega

theorem dequeueN_ok (ps : List Nat) :
    ∀ (rest : List Nat) (size : Nat),
      dequeueN ⟨ps ++ rest, size⟩ ps.length = some (ps, ⟨rest, size⟩) := by
  induction ps with
  | nil => intro rest size; rfl
  | cons p ps ih =>
    intro rest size
    simp only [List.cons_append, List.length_cons, dequeueN, TaskQueue.Dequeue, ih]

theorem run_append (a b : List Event) :
    ∀ w : World, run w (a ++ b) = (run w a).bind (fun w' => run w' b) := by
  induction a with
  | nil => intro w; rfl
  | cons e es ih =>
    intro w
    simp only [List.cons_append, run]
    cases step w e with
    | none => rfl
    | some w' => exact ih w'

theorem step_recv {w w' : World} (h : step w Event.recv = some w') :
    ∃ p rest, w.phase = Phase.selecting ∧ w.queue.buf = p :: rest ∧
      w' = { w with
        heap := w.heap.set p ((w.heap p).SetStatus StatusRunning)
        queue := ⟨rest, w.queue.size⟩
        phase := Phase.processing p
        log := w.log ++ [(p, StatusRunning)] } := by
  unfold step at h
  cases hph : w.phase with
  | selecting =>
    cases hb : w.queue.buf with
    | nil => simp [hph, TaskQueue.Dequeue, hb] at h
    | cons p rest =>
      simp only [hph, TaskQueue.Dequeue, hb, Option.some.injEq] at h
      exact ⟨p, rest, rfl, rfl, h.symm⟩
  | processing p => simp [hph] at h
  | returned => simp [hph] at h

theorem step_finish {w w' : World} (h : step w Event.finish = some w') :
    ∃ p, w.phase = Phase.processing p ∧
      w' = { w with
        heap := w.heap.set p ((w.heap p).SetStatus StatusCompleted)
        phase := Phase.selecting
        log := w.log ++ [(p, StatusCompleted)] } := by
  unfold step at h
  cases hph : w.phase with
  | selecting => simp [hph] at h
  | processing p =>
    simp only [hph, Option.some.injEq] at h
    exact ⟨p, rfl, h.symm⟩
  | returned => simp [hph] at h

theorem step_enqueue {w w' : World} {p : Nat} (h : step w (Event.enqueue p) = some w') :
    w.queue.buf.length < w.queue.size ∧
      w' = { w with queue := ⟨w.queue.buf ++ [p], w.queue.size⟩ } := by
  unfold step at h
  by_cases hlt : w.queue.buf.length < w.queue.size
  · simp only [TaskQueue.Enqueue, hlt, if_true, Option.some.injEq] at h
    exact ⟨hlt, h.symm⟩
  · simp [TaskQueue.Enqueue, hlt] at h

theorem flatten_map_append_single (finished : List Nat) (p : Nat) :
    ((finished ++ [p]).map bothTransitions).flatten
      = (finished.map bothTransitions).flatten ++ [(p, StatusRunning)]
        ++ [(p, StatusCompleted)] := by
  simp [bothTransitions]

/-- One step of a worker that receives no signal keeps the invariant. -/
theorem WorkerInv_step {w w' : World} {E : List Nat} {e : Event} (hinv : WorkerInv w E)
    (hs : step w e = some w')
    (hq : e ≠ Event.quit) (hd : e ≠ Event.done) (hst : e ≠ Event.stop)
    (hc : e ≠ Event.cancel) : WorkerInv w' (E ++ enqueued [e]) := by
  cases e with
  | quit => exact absurd rfl hq
  | done => exact absurd rfl hd
  | stop => exact absurd rfl hst
  | cancel => exact absurd rfl hc
  | recv =>
    obtain ⟨p, rest, hph, hbuf, rfl⟩ := step_recv hs
    rcases hinv with ⟨_, finished, hE, hlog, hall⟩ | ⟨p', finished, hph', _⟩
    · right
      refine ⟨p, finished, rfl, ?_, ?_, ?_, ?_⟩
      · simp [enqueued, ← hE, hbuf]
      · simp [hlog]
      · simp [Heap.set, Task.SetStatus]
      · intro q hq' hne
        simp [Heap.set, hne, hall q hq']
    · rw [hph] at hph'; cases hph'
  | finish =>
    obtain ⟨p, hph, rfl⟩ := step_finish hs
    rcases hinv with ⟨hph', _⟩ | ⟨p', finished, hph', hE, hlog, _, hall⟩
    · rw [hph] at hph'; cases hph'
    · rw [hph] at hph'
      cases hph'
      left
      refine ⟨rfl, finished ++ [p], ?_, ?_, ?_⟩
      · simp [enqueued, ← hE]
      · simp only [hlog, flatten_map_append_single]
      · intro q hq'
        by_cases hqp : q = p
        · subst hqp
          simp [Heap.set, Task.SetStatus]
        · have hqf : q ∈ finished := by
            rcases List.mem_append.mp hq' with h1 | h1
            · exact h1
            · simp at h1; exact absurd h1 hqp
          simp [Heap.set, hqp, hall q hqf hqp]
  | enqueue p =>
    obtain ⟨_, rfl⟩ := step_enqueue hs
    rcases hinv with ⟨hph, finished, hE, hlog, hall⟩ | ⟨p', finished, hph, hE, hlog, hrun, hall⟩
    · left
      exact ⟨hph, finished, by simp [enqueued, ← hE], hlog, hall⟩
    · right
      exact ⟨p', finished, hph, by simp [enqueued, ← hE], hlog, hrun, hall⟩

theorem enqueued_cons (e : Event) (es : List Event) :
    enqueued (e :: es) = enqueued [e] ++ enqueued es := by
  cases e <;> simp [enqueued]

theorem WorkerInv_run (es : List Event) :
    ∀ (w w' : World) (E : List Nat), WorkerInv w E → noSignal es → run w es = some w' →
      WorkerInv w' (E ++ enqueued es) := by
  induction es with
  | nil =>
    intro w w' E hinv _ hrun
    simp only [run, Option.some.injEq] at hrun
    subst hrun
    simpa [enqueued] using hinv
  | cons e es ih =>
    intro w w' E hinv hns hrun
    simp only [run] at hrun
    obtain ⟨h1, h2, h3, h4⟩ := hns
    simp only [List.mem_cons, not_or] at h1 h2 h3 h4
    cases hs : step w e with
    | none => rw [hs] at hrun; cases hrun
    | some w1 =>
      rw [hs] at hrun
      have hinv1 := WorkerInv_step hinv hs (Ne.symm h1.1) (Ne.symm h2.1) (Ne.symm h3.1)
        (Ne.symm h4.1)
      have := ih w1 w' _ hinv1 ⟨h1.2, h2.2, h3.2, h4.2⟩ hrun
      rw [enqueued_cons, ← List.append_assoc]
      exact this

theorem WorkerInv_start (heap : Heap) (size : Nat) (store : GoMap) :
    WorkerInv (startWorld heap size store) [] := by
  left
  exact ⟨rfl, [], rfl, rfl, by simp⟩

theorem WorkerInv_quiescent {w : World} {E : List Nat} (hinv : WorkerInv w E)
    (hq : w.quiescent) :
    w.log = (E.map bothTransitions).flatten ∧
    (w.log.filter (fun x => decide (x.2 = StatusCompleted))).map Prod.fst = E ∧
    ∀ p ∈ E, (w.heap p).Status = StatusCompleted := by
  obtain ⟨hph, hbuf⟩ := hq
  rcases hinv with ⟨_, finished, hE, hlog, hall⟩ | ⟨p', finished, hph', _⟩
  · rw [hbuf, List.append_nil] at hE
    subst hE
    refine ⟨hlog, ?_, hall⟩
    rw [hlog]
    clear hlog hall
    induction finished with
    | nil => rfl
    | cons p ps ih =>
      have hne : StatusRunning ≠ StatusCompleted := by decide
      simp only [List.map_cons, List.flatten_cons, List.filter_append, List.map_append, ih]
      simp [bothTransitions, List.filter, hne]
  · rw [hph] at hph'; cases hph'

theorem run_enqueues (ps : List Nat) :
    ∀ w : World, w.queue.buf.length + ps.length ≤ w.queue.size →
      run w (ps.map Event.enqueue)
        = some { w with queue := ⟨w.queue.buf ++ ps, w.queue.size⟩ } := by
  induction ps with
  | nil => intro w _; simp [run]
  | cons p ps ih =>
    intro w h
    simp only [List.length_cons] at h
    have hlt : w.queue.buf.length < w.queue.size := by omega
    simp only [List.map_cons, run, step, TaskQueue.Enqueue, hlt, if_true]
    rw [ih]
    · simp
    · simp; omega

/-- From the `select`, the worker can process everything that is in the queue. -/
theorem run_drain (ps : List Nat) :
    ∀ w : World, w.phase = Phase.selecting → w.queue.buf = ps →
      ∃ w', run w ((ps.map (fun _ => [Event.recv, Event.finish])).flatten) = some w' ∧
        w'.quiescent := by
  induction ps with
  | nil =>
    intro w hph hbuf
    exact ⟨w, rfl, hph, hbuf⟩
  | cons p ps ih =>
    intro w hph hbuf
    simp only [List.map_cons, List.flatten_cons, List.cons_append, List.nil_append, run, step,
      hph, TaskQueue.Dequeue, hbuf]
    exact ih _ rfl rfl

theorem noSignal_drain (ps : List Nat) :
    noSignal ((ps.map (fun _ => [Event.recv, Event.finish])).flatten) ∧
    enqueued ((ps.map (fun _ => [Event.recv, Event.finish])).flatten) = [] := by
  induction ps with
  | nil => simp [noSignal, enqueued]
  | cons p ps ih =>
    obtain ⟨⟨h1, h2, h3, h4⟩, h5⟩ := ih
    refine ⟨⟨?_, ?_, ?_, ?_⟩, ?_⟩
    · simp [h1]
    · simp [h2]
    · simp [h3]
    · simp [h4]
    · show enqueued (Event.recv :: Event.finish ::
          (ps.map (fun _ => [Event.recv, Event.finish])).flatten) = []
      simp only [enqueued, h5]

/-- C13: k tasks enqueued on a queue of capacity at least k leave it in submission order,
and a single worker that receives no signal processes them in that order: the schedule that
enqueues all tasks and lets the worker run ends with the worker waiting on the empty queue;
every run that enqueues these tasks can be continued until the worker waits on the empty
queue; and in every such end state the transitions are, task by task in submission order,
running then completed, so there are exactly k transitions to completed, in submission
order, and every task has status completed. -/
theorem C13_fifo_single_worker (ps : List Nat) (size : Nat) (heap : Heap) (store : GoMap)
    (h : ps.length ≤ size) :
    (∃ q, enqueueAll (NewTaskQueue size) ps = some q ∧
      dequeueN q ps.length = some (ps, NewTaskQueue size)) ∧
    (∃ w, run (startWorld heap size store) (drainSchedule ps) = some w ∧ w.quiescent) ∧
    (∀ es w, noSignal es → enqueued es = ps → run (startWorld heap size store) es = some w →
      ∃ es' w', noSignal es' ∧ enqueued es' = [] ∧ run w es' = some w' ∧ w'.quiescent) ∧
    (∀ es w, noSignal es → enqueued es = ps → run (startWorld heap size store) es = some w →
      w.quiescent →
      w.log = (ps.map bothTransitions).flatten ∧
      (w.log.filter (fun x => decide (x.2 = StatusCompleted))).map Prod.fst = ps ∧
      (w.log.filter (fun x => decide (x.2 = StatusCompleted))).length = ps.length ∧
      ∀ p ∈ ps, (w.heap p).Status = StatusCompleted) := by
  refine ⟨?_, ?_, ?_, ?_⟩
  · refine ⟨⟨ps, size⟩, ?_, ?_⟩
    · have := enqueueAll_ok ps (NewTaskQueue size) (by simpa [NewTaskQueue] using h)
      simpa [NewTaskQueue] using this
    · have := dequeueN_ok ps [] size
      simpa [NewTaskQueue] using this
  · unfold drainSchedule
    rw [run_append, run_enqueues ps (startWorld heap size store)
      (by simpa [startWorld, NewTaskQueue] using h)]
    exact run_drain ps _ rfl (by simp [startWorld, NewTaskQueue])
  · intro es w hns _ hrun
    have hinv := WorkerInv_run es _ w [] (WorkerInv_start heap size store) hns hrun
    rcases hinv with ⟨hph, _⟩ | ⟨p, finished, hph, _⟩
    · obtain ⟨w', hrun', hq'⟩ := run_drain w.queue.buf w hph rfl
      exact ⟨_, w', (noSignal_drain _).1, (noSignal_drain _).2, hrun', hq'⟩
    · have hstep : step w Event.finish = some { w with
          heap := w.heap.set p ((w.heap p).SetStatus StatusCompleted)
          phase := Phase.selecting
          log := w.log ++ [(p, StatusCompleted)] } := by
        simp [step, hph]
      obtain ⟨w', hrun', hq'⟩ := run_drain w.queue.buf { w with
          heap := w.heap.set p ((w.heap p).SetStatus StatusCompleted)
          phase := Phase.selecting
          log := w.log ++ [(p, StatusCompleted)] } rfl rfl
      refine ⟨Event.finish ::
        (w.queue.buf.map (fun _ => [Event.recv, Event.finish])).flatten, w', ?_, ?_, ?_, hq'⟩
      · obtain ⟨h1, h2, h3, h4⟩ := (noSignal_drain w.queue.buf).1
        exact ⟨by simp [h1], by simp [h2], by simp [h3], by simp [h4]⟩
      · show enqueued (Event.finish ::
            (w.queue.buf.map (fun _ => [Event.recv, Event.finish])).flatten) = []
        simp only [enqueued, (noSignal_drain w.queue.buf).2]
      · simp only [run, hstep]
        exact hrun'
  · intro es w hns hen hrun hq
    have hinv := WorkerInv_run es _ w [] (WorkerInv_start heap size store) hns hrun
    rw [List.nil_append, hen] at hinv
    obtain ⟨h1, h2, h3⟩ := WorkerInv_quiescent hinv hq
    refine ⟨h1, h2, ?_, h3⟩
    have := congrArg List.length h2
    simpa using this
/-- The queue test (tasks 1 and 2 are dequeued as 1 then 2) and the worker test (the task
ends completed). -/
theorem C13_fifo_single_worker_witness :
    [1, 2].length ≤ 2 ∧
    ((NewTaskQueue 2).Enqueue 1).bind (fun q => (q.Enqueue 2).bind (fun q2 => dequeueN q2 2))
      = some ([1, 2], NewTaskQueue 2) ∧
    (run (startWorld pendingHeap 1 []) (drainSchedule [1])).map
        (fun w => ((w.heap 1).Status, w.log))
      = some (StatusCompleted, [(1, StatusRunning), (1, StatusCompleted)]) ∧
    (∃ w, run (startWorld pendingHeap 2 []) (drainSchedule [1, 2]) = some w ∧ w.quiescent) :=
  ⟨by decide, by decide, by decide,
   (C13_fifo_single_worker [1, 2] 2 pendingHeap [] (by decide)).2.1⟩

theorem step_quit {w w' : World} (h : step w Event.quit = some w') :
    w.phase = Phase.selecting ∧ w.quitClosed = true ∧
      w' = { w with phase := Phase.returned } := by
  simp only [step] at h
  cases hph : w.phase with
  | selecting =>
    cases hq : w.quitClosed with
    | false => simp [hph, hq] at h
    | true =>
      simp only [hph, hq, Option.some.injEq] at h
      exact ⟨rfl, rfl, h.symm⟩
  | processing p => simp [hph] at h
  | returned => simp [hph] at h

theorem step_done {w w' : World} (h : step w Event.done = some w') :
    w.phase = Phase.selecting ∧ w.ctxDone = true ∧
      w' = { w with phase := Phase.returned } := by
  simp only [step] at h
  cases hph : w.phase with
  | selecting =>
    cases hq : w.ctxDone with
    | false => simp [hph, hq] at h
    | true =>
      simp only [hph, hq, Option.some.injEq] at h
      exact ⟨rfl, rfl, h.symm⟩
  | processing p => simp [hph] at h
  | returned => simp [hph] at h

theorem step_stop {w w' : World} (h : step w Event.stop = some w') :
    w' = { w with quitClosed := true } := by
  simp only [step] at h
  split at h
  · cases h
  · simp only [Option.some.injEq] at h
    exact h.symm

theorem step_cancel {w w' : World} (h : step w Event.cancel = some w') :
    w' = { w with ctxDone := true } := by
  simp only [step, Option.some.injEq] at h
  exact h.symm

theorem step_store {w w' : World} {e : Event} (h : step w e = some w') :
    w'.store = w.store := by
  cases e with
  | recv => obtain ⟨p, rest, _, _, rfl⟩ := step_recv h; rfl
  | finish => obtain ⟨p, _, rfl⟩ := step_finish h; rfl
  | enqueue p => obtain ⟨_, rfl⟩ := step_enqueue h; rfl
  | quit => obtain ⟨_, _, rfl⟩ := step_quit h; rfl
  | done => obtain ⟨_, _, rfl⟩ := step_done h; rfl
  | stop => rw [step_stop h]
  | cancel => rw [step_cancel h]

/-- No step of the worker or of its surroundings writes the durable store. -/
theorem run_store (es : List Event) :
    ∀ w w' : World, run w es = some w' → w'.store = w.store := by
  induction es with
  | nil => intro w w' h; simp only [run, Option.some.injEq] at h; rw [h]
  | cons e es ih =>
    intro w w' h
    simp only [run] at h
    cases hs : step w e with
    | none => rw [hs] at h; cases h
    | some w1 =>
      rw [hs] at h
      rw [ih w1 w' h, step_store hs]

/-- C15 fails on the code: a task submitted through `ProcessTask` and processed by a worker
that drains the agent's queue ends completed in memory, but the store is never written, so
`GetTaskStatus` of its ID returns the empty string and not completed; and the worker of
`main.go`, which drains another queue than the agent's, finds nothing to receive. -/
theorem C15_worker_does_not_persist :
    (submittedWorld.bind (fun w => run w [Event.recv, Event.finish])).map
        (fun w => ((w.heap 7).ID, (w.heap 7).Status, w.store,
          GetTaskStatus w.store "task-001".toList))
      = some ("task-001".toList, StatusCompleted, [], ([], none)) ∧
    (step (startWorld pendingHeap 10 []) Event.recv).isNone = true :=
  ⟨by rfl, by decide⟩

theorem step_returned {w w' : World} {e : Event} (hph : w.phase = Phase.returned)
    (h : step w e = some w') :
    w'.phase = Phase.returned ∧ w'.heap = w.heap ∧ w'.log = w.log := by
  cases e with
  | recv => obtain ⟨p, rest, hsel, _, _⟩ := step_recv h; rw [hph] at hsel; cases hsel
  | finish => obtain ⟨p, hpr, _⟩ := step_finish h; rw [hph] at hpr; cases hpr
  | enqueue p => obtain ⟨_, rfl⟩ := step_enqueue h; exact ⟨hph, rfl, rfl⟩
  | quit => obtain ⟨hsel, _, _⟩ := step_quit h; rw [hph] at hsel; cases hsel
  | done => obtain ⟨hsel, _, _⟩ := step_done h; rw [hph] at hsel; cases hsel
  | stop => rw [step_stop h]; exact ⟨hph, rfl, rfl⟩
  | cancel => rw [step_cancel h]; exact ⟨hph, rfl, rfl⟩

theorem run_returned (es : List Event) :
    ∀ w w' : World, w.phase = Phase.returned → run w es = some w' →
      w'.phase = Phase.returned ∧ w'.heap = w.heap ∧ w'.log = w.log := by
  induction es with
  | nil =>
    intro w w' hph h
    simp only [run, Option.some.injEq] at h
    subst h
    exact ⟨hph, rfl, rfl⟩
  | cons e es ih =>
    intro w w' hph h
    simp only [run] at h
    cases hs : step w e with
    | none => rw [hs] at h; cases h
    | some w1 =>
      rw [hs] at h
      obtain ⟨h1, h2, h3⟩ := step_returned hph hs
      obtain ⟨h4, h5, h6⟩ := ih w1 w' h1 h
      exact ⟨h4, h5.trans h2, h6.trans h3⟩

/-- C18, as stated, fails: with the context cancelled and a task still in the queue the
`select` can take the task case, and the task that was pending is set to running. -/
theorem C18_counterexample_task_after_cancel :
    cancelledWorld.ctxDone = true ∧ cancelledWorld.queue.buf = [0] ∧
    (cancelledWorld.heap 0).Status = StatusPending ∧
    (step cancelledWorld Event.recv).map (fun w => ((w.heap 0).Status, w.log))
      = some (StatusRunning, [(0, StatusRunning)]) ∧
    (run cancelledWorld [Event.recv, Event.finish, Event.done]).map
        (fun w => ((w.heap 0).Status, w.phase))
      = some (StatusCompleted, Phase.returned) :=
  ⟨rfl, rfl, by decide, by decide, by decide⟩

/-- C18, amended: the worker at its `select` takes a step `e` that is the quit or the
cancellation case, the only steps it has when it awaits an empty queue.  Then a signal had been
delivered, the worker has returned, and whatever happens afterwards it never starts a new
task: every task keeps its status and no further status transition occurs. -/
theorem C18_exit_ends_transitions (w : World) (e : Event) (es : List Event) (w1 w' : World)
    (hsel : w.phase = Phase.selecting)
    (hworker : e = Event.recv ∨ e = Event.finish ∨ e = Event.quit ∨ e = Event.done)
    (hexit : e = Event.quit ∨ e = Event.done ∨ w.queue.buf = [])
    (hstep : step w e = some w1) (hrun : run w1 es = some w') :
    (e = Event.quit ∨ e = Event.done) ∧ (w.quitClosed = true ∨ w.ctxDone = true) ∧
    w1.phase = Phase.returned ∧ w'.phase = Phase.returned ∧ w'.heap = w.heap ∧
    w'.log = w.log := by
  have key : (e = Event.quit ∨ e = Event.done) ∧ (w.quitClosed = true ∨ w.ctxDone = true) ∧
      w1.phase = Phase.returned ∧ w1.heap = w.heap ∧ w1.log = w.log := by
    rcases hworker with rfl | rfl | rfl | rfl
    · obtain ⟨p, rest, _, hbuf, _⟩ := step_recv hstep
      rcases hexit with h | h | h
      · cases h
      · cases h
      · rw [h] at hbuf; cases hbuf
    · obtain ⟨p, hpr, _⟩ := step_finish hstep
      rw [hsel] at hpr; cases hpr
    · obtain ⟨_, hq, rfl⟩ := step_quit hstep
      exact ⟨Or.inl rfl, Or.inl hq, rfl, rfl, rfl⟩
    · obtain ⟨_, hq, rfl⟩ := step_done hstep
      exact ⟨Or.inr rfl, Or.inr hq, rfl, rfl, rfl⟩
  obtain ⟨k1, k2, k3, k4, k5⟩ := key
  obtain ⟨r1, r2, r3⟩ := run_returned es w1 w' k3 hrun
  exact ⟨k1, k2, k3, r1, r2.trans k4, r3.trans k5⟩

/-- Cancellation while the worker awaits the empty queue: the worker returns, and a task
enqueued afterwards stays pending. -/
theorem C18_exit_ends_transitions_witness :
    (idleCancelledWorld.phase = Phase.selecting ∧ idleCancelledWorld.queue.buf = []) ∧
    (run idleCancelledWorld [Event.done, Event.enqueue 0, Event.stop]).map
        (fun w => ((w.heap 0).Status, w.log, w.queue.buf))
      = some (StatusPending, [], [0]) ∧
    ((Event.done = Event.quit ∨ Event.done = Event.done) ∧
      (idleCancelledWorld.quitClosed = true ∨ idleCancelledWorld.ctxDone = true) ∧
      ({ idleCancelledWorld with phase := Phase.returned } : World).phase = Phase.returned ∧
      ({ idleCancelledWorld with
          phase := Phase.returned, queue := ⟨[0], 10⟩, quitClosed := true } : World).phase
        = Phase.returned ∧
      ({ idleCancelledWorld with
          phase := Phase.returned, queue := ⟨[0], 10⟩, quitClosed := true } : World).heap
        = idleCancelledWorld.heap ∧
      ({ idleCancelledWorld with
          phase := Phase.returned, queue := ⟨[0], 10⟩, quitClosed := true } : World).log
        = idleCancelledWorld.log) :=
  ⟨⟨rfl, rfl⟩, by decide,
   C18_exit_ends_transitions idleCancelledWorld Event.done [Event.enqueue 0, Event.stop]
    { idleCancelledWorld with phase := Phase.returned }
    { idleCancelledWorld with phase := Phase.returned, queue := ⟨[0], 10⟩, quitClosed := true }
    rfl (Or.inr (Or.inr (Or.inr rfl))) (Or.inr (Or.inl rfl)) rfl rfl⟩
/-! ## Relativization, the container runner and the untagged fallback -/

/-- C11 fails on the code.  For python the command holds the entry file as
`WriteFilesToDirAndCollectMain` returned it: with the working directory /w the file argument
is the absolute host path /w/main.py.  For go with the relative working directory tmp the
paths returned are relative, `filepath.Rel` against the absolute working directory fails, its
error is dropped and the file argument is the empty string. -/
theorem C11_file_arguments_not_relative :
    (WriteFilesToDirAndCollectMain dirWritable [("main.py".toList, "print(1)".toList)]
        "/w".toList langPython (emptyDir "/w".toList)).2
      = some (["/w/main.py".toList], []) ∧
    (RunCodeInDocker demoRunner (some "/home/u".toList) 5 langPython "/w".toList
        ["/w/main.py".toList] [] "/app".toList).2.1.map (fun c => c.cmd)
      = [["python".toList, "/w/main.py".toList]] ∧
    IsAbs "/w/main.py".toList = true ∧
    (WriteFilesToDirAndCollectMain dirWritable
        [("main.go".toList, "package main\nfunc main(){}".toList)]
        "tmp".toList langGo (emptyDir "tmp".toList)).2
      = some (["tmp/main.go".toList], []) ∧
    (RunCodeInDocker demoRunner (some "/home/u".toList) 5 langGo "tmp".toList
        ["tmp/main.go".toList] [] "/app".toList).2.1.map (fun c => c.cmd)
      = [["go".toList, "run".toList, []]] ∧
    (RunCodeInDocker demoRunner (some "/home/u".toList) 5 langGo "/w".toList
        ["/w/main.go".toList] ["/w/util/util.go".toList] "/app".toList).2.1.map
        (fun c => c.cmd)
      = [["go".toList, "run".toList, "main.go".toList, "util/util.go".toList]] :=
  ⟨by decide, by decide, by decide, by decide, by decide, by decide⟩

/-- C16 fails on the code: when every operation of the runtime succeeds both run functions
return the ID of the container, here c0, and not the output hello that the logs operation
delivered; the output is only copied to the standard output of the process.  The caller of
`RunCodeInDocker` receives the container ID as well. -/
theorem C16_returns_container_id :
    (RunContainerWithMount okRuntime ⟨[], 0⟩ goImage
        ["go".toList, "run".toList, "main.go".toList] "/w".toList "/app".toList).result
      = ⟨"c0".toList, none⟩ ∧
    (RunContainerWithMount okRuntime ⟨[], 0⟩ goImage
        ["go".toList, "run".toList, "main.go".toList] "/w".toList "/app".toList).printed
      = "hello\n".toList ∧
    (RunContainer okRuntime ⟨[], 0⟩ goImage ["go".toList, "test".toList, ".".toList]).result
      = ⟨"c0".toList, none⟩ ∧
    (RunCodeInDocker (dockerRunner okRuntime) (some "/home/u".toList) ⟨[], 0⟩ langGo
        "/w".toList ["/w/main.go".toList] [] "/app".toList).1
      = Outcome.ret "c0".toList none :=
  ⟨by decide, by decide, by decide, by decide⟩

/-- C17 fails on the code: `RunContainer` never calls remove, so the container it created
still exists when it returns; `RunContainerWithMount` defers the removal and leaves no
container. -/
theorem C17_run_container_leaves_container :
    (RunContainer okRuntime ⟨[], 0⟩ goImage
        ["go".toList, "test".toList, ".".toList]).state.existing = ["c0".toList] ∧
    (RunContainer okRuntime ⟨[], 0⟩ goImage
        ["go".toList, "test".toList, ".".toList]).result = ⟨"c0".toList, none⟩ ∧
    (RunContainerWithMount okRuntime ⟨[], 0⟩ goImage
        ["go".toList, "run".toList, "main.go".toList] "/w".toList "/app".toList).state.existing
      = [] :=
  ⟨by decide, by decide, by decide⟩

/-- With every runtime, `RunContainerWithMount` ends a run in which the container was
created with the remove operation for that container. -/
theorem RunContainerWithMount_removes {ρ : Type} (rt : Runtime ρ) (s s1 : ρ)
    (imageName : Str) (cmd : List Str) (hostDir targetDir id : Str)
    (h : rt.create s ⟨imageName, cmd, targetDir, [(hostDir, targetDir)]⟩
      = (Except.ok id, s1)) :
    (RunContainerWithMount rt s imageName cmd hostDir targetDir).state
      = (rt.remove (startWaitLogs rt s1 id).state id).2 := by
  simp [RunContainerWithMount, h]

/-- C19 fails on the code: in a response with a block tagged rust, a sentence and an
untagged block, the untagged expression takes the closing fence of the rust block, which a
newline follows, for an opening fence; the file extracted is the sentence between the two
blocks and not the content of the untagged block. -/
theorem C19_takes_text_between_blocks :
    findAllBlocks langOpenings rustResponse = [] ∧
    ExtractCodeFilesFromLLMResponse rustResponse "main.go".toList
      = [("main.go".toList, "Run it with cargo.".toList)] ∧
    ExtractCodeFilesFromLLMResponse rustResponse "main.go".toList
      ≠ [("main.go".toList, "x := 1".toList)] :=
  ⟨by decide, by decide, by decide⟩
/-! ## Paths inside the working directory -/

theorem splitOn_mem_no_sep (sep : Char) (s : Str) : ∀ c ∈ splitOn sep s, sep ∉ c := by
  induction s with
  | nil => intro c hc; simp [splitOn] at hc; simp [hc]
  | cons a s ih =>
    intro c hc
    rw [splitOn_cons] at hc
    by_cases ha : a = sep
    · rw [if_pos ha] at hc
      rcases List.mem_cons.mp hc with rfl | hc'
      · simp
      · exact ih c hc'
    · rw [if_neg ha] at hc
      cases hs : splitOn sep s with
      | nil => exact absurd hs (splitOn_ne_nil sep s)
      | cons l ls =>
        rw [hs] at hc ih
        rcases List.mem_cons.mp hc with rfl | hc'
        · have := ih l (List.mem_cons_self _ _)
          simp only [List.mem_cons, not_or]
          exact ⟨Ne.symm ha, this⟩
        · exact ih c (List.mem_cons_of_mem _ hc')

theorem splitOn_joinComps (C : List Str) (hne : C ≠ []) (h : ∀ c ∈ C, sepChar ∉ c) :
    splitOn sepChar (joinComps C) = C := by
  induction C with
  | nil => exact absurd rfl hne
  | cons c cs ih =>
    cases cs with
    | nil =>
      simp only [joinComps]
      exact splitOn_of_not_mem (h c (List.mem_cons_self _ _))
    | cons d ds =>
      rw [joinComps_cons_cons, splitOn_append_sep,
        splitOn_of_not_mem (h c (List.mem_cons_self _ _)),
        ih (by simp) (fun x hx => h x (List.mem_cons_of_mem _ hx))]
      rfl

theorem StackOK_nil (rooted : Bool) : StackOK rooted [] := by
  intro a b hab ys
  have : b = [] := by
    cases a with
    | nil => simpa using hab.symm
    | cons x xs => simp at hab
  subst this
  rfl

theorem StackOK_push {rooted : Bool} {st : List Str} {c : Str} (hst : StackOK rooted st)
    (hc : ∀ ys, cleanComps rooted st (c :: ys) = cleanComps rooted (c :: st) ys) :
    StackOK rooted (c :: st) := by
  intro a b hab ys
  cases a with
  | nil =>
    simp only [List.nil_append] at hab
    subst hab
    rw [List.reverse_cons, List.append_assoc, List.singleton_append,
      hst [] st rfl (c :: ys), hc]
  | cons x xs =>
    simp only [List.cons_append, List.cons.injEq] at hab
    exact hst xs b hab.2 ys

theorem StackOK_pop {rooted : Bool} {st : List Str} {top : Str}
    (h : StackOK rooted (top :: st)) : StackOK rooted st := by
  intro a b hab ys
  exact h (top :: a) b (by simp [hab]) ys

theorem cleanComps_cons (rooted : Bool) (st : List Str) (c : Str) (cs : List Str) :
    cleanComps rooted st (c :: cs) =
      if c = [] ∨ c = dotElem then cleanComps rooted st cs
      else if c = dotDotElem then
        match st with
        | top :: st' =>
          if top = dotDotElem then cleanComps rooted (c :: st) cs
          else cleanComps rooted st' cs
        | [] => if rooted then cleanComps rooted [] cs else cleanComps rooted [c] cs
      else cleanComps rooted (c :: st) cs := rfl

/-- Cleaning keeps a stack that cleaning itself reproduces, with non-empty elements free
of separators. -/
theorem cleanComps_stack (rooted : Bool) (xs : List Str) :
    ∀ st, (∀ c ∈ xs, sepChar ∉ c) → StackOK rooted st → StackGood st →
      ∃ st', cleanComps rooted st xs = st'.reverse ∧ StackOK rooted st' ∧ StackGood st' := by
  induction xs with
  | nil => intro st _ hok hg; exact ⟨st, rfl, hok, hg⟩
  | cons c cs ih =>
    intro st hx hok hg
    have hcs : ∀ c' ∈ cs, sepChar ∉ c' := fun c' hc' => hx c' (List.mem_cons_of_mem _ hc')
    have hcsep : sepChar ∉ c := hx c (List.mem_cons_self _ _)
    rw [cleanComps_cons]
    by_cases h1 : c = [] ∨ c = dotElem
    · rw [if_pos h1]
      exact ih st hcs hok hg
    · rw [if_neg h1]
      have hcne : c ≠ [] := fun h => h1 (Or.inl h)
      have hgood : StackGood (c :: st) := by
        intro x hxm
        rcases List.mem_cons.mp hxm with rfl | hxm'
        · exact ⟨hcne, hcsep⟩
        · exact hg x hxm'
      by_cases h2 : c = dotDotElem
      · rw [if_pos h2]
        cases st with
        | nil =>
          cases rooted with
          | true => exact ih [] hcs hok hg
          | false =>
            simp only [Bool.false_eq_true, if_false]
            refine ih [c] hcs (StackOK_push hok ?_) hgood
            intro ys
            rw [cleanComps_cons, if_neg h1, if_pos h2]
            simp
        | cons top st' =>
          simp only
          by_cases h3 : top = dotDotElem
          · rw [if_pos h3]
            refine ih (c :: top :: st') hcs (StackOK_push hok ?_) hgood
            intro ys
            rw [cleanComps_cons, if_neg h1, if_pos h2]
            simp [h3]
          · rw [if_neg h3]
            exact ih st' hcs (StackOK_pop hok)
              (fun x hxm => hg x (List.mem_cons_of_mem _ hxm))
      · rw [if_neg h2]
        refine ih (c :: st) hcs (StackOK_push hok ?_) hgood
        intro ys
        rw [cleanComps_cons, if_neg h1, if_neg h2]

theorem IsAbs_joinComps (c : Str) (cs : List Str) (hne : c ≠ []) (hsep : sepChar ∉ c) :
    IsAbs (joinComps (c :: cs)) = false := by
  cases c with
  | nil => exact absurd rfl hne
  | cons a as =>
    have ha : a ≠ sepChar := by
      intro h
      exact hsep (by simp [h])
    cases cs with
    | nil => simp [joinComps, IsAbs, ha]
    | cons d ds => simp [joinComps, IsAbs, ha]

/-- Cleaning a cleaned path changes neither its elements nor whether it is rooted. -/
theorem pathComps_Clean (q : Str) :
    pathComps (Clean q) = pathComps q ∧ IsAbs (Clean q) = IsAbs q := by
  by_cases hq : q = []
  · subst hq
    exact ⟨by decide, by decide⟩
  · obtain ⟨st, hst, hok, hgood⟩ := cleanComps_stack (IsAbs q) (splitOn sepChar q) []
      (splitOn_mem_no_sep sepChar q) (StackOK_nil _) (by intro c hc; cases hc)
    have hpc : pathComps q = st.reverse := hst
    have hidem : cleanComps (IsAbs q) [] st.reverse = st.reverse := by
      have := hok [] st rfl []
      simpa [cleanComps] using this
    have hgood' : ∀ c ∈ st.reverse, c ≠ [] ∧ sepChar ∉ c :=
      fun c hc => hgood c (List.mem_reverse.mp hc)
    have hclean : Clean q = if IsAbs q = true then sepChar :: joinComps st.reverse
        else if st.reverse = [] then dotElem else joinComps st.reverse := by
      unfold Clean
      simp only [hq, if_false, hst]
    rw [hpc, hclean]
    cases hr : IsAbs q with
    | true =>
      rw [hr] at hidem
      simp only [if_true]
      have habs : IsAbs (sepChar :: joinComps st.reverse) = true := by simp [IsAbs]
      refine ⟨?_, habs⟩
      unfold pathComps
      rw [habs, splitOn_cons, if_pos rfl, cleanComps_cons, if_pos (Or.inl rfl)]
      by_cases hC : st.reverse = []
      · rw [hC]
        rfl
      · rw [splitOn_joinComps _ hC (fun c hc => (hgood' c hc).2), hidem]
    | false =>
      rw [hr] at hidem
      simp only [Bool.false_eq_true, if_false]
      by_cases hC : st.reverse = []
      · simp only [hC, if_true]
        exact ⟨by decide, by decide⟩
      · simp only [hC, if_false]
        have habs : IsAbs (joinComps st.reverse) = false := by
          cases hrev : st.reverse with
          | nil => exact absurd hrev hC
          | cons c cs =>
            have := hgood' c (by simp [hrev])
            exact IsAbs_joinComps c cs this.1 this.2
        refine ⟨?_, habs⟩
        unfold pathComps
        rw [habs, splitOn_joinComps _ hC (fun c hc => (hgood' c hc).2), hidem]
theorem keptElems_cons (c : Str) (cs : List Str) :
    keptElems (c :: cs) = if c = [] ∨ c = dotElem then keptElems cs else c :: keptElems cs := by
  unfold keptElems
  rw [List.filter_cons]
  by_cases h1 : c = [] ∨ c = dotElem
  · have : (decide (c ≠ []) && decide (c ≠ dotElem)) = false := by
      rcases h1 with h | h <;> simp [h]
    rw [if_pos h1, this]
    rfl
  · have : (decide (c ≠ []) && decide (c ≠ dotElem)) = true := by
      simp only [not_or] at h1
      simp [h1.1, h1.2]
    rw [if_neg h1, this]
    rfl

theorem cleanComps_noDotDot (rooted : Bool) (B : List Str) (hB : dotDotElem ∉ B) :
    ∀ st, cleanComps rooted st B = st.reverse ++ keptElems B := by
  induction B with
  | nil => intro st; simp [cleanComps, keptElems]
  | cons c cs ih =>
    intro st
    simp only [List.mem_cons, not_or] at hB
    rw [cleanComps_cons, keptElems_cons]
    by_cases h1 : c = [] ∨ c = dotElem
    · rw [if_pos h1, if_pos h1, ih hB.2]
    · rw [if_neg h1, if_neg (Ne.symm hB.1), if_neg h1, ih hB.2]
      simp

theorem cleanComps_append_noDotDot (rooted : Bool) (A B : List Str)
    (hB : dotDotElem ∉ B) :
    ∀ st, cleanComps rooted st (A ++ B) = cleanComps rooted st A ++ keptElems B := by
  induction A with
  | nil =>
    intro st
    simp only [List.nil_append, cleanComps]
    exact cleanComps_noDotDot rooted B hB st
  | cons c cs ih =>
    intro st
    simp only [List.cons_append, cleanComps_cons]
    split
    · exact ih st
    · split
      · cases st with
        | nil =>
          cases rooted
          · simpa using ih [c]
          · simpa using ih []
        | cons top st' =>
          simp only
          split
          · exact ih _
          · exact ih _
      · exact ih _

theorem IsAbs_append_sep (dir x : Str) (hd : dir ≠ []) :
    IsAbs (dir ++ sepChar :: x) = IsAbs dir := by
  cases dir with
  | nil => exact absurd rfl hd
  | cons a as => rfl

/-- The elements of a path joined from a directory and a relative path without dot-dot. -/
theorem pathComps_Join (dir x : Str) (hx : IsAbs x = false)
    (hdd : dotDotElem ∉ splitOn sepChar x) :
    pathComps (Join dir x) = pathComps dir ++ keptElems (splitOn sepChar x) ∧
    IsAbs (Join dir x) = IsAbs dir := by
  unfold Join
  by_cases hd : dir = []
  · subst hd
    simp only [ne_eq, not_true_eq_false, if_false]
    by_cases hxe : x = []
    · subst hxe
      simp only [not_true_eq_false, if_false]
      refine ⟨by decide, ?_⟩
      first | rfl | trivial
    · simp only [hxe, not_false_eq_true, if_true]
      obtain ⟨h1, h2⟩ := pathComps_Clean x
      rw [h1, h2, hx]
      refine ⟨?_, by decide⟩
      unfold pathComps
      rw [hx]
      have := cleanComps_noDotDot false (splitOn sepChar x) hdd []
      rw [this]
      have e : cleanComps (IsAbs []) [] (splitOn sepChar []) = [] := by decide
      rw [e]
      simp
  · simp only [ne_eq, hd, not_false_eq_true, if_true]
    obtain ⟨h1, h2⟩ := pathComps_Clean (dir ++ sepChar :: x)
    rw [h1, h2, IsAbs_append_sep dir x hd]
    refine ⟨?_, rfl⟩
    unfold pathComps
    rw [IsAbs_append_sep dir x hd, splitOn_append_sep,
      cleanComps_append_noDotDot _ _ _ hdd]

theorem plain_relative {n : Str} (hn : PlainName n) :
    IsAbs n = false ∧ splitOn sepChar n = [n] ∧ keptElems [n] = [n] := by
  obtain ⟨h1, h2, h3, _⟩ := hn
  refine ⟨?_, splitOn_of_not_mem h2, ?_⟩
  · cases n with
    | nil => rfl
    | cons a as =>
      have : a ≠ sepChar := by
        intro h
        exact h2 (by simp [h])
      simp [IsAbs, this]
  · rw [keptElems_cons, if_neg (by simp [h1, h3])]
    rfl

theorem keptElems_subset (cs : List Str) : ∀ c ∈ keptElems cs, c ∈ cs := by
  intro c hc
  exact (List.mem_filter.mp hc).1

/-- A file with a plain name and a safe namespace is written inside the working
directory. -/
theorem Within_writePath (workDir language name code : Str) (hn : PlainName name)
    (hns : SafeNamespace (declaredNamespace code)) :
    Within workDir (writePath workDir language name code) := by
  obtain ⟨hrel, hsplit, hkept⟩ := plain_relative hn
  have hnd : dotDotElem ∉ splitOn sepChar name := by
    rw [hsplit]
    simp only [List.mem_singleton]
    exact Ne.symm hn.2.2.2
  unfold writePath
  split
  · obtain ⟨h1, h2⟩ := pathComps_Join workDir name hrel hnd
    refine ⟨h2, [name], by simp, ?_, ?_⟩
    · simp only [List.mem_singleton]
      exact Ne.symm hn.2.2.2
    · rw [h1, hsplit, hkept]
  · obtain ⟨g1, g2⟩ := pathComps_Join workDir (declaredNamespace code) hns.1 hns.2
    obtain ⟨h1, h2⟩ := pathComps_Join (Join workDir (declaredNamespace code)) name hrel hnd
    refine ⟨h2.trans g2,
      keptElems (splitOn sepChar (declaredNamespace code)) ++ [name], by simp, ?_, ?_⟩
    · intro hmem
      rcases List.mem_append.mp hmem with hm | hm
      · exact hns.2 (keptElems_subset _ _ hm)
      · simp only [List.mem_singleton] at hm
        exact hn.2.2.2 hm.symm
    · rw [h1, g1, hsplit, hkept, List.append_assoc]

theorem digitChar_ne (k : Nat) : digitChar k ≠ sepChar ∧ digitChar k ≠ '.' := by
  unfold digitChar
  have h : k % 10 < 10 := Nat.mod_lt _ (by decide)
  generalize k % 10 = j at h
  interval_cases j <;> exact ⟨by decide, by decide⟩

theorem decimalAux_digits (fuel : Nat) :
    ∀ (n : Nat) (acc : Str), (∀ c ∈ acc, IsDigit c) →
      ∀ c ∈ decimalAux fuel n acc, IsDigit c := by
  induction fuel with
  | zero => intro n acc hacc c hc; exact hacc c hc
  | succ fuel ih =>
    intro n acc hacc c hc
    have hacc' : ∀ c ∈ digitChar n :: acc, IsDigit c := by
      intro x hx
      rcases List.mem_cons.mp hx with rfl | hx'
      · exact ⟨n, rfl⟩
      · exact hacc x hx'
    simp only [decimalAux] at hc
    split at hc
    · exact hacc' c hc
    · exact ih (n / 10) _ hacc' c hc

theorem decimal_digits (n : Nat) : ∀ c ∈ decimal n, IsDigit c :=
  decimalAux_digits (n + 1) n [] (by intro c hc; cases hc)

/-- Inserting a decimal numeral into a plain name gives a plain name. -/
theorem plain_insert_decimal (a b : Str) (n : Nat) (hab : sepChar ∉ a ++ b) :
    PlainName (a ++ decimal (n + 1) ++ b) := by
  have hne := decimal_succ_ne_nil n
  obtain ⟨c, hc⟩ := List.exists_mem_of_ne_nil _ hne
  obtain ⟨k, rfl⟩ := decimal_digits _ c hc
  have hmem : digitChar k ∈ a ++ decimal (n + 1) ++ b := by simp [hc]
  refine ⟨?_, ?_, ?_, ?_⟩
  · intro h
    rw [h] at hmem
    cases hmem
  · intro h
    simp only [List.mem_append] at h hab
    rcases h with (h | h) | h
    · exact hab (Or.inl h)
    · obtain ⟨j, hj⟩ := decimal_digits _ _ h
      exact (digitChar_ne j).1 hj.symm
    · exact hab (Or.inr h)
  · intro h
    rw [h] at hmem
    simp only [dotElem, List.mem_singleton] at hmem
    exact (digitChar_ne k).2 hmem
  · intro h
    rw [h] at hmem
    simp only [dotDotElem, List.mem_cons, List.mem_singleton, List.not_mem_nil,
      or_false, or_self] at hmem
    exact (digitChar_ne k).2 hmem

theorem blockFileName_plain (d : Str) (hd : PlainName d) (i : Nat) :
    PlainName (blockFileName d i) := by
  unfold blockFileName
  by_cases hi : i > 0
  · simp only [hi, if_true]
    have hsep : sepChar ∉ d := hd.2.1
    have h1 : PlainName (d ++ decimal (i + 1)) := by
      have := plain_insert_decimal d [] i (by simpa using hsep)
      simpa using this
    cases lastIndexDot d with
    | none => exact h1
    | some dot =>
      simp only
      split
      · exact plain_insert_decimal _ _ i (by rw [List.take_append_drop]; exact hsep)
      · exact h1
  · simp only [hi, if_false]
    exact hd

theorem extract_names (content d : Str) :
    ∀ f ∈ ExtractCodeFilesFromLLMResponse content d, ∃ i, f.1 = blockFileName d i := by
  intro f hf
  unfold ExtractCodeFilesFromLLMResponse at hf
  simp only at hf
  split at hf
  · rw [storeBlocks_eq d _ 0 [] (by simp)] at hf
    simp only [List.nil_append] at hf
    obtain ⟨n, hn, rfl⟩ := List.mem_iff_getElem.mp hf
    simp only [List.getElem_zipWith]
    exact ⟨_, rfl⟩
  · split at hf
    · simp only [mapSet, List.mem_singleton] at hf
      subst hf
      exact ⟨0, (blockFileName_zero d).symm⟩
    · simp only [mapSet, List.mem_singleton] at hf
      subst hf
      exact ⟨0, (blockFileName_zero d).symm⟩

/-- C20, as stated, fails: the Go file of the response declares the package dot-dot; it is
extracted as main.go and, with the working directory /w, written at /main.go, which is
returned as a dependency file and lies outside /w. -/
theorem C20_counterexample_parent_directory :
    ExtractCodeFilesFromLLMResponse dotDotResponse "main.go".toList
      = [("main.go".toList, "package ..\nfunc Helper() {}".toList)] ∧
    (WriteFilesToDirAndCollectMain dirWritable
        (ExtractCodeFilesFromLLMResponse dotDotResponse "main.go".toList) "/w".toList langGo
        ⟨[], ["/w".toList, "/".toList]⟩).2
      = some ([], ["/main.go".toList]) ∧
    ¬ Within "/w".toList "/main.go".toList := by
  refine ⟨by decide, by decide, ?_⟩
  rintro ⟨-, rest, -, -, h⟩
  have h1 : pathComps "/main.go".toList = ["main.go".toList] := by decide
  have h2 : pathComps "/w".toList = ["w".toList] := by decide
  rw [h1, h2] at h
  simp only [List.singleton_append, List.cons.injEq] at h
  exact absurd h.1 (by decide)

/-- C20, amended: for the files extracted from a response with a plain default filename
(ranged over in any order), every working directory and language go, when every declared
namespace is a relative path without a dot-dot element every path that
`WriteFilesToDirAndCollectMain` returns, and every path it writes, lies inside the working
directory. -/
theorem C20_paths_within_workdir (wr : FS → Str → Bool) (content d workDir : Str)
    (files : GoMap) (fs fs' : FS) (mainFiles depFiles : List Str)
    (hd : PlainName d)
    (hperm : List.Perm files (ExtractCodeFilesFromLLMResponse content d))
    (hns : ∀ f ∈ files, SafeNamespace (declaredNamespace f.2))
    (h : WriteFilesToDirAndCollectMain wr files workDir langGo fs
      = (fs', some (mainFiles, depFiles))) :
    (∀ p ∈ mainFiles ++ depFiles, Within workDir p) ∧
    ∃ log, fs'.files = log ++ fs.files ∧ ∀ pc ∈ log, Within workDir pc.1 := by
  obtain ⟨h1, h2, h3⟩ := writeLoop_ok wr workDir langGo files fs [] [] fs' mainFiles depFiles h
  rw [List.nil_append] at h2 h3
  have hall : ∀ f ∈ files, Within workDir (writePath workDir langGo f.1 f.2) := by
    intro f hf
    obtain ⟨i, hi⟩ := extract_names content d f (hperm.mem_iff.mp hf)
    have hplain : PlainName f.1 := hi ▸ blockFileName_plain d hd i
    exact Within_writePath workDir langGo f.1 f.2 hplain (hns f hf)
  constructor
  · intro p hp
    rw [h2, h3] at hp
    rcases List.mem_append.mp hp with hp | hp
    · obtain ⟨f, hf, rfl⟩ := List.mem_map.mp hp
      exact hall f (List.mem_filter.mp hf).1
    · obtain ⟨f, hf, rfl⟩ := List.mem_map.mp hp
      exact hall f (List.mem_filter.mp hf).1
  · refine ⟨_, h1, ?_⟩
    intro pc hpc
    rw [List.mem_reverse] at hpc
    obtain ⟨f, hf, rfl⟩ := List.mem_map.mp hpc
    exact hall f hf

/-- A response with an entry file and a file of package util: the files are written at
/w/main.go and /w/util/main2.go, inside /w. -/
theorem C20_paths_within_workdir_witness :
    (PlainName "main.go".toList ∧
      ∀ f ∈ ExtractCodeFilesFromLLMResponse utilResponse "main.go".toList,
        SafeNamespace (declaredNamespace f.2)) ∧
    (WriteFilesToDirAndCollectMain dirWritable
        (ExtractCodeFilesFromLLMResponse utilResponse "main.go".toList) "/w".toList langGo
        (emptyDir "/w".toList)).2
      = some (["/w/main.go".toList], ["/w/util/main2.go".toList]) ∧
    (∀ p ∈ ["/w/main.go".toList] ++ ["/w/util/main2.go".toList], Within "/w".toList p) :=
  have hfiles : ExtractCodeFilesFromLLMResponse utilResponse "main.go".toList
      = [("main.go".toList, "package main\nfunc main(){}".toList),
         ("main2.go".toList, "package util\nfunc Foo(){}".toList)] := by decide
  have hns : ∀ f ∈ ExtractCodeFilesFromLLMResponse utilResponse "main.go".toList,
      SafeNamespace (declaredNamespace f.2) := by
    intro f hf
    rw [hfiles] at hf
    simp only [List.mem_cons, List.mem_singleton, List.not_mem_nil, or_false] at hf
    rcases hf with rfl | rfl <;> (unfold SafeNamespace; decide)
  ⟨⟨by unfold PlainName; decide, hns⟩, by decide,
   (C20_paths_within_workdir dirWritable utilResponse "main.go".toList "/w".toList
      (ExtractCodeFilesFromLLMResponse utilResponse "main.go".toList) (emptyDir "/w".toList)
      (WriteFilesToDirAndCollectMain dirWritable
        (ExtractCodeFilesFromLLMResponse utilResponse "main.go".toList) "/w".toList langGo
        (emptyDir "/w".toList)).1
      ["/w/main.go".toList] ["/w/util/main2.go".toList]
      (by unfold PlainName; decide) (List.Perm.refl _) hns (Prod.ext rfl (by decide))).1⟩
/-! ## The first entry file -/

theorem extract_ne_nil (content d : Str) : ExtractCodeFilesFromLLMResponse content d ≠ [] := by
  unfold ExtractCodeFilesFromLLMResponse
  simp only
  split
  · rename_i h
    rw [storeBlocks_eq d _ 0 [] (by simp)]
    intro h0
    have := congrArg List.length h0
    simp only [List.nil_append, List.length_zipWith, List.length_range', List.length_nil,
      Nat.min_self] at this
    omega
  · split <;> simp [mapSet]

/-- For a language other than go every successful write of a non-empty file set returns a
non-empty entry list. -/
theorem entry_list_nonempty_of_not_go (wr : FS → Str → Bool) (files : GoMap)
    (workDir language : Str) (fs fs' : FS) (mainFiles depFiles : List Str)
    (hl : language ≠ langGo) (hne : files ≠ [])
    (h : WriteFilesToDirAndCollectMain wr files workDir language fs
      = (fs', some (mainFiles, depFiles))) : mainFiles ≠ [] := by
  obtain ⟨-, h2, -⟩ := writeLoop_ok wr workDir language files fs [] [] fs' mainFiles depFiles h
  have he : ∀ f : Str × Str, isEntryFile language f.2 = true := by
    intro f; simp [isEntryFile, hl]
  rw [h2]
  cases files with
  | nil => exact absurd rfl hne
  | cons f fs0 => simp [he]

/-- For go the entry list of a successful write is empty exactly when no file declares the
entry namespace. -/
theorem entry_list_empty_iff_go (wr : FS → Str → Bool) (files : GoMap)
    (workDir : Str) (fs fs' : FS) (mainFiles depFiles : List Str)
    (h : WriteFilesToDirAndCollectMain wr files workDir langGo fs
      = (fs', some (mainFiles, depFiles))) :
    mainFiles = [] ↔ ∀ f ∈ files, declaredNamespace f.2 ≠ mainPkg := by
  obtain ⟨-, h2, -⟩ := writeLoop_ok wr workDir langGo files fs [] [] fs' mainFiles depFiles h
  rw [h2, List.nil_append, List.map_eq_nil_iff, List.filter_eq_nil_iff]
  constructor
  · intro hall f hf hns
    exact hall f hf (by simp [isEntryFile, hns])
  · intro hall f hf he
    simp only [isEntryFile, ne_eq, not_true_eq_false, decide_False, Bool.false_or,
      decide_eq_true_eq] at he
    exact hall f hf he

/-- For a language other than go `GenerateCodeAndWriteFiles` with the extractor of the
repository never panics: the access `mainFiles[0]` is in bounds. -/
theorem GenerateCodeAndWriteFiles_no_panic_of_not_go (completion : Except Str Str)
    (wr : FS → Str → Bool) (goimports : FS → Str → Option Str × FS)
    (language workDir : Str) (fs : FS) (hl : language ≠ langGo) :
    (GenerateCodeAndWriteFiles completion wr goimports ExtractCodeFilesFromLLMResponse
      language workDir fs).1 ≠ GenOutcome.panicked := by
  unfold GenerateCodeAndWriteFiles
  cases completion with
  | error e => simp
  | ok content =>
    simp only
    cases hw : WriteFilesToDirAndCollectMain wr
        (ExtractCodeFilesFromLLMResponse content (MainFileName language)) workDir language fs with
    | mk fs1 res =>
      cases res with
      | none => simp
      | some md =>
        obtain ⟨mainFiles, depFiles⟩ := md
        have hne := entry_list_nonempty_of_not_go wr _ workDir language fs fs1 mainFiles
          depFiles hl (extract_ne_nil content (MainFileName language)) hw
        simp only [if_neg hl]
        cases mainFiles with
        | nil => exact absurd rfl hne
        | cons mf rest => simp

/-- C21 fails on the code: the response whose only Go file declares the package util is
extracted as main.go, written as a dependency file, and the entry list returned without an
error is empty; `GenerateCodeAndWriteFiles` then panics at `mainFiles[0]`.  For python the
same response gives one entry file and the access is in bounds. -/
theorem C21_empty_entry_list_panics :
    MainFileName langGo = "main.go".toList ∧
    ExtractCodeFilesFromLLMResponse utilOnlyResponse "main.go".toList
      = [("main.go".toList, "package util\nfunc Foo(){}".toList)] ∧
    (WriteFilesToDirAndCollectMain dirWritable
        (ExtractCodeFilesFromLLMResponse utilOnlyResponse (MainFileName langGo))
        "/w".toList langGo (emptyDir "/w".toList)).2
      = some ([], ["/w/util/main.go".toList]) ∧
    (GenerateCodeAndWriteFiles (Except.ok utilOnlyResponse) dirWritable goimportsOk
        ExtractCodeFilesFromLLMResponse langGo "/w".toList (emptyDir "/w".toList)).1
      = GenOutcome.panicked ∧
    (GenerateCodeAndWriteFiles (Except.ok utilOnlyResponse) dirWritable goimportsOk
        ExtractCodeFilesFromLLMResponse langPython "/w".toList (emptyDir "/w".toList)).1
      = GenOutcome.ret utilOnlyResponse "/w/main.py".toList none ∧
    (RunCodeInDocker demoRunner (some "/home/u".toList) 5 langPython "/w".toList []
        [] "/app".toList).1 = Outcome.panicked :=
  ⟨by decide, by decide, by decide, by decide, by decide, by decide⟩

/-! ## The arguments of the run command and the path relative to the working directory -/

theorem dropPrefix_append (B rest : List Str) : dropPrefix B (B ++ rest) = some rest := by
  induction B with
  | nil => rfl
  | cons b bs ih =>
    show (if b = b then dropPrefix bs (bs ++ rest) else none) = some rest
    rw [if_pos rfl]
    exact ih

theorem dropPrefix_eq_some (B : List Str) :
    ∀ (l rest : List Str), dropPrefix B l = some rest → l = B ++ rest := by
  induction B with
  | nil =>
    intro l rest h
    simp only [dropPrefix, Option.some.injEq] at h
    simp [h]
  | cons b bs ih =>
    intro l rest h
    cases l with
    | nil => simp [dropPrefix] at h
    | cons a l =>
      simp only [dropPrefix] at h
      by_cases hab : b = a
      · rw [if_pos hab] at h
        rw [hab, ih l rest h]
        rfl
      · rw [if_neg hab] at h
        cases h

theorem dropCommon_append (B rest : List Str) : dropCommon B (B ++ rest) = ([], rest) := by
  induction B with
  | nil => cases rest <;> rfl
  | cons b bs ih =>
    show dropCommon (b :: bs) (b :: (bs ++ rest)) = ([], rest)
    simp only [dropCommon, if_true]
    exact ih

theorem joinComps_ne_nil (c : Str) (cs : List Str) (hc : c ≠ []) : joinComps (c :: cs) ≠ [] := by
  cases cs with
  | nil => simpa [joinComps] using hc
  | cons d ds =>
    cases c with
    | nil => exact absurd rfl hc
    | cons a as => simp [joinComps]

/-- The elements of a path are non-empty and free of separators. -/
theorem pathComps_good (q : Str) : ∀ c ∈ pathComps q, c ≠ [] ∧ sepChar ∉ c := by
  obtain ⟨st, hst, -, hgood⟩ := cleanComps_stack (IsAbs q) (splitOn sepChar q) []
    (splitOn_mem_no_sep sepChar q) (StackOK_nil _) (by intro c hc; cases hc)
  have hpc : pathComps q = st.reverse := hst
  intro c hc
  rw [hpc] at hc
  exact hgood c (List.mem_reverse.mp hc)

/-- A rooted path is cleaned to the separator followed by its elements. -/
theorem Clean_of_abs (q : Str) (h : IsAbs q = true) :
    Clean q = sepChar :: joinComps (pathComps q) := by
  have hq : q ≠ [] := by
    intro h0
    subst h0
    exact absurd h (by decide)
  unfold Clean pathComps
  simp only [hq, if_false, h, if_true]

/-- The elements `filepath.Rel` compares for a cleaned rooted path are the elements of the
path. -/
theorem pathElems_rooted (C : List Str) (hC : ∀ c ∈ C, c ≠ [] ∧ sepChar ∉ c) :
    pathElems (sepChar :: joinComps C) = C := by
  have habs : IsAbs (sepChar :: joinComps C) = true := by simp [IsAbs]
  unfold pathElems
  rw [if_neg (List.cons_ne_nil _ _), if_pos habs, List.tail_cons]
  cases C with
  | nil => rfl
  | cons c cs =>
    rw [if_neg (joinComps_ne_nil c cs (hC c (List.mem_cons_self _ _)).1)]
    exact splitOn_joinComps _ (List.cons_ne_nil _ _) (fun c hc => (hC c hc).2)

/-- For a rooted directory and a rooted path whose elements are those of the directory
followed by at least one more, `filepath.Rel` returns the further elements, joined. -/
theorem Rel_inside (w p : Str) (rest : List Str) (hw : IsAbs w = true) (hp : IsAbs p = true)
    (hcomps : pathComps p = pathComps w ++ rest) (hrest : rest ≠ []) :
    Rel (Clean w) p = some (joinComps rest) := by
  have hcw := pathComps_Clean w
  have hbase : Clean (Clean w) = sepChar :: joinComps (pathComps w) := by
    rw [Clean_of_abs (Clean w) (by rw [hcw.2]; exact hw), hcw.1]
  have htarg : Clean p = sepChar :: joinComps (pathComps p) := Clean_of_abs p hp
  have heB := pathElems_rooted (pathComps w) (pathComps_good w)
  have heT := pathElems_rooted (pathComps p) (pathComps_good p)
  have hne : sepChar :: joinComps (pathComps p) ≠ sepChar :: joinComps (pathComps w) := by
    intro h
    have h1 : pathComps p = pathComps w := by rw [← heT, ← heB, h]
    rw [hcomps] at h1
    exact hrest (List.append_right_eq_self.mp h1)
  have hnd : sepChar :: joinComps (pathComps w) ≠ dotElem := by
    intro h
    have := (List.cons.inj h).1
    exact absurd this (by decide)
  have hab : (IsAbs (sepChar :: joinComps (pathComps w))
      != IsAbs (sepChar :: joinComps (pathComps p))) = false := by simp [IsAbs]
  unfold Rel
  simp only [hbase, htarg, if_neg hne, if_neg hnd, hab, Bool.false_eq_true, if_false, heB, heT]
  rw [hcomps, dropCommon_append]

/-- With an absolute working directory, `relPath` of a file that has a path relative to the
working directory is that relative path. -/
theorem relPath_eq_specRel (cwd : Option Str) (w p r : Str) (hw : IsAbs w = true)
    (h : specRel w p = some r) : relPath cwd p w = r := by
  unfold specRel at h
  by_cases hab : IsAbs p = IsAbs w
  · rw [if_pos hab] at h
    cases hd : dropPrefix (pathComps w) (pathComps p) with
    | none =>
      rw [hd] at h
      cases h
    | some l =>
      rw [hd] at h
      cases l with
      | nil => cases h
      | cons c rest =>
        simp only [Option.some.injEq] at h
        have hcomps := dropPrefix_eq_some _ _ _ hd
        have hrel := Rel_inside w p (c :: rest) hw (hab.trans hw) hcomps (List.cons_ne_nil _ _)
        unfold relPath Abs
        simp only [hw, if_true, hrel]
        exact h
  · rw [if_neg hab] at h
    cases h

theorem relPaths_eq_specRels (cwd : Option Str) (w : Str) (hw : IsAbs w = true) :
    ∀ (fs rs : List Str), specRels w fs = some rs → relPaths cwd fs w = rs := by
  intro fs
  induction fs with
  | nil =>
    intro rs h
    simp only [specRels, Option.some.injEq] at h
    subst h
    rfl
  | cons f fs ih =>
    intro rs h
    simp only [specRels] at h
    cases h1 : specRel w f with
    | none =>
      rw [h1] at h
      cases h
    | some r =>
      cases h2 : specRels w fs with
      | none =>
        rw [h1, h2] at h
        cases h
      | some rs1 =>
        rw [h1, h2] at h
        simp only [Option.some.injEq] at h
        subst h
        show relPath cwd f w :: relPaths cwd fs w = r :: rs1
        rw [relPath_eq_specRel cwd w f r hw h1, ih rs1 h2]

/-- A path inside the working directory has a path relative to it. -/
theorem specRel_of_within (w p : Str) (h : Within w p) : ∃ r, specRel w p = some r := by
  obtain ⟨hab, rest, hne, -, hc⟩ := h
  unfold specRel
  rw [if_pos hab, hc, dropPrefix_append]
  cases rest with
  | nil => exact absurd rfl hne
  | cons c cs => exact ⟨_, rfl⟩

/-- The path of an entry file with a plain name, relative to the working directory it was
written under, is its name. -/
theorem specRel_entry_file (w name : Str) (hn : PlainName name) :
    specRel w (Join w name) = some name := by
  obtain ⟨hrel, hsplit, hkept⟩ := plain_relative hn
  have hnd : dotDotElem ∉ splitOn sepChar name := by
    rw [hsplit]
    simp only [List.mem_singleton]
    exact Ne.symm hn.2.2.2
  obtain ⟨h1, h2⟩ := pathComps_Join w name hrel hnd
  unfold specRel
  rw [if_pos h2, h1, hsplit, hkept, dropPrefix_append]
  rfl

/-- The path of a dependency file with a plain name and a plain namespace, relative to the
working directory it was written under, is the namespace, a separator and the name. -/
theorem specRel_dependency_file (w ns name : Str) (hns : PlainName ns)
    (hn : PlainName name) :
    specRel w (Join (Join w ns) name) = some (ns ++ sepChar :: name) := by
  obtain ⟨hrel, hsplit, hkept⟩ := plain_relative hn
  obtain ⟨hrel1, hsplit1, hkept1⟩ := plain_relative hns
  have hnd : dotDotElem ∉ splitOn sepChar name := by
    rw [hsplit]
    simp only [List.mem_singleton]
    exact Ne.symm hn.2.2.2
  have hnd1 : dotDotElem ∉ splitOn sepChar ns := by
    rw [hsplit1]
    simp only [List.mem_singleton]
    exact Ne.symm hns.2.2.2
  obtain ⟨h1, h2⟩ := pathComps_Join w ns hrel1 hnd1
  obtain ⟨h3, h4⟩ := pathComps_Join (Join w ns) name hrel hnd
  unfold specRel
  rw [if_pos (h4.trans h2), h3, h1, hsplit, hkept, hsplit1, hkept1, List.append_assoc,
    dropPrefix_append]
  rfl

theorem callAll_eq_specCall (cwd : Option Str) (workDir targetDir : Str)
    (mainFiles depFiles ms ds : List Str) (habs : IsAbs workDir = true)
    (hm : specRels workDir mainFiles = some ms) (hd : specRels workDir depFiles = some ds) :
    callAll cwd workDir targetDir mainFiles depFiles = specCall workDir targetDir (ms ++ ds) := by
  unfold callAll specCall
  rw [relPaths_eq_specRels cwd workDir habs mainFiles ms hm,
    relPaths_eq_specRels cwd workDir habs depFiles ds hd]
  rfl

theorem callEntry_eq_specCall (cwd : Option Str) (workDir targetDir : Str)
    (depFiles ds : List Str) (habs : IsAbs workDir = true)
    (hd : specRels workDir depFiles = some ds) :
    ∀ (mainFiles ms : List Str), specRels workDir mainFiles = some ms →
      mainFiles.map (callEntry cwd workDir targetDir depFiles)
        = ms.map (fun m => specCall workDir targetDir (m :: ds)) := by
  intro mainFiles
  induction mainFiles with
  | nil =>
    intro ms h
    simp only [specRels, Option.some.injEq] at h
    subst h
    rfl
  | cons f fs ih =>
    intro ms h
    simp only [specRels] at h
    cases h1 : specRel workDir f with
    | none =>
      rw [h1] at h
      cases h
    | some r =>
      cases h2 : specRels workDir fs with
      | none =>
        rw [h1, h2] at h
        cases h
      | some rs1 =>
        rw [h1, h2] at h
        simp only [Option.some.injEq] at h
        subst h
        rw [List.map_cons, List.map_cons, ih rs1 h2]
        congr 1
        unfold callEntry specCall
        rw [relPath_eq_specRel cwd workDir f r habs h1,
          relPaths_eq_specRels cwd workDir habs depFiles ds hd]
        rfl

/-- With an absolute working directory, one entry file and dependency files that have paths
relative to the working directory, `RunCodeInDocker` makes exactly one call, the one the
specification describes (go, run, the relative path of the entry file and then the relative
paths of the dependency files in order), and returns its output and error unchanged. -/
theorem RunCodeInDocker_single_entry_spec {σ : Type} (run : Runner σ) (cwd : Option Str)
    (s : σ) (workDir e : Str) (depFiles : List Str) (targetDir m : Str) (ds : List Str)
    (habs : IsAbs workDir = true) (hm : specRel workDir e = some m)
    (hd : specRels workDir depFiles = some ds) :
    RunCodeInDocker run cwd s langGo workDir [e] depFiles targetDir =
      (Outcome.ret (run s (specCall workDir targetDir (m :: ds))).1.out
          (run s (specCall workDir targetDir (m :: ds))).1.err,
        [specCall workDir targetDir (m :: ds)],
        (run s (specCall workDir targetDir (m :: ds))).2) := by
  have h1 := relPaths_eq_specRels cwd workDir habs depFiles ds hd
  rw [relPaths_eq_map] at h1
  rw [RunCodeInDocker_single_entry, relPath_eq_specRel cwd workDir e m habs hm, h1]
  rfl

/-- With an absolute working directory and more than one entry file, all files having paths
relative to the working directory: the first call is the combined one the specification
describes; when it returns no error, or an error without the marker "main redeclared" in the
output followed by the error text, its output and error are returned unchanged and no other
call is made; otherwise one call per entry file follows, in order, each with the relative
path of the entry file and then those of all dependency files, and the result is a nil error
with the report made of one section per entry file. -/
theorem RunCodeInDocker_many_entries_spec {σ : Type} (run : Runner σ) (cwd : Option Str)
    (s : σ) (workDir : Str) (mainFiles depFiles : List Str) (targetDir : Str)
    (ms ds : List Str) (habs : IsAbs workDir = true) (hn : mainFiles.length ≠ 1)
    (hm : specRels workDir mainFiles = some ms) (hd : specRels workDir depFiles = some ds) :
    RunCodeInDocker run cwd s langGo workDir mainFiles depFiles targetDir =
      match (run s (specCall workDir targetDir (ms ++ ds))).1.err with
      | none =>
        (Outcome.ret (run s (specCall workDir targetDir (ms ++ ds))).1.out none,
          [specCall workDir targetDir (ms ++ ds)],
          (run s (specCall workDir targetDir (ms ++ ds))).2)
      | some e =>
        if !Contains ((run s (specCall workDir targetDir (ms ++ ds))).1.out ++ e)
            mainRedeclared then
          (Outcome.ret (run s (specCall workDir targetDir (ms ++ ds))).1.out (some e),
            [specCall workDir targetDir (ms ++ ds)],
            (run s (specCall workDir targetDir (ms ++ ds))).2)
        else
          (Outcome.ret (List.zipWith reportSection mainFiles
              (runSeq run (run s (specCall workDir targetDir (ms ++ ds))).2
                (ms.map (fun m => specCall workDir targetDir (m :: ds))))).flatten none,
            specCall workDir targetDir (ms ++ ds) ::
              ms.map (fun m => specCall workDir targetDir (m :: ds)),
            runFinal run (run s (specCall workDir targetDir (ms ++ ds))).2
              (ms.map (fun m => specCall workDir targetDir (m :: ds)))) := by
  rw [RunCodeInDocker_go_many run cwd s workDir mainFiles depFiles targetDir hn,
    callAll_eq_specCall cwd workDir targetDir mainFiles depFiles ms ds habs hm hd,
    callEntry_eq_specCall cwd workDir targetDir depFiles ds habs hd mainFiles ms hm]

/-- The files the workspace writer returns for the absolute working directory /w have the
relative paths a.go, b.go and util/u.go, and the calls made for them are those the
specification describes. -/
theorem RunCodeInDocker_absolute_scenario :
    specRels "/w".toList demoMains = some ["a.go".toList, "b.go".toList] ∧
    specRels "/w".toList demoDeps = some ["util/u.go".toList] ∧
    (RunCodeInDocker demoRunner (some "/home/u".toList) 0 langGo "/w".toList demoMains
        demoDeps "/app".toList).2.1
      = [specCall "/w".toList "/app".toList
          ["a.go".toList, "b.go".toList, "util/u.go".toList],
         specCall "/w".toList "/app".toList ["a.go".toList, "util/u.go".toList],
         specCall "/w".toList "/app".toList ["b.go".toList, "util/u.go".toList]] :=
  ⟨by decide, by decide, by decide⟩

/-- The files main.go and util/u.go under the absolute working directory /w: the one call
made is the call of the specification with the relative paths main.go and util/u.go. -/
theorem RunCodeInDocker_single_entry_spec_scenario :
    (IsAbs "/w".toList = true ∧
      specRel "/w".toList "/w/main.go".toList = some "main.go".toList ∧
      specRels "/w".toList ["/w/util/u.go".toList] = some ["util/u.go".toList]) ∧
    (RunCodeInDocker demoRunner (some "/home/u".toList) 5 langGo "/w".toList
        ["/w/main.go".toList] ["/w/util/u.go".toList] "/app".toList).2.1
      = [specCall "/w".toList "/app".toList ["main.go".toList, "util/u.go".toList]] :=
  ⟨⟨by decide, by decide, by decide⟩,
   congrArg (fun r => r.2.1)
     (RunCodeInDocker_single_entry_spec demoRunner (some "/home/u".toList) 5 "/w".toList
       "/w/main.go".toList ["/w/util/u.go".toList] "/app".toList "main.go".toList
       ["util/u.go".toList] (by decide) (by decide) (by decide))⟩

/-- Two colliding entry files under the absolute working directory /w: the combined call
and the two calls that follow are the calls of the specification, and the report has one
section per entry file. -/
theorem RunCodeInDocker_many_entries_spec_scenario :
    (IsAbs "/w".toList = true ∧ demoMains.length ≠ 1 ∧
      specRels "/w".toList demoMains = some ["a.go".toList, "b.go".toList] ∧
      specRels "/w".toList demoDeps = some ["util/u.go".toList]) ∧
    RunCodeInDocker demoRunner (some "/home/u".toList) 0 langGo "/w".toList demoMains
        demoDeps "/app".toList
      = (Outcome.ret ("==== Output for a.go ====\n[ERROR] exit status 1\n" ++
            "# command-line-arguments\n==== Output for b.go ====\nhello\n").toList none,
         [specCall "/w".toList "/app".toList
            ["a.go".toList, "b.go".toList, "util/u.go".toList],
          specCall "/w".toList "/app".toList ["a.go".toList, "util/u.go".toList],
          specCall "/w".toList "/app".toList ["b.go".toList, "util/u.go".toList]],
         3) :=
  ⟨⟨by decide, by decide, by decide, by decide⟩,
   (RunCodeInDocker_many_entries_spec demoRunner (some "/home/u".toList) 0 "/w".toList
      demoMains demoDeps "/app".toList ["a.go".toList, "b.go".toList] ["util/u.go".toList]
      (by decide) (by decide) (by decide) (by decide)).trans (by decide)⟩

/-! ## The run command for a relative working directory -/

end AgentCat
